import Mathlib

/-!
# Verification of the souffle semantic-analysis core

This file gives a shallow embedding, in Lean 4, of the semantic checker and
type analysis of the souffle Datalog front-end (files
`src/AstSemanticChecker.cpp` and `src/AstTypeAnalysis.cpp`), together with
proofs and refutations of the specification's claims about it.

Components whose C++ sources are not part of the repository snapshot
(the ground analysis `getGroundedTerms`, the type lattice, the constraint
classes, the precedence graph and the auxiliary analyses) are modelled from
the specification's description; each such definition carries a doc comment
starting with `Modelled from the spec:`.
-/

set_option maxHeartbeats 1000000

namespace SouffleCore

/-! ## Kinds, operators -/

/-- The three primitive kinds of the type system. -/
inductive Kind where
  | symbol
  | number
  | record
deriving DecidableEq, Repr

/-- Intrinsic functor operations (a representative subset of `FunctorOp`):
`fmax`/`fmin` are the MAX/MIN functors treated specially by constraint
generation, `add`/`sub` are numeric, `cat` is symbolic, `ord` maps a symbol
to a number. -/
inductive FunctorOp where
  | fmax
  | fmin
  | add
  | sub
  | cat
  | ord
deriving DecidableEq, Repr

/-- Whether the intrinsic functor is MAX or MIN (`FunctorOp::MAX/MIN`). -/
def FunctorOp.isMinMax : FunctorOp → Bool
  | .fmax => true
  | .fmin => true
  | _ => false

/-- Output kind of an intrinsic functor (`isSymbolic`/`isNumerical`). -/
def FunctorOp.outKind : FunctorOp → Kind
  | .cat => .symbol
  | _ => .number

/-- `AstIntrinsicFunctor::isNumerical` — the result is numeric. -/
def FunctorOp.isNumerical (op : FunctorOp) : Bool := op.outKind == Kind.number

/-- `AstIntrinsicFunctor::acceptsNumbers(i)` — argument kind is numeric.
`cat` takes symbols, `ord` takes a symbol; all other ops take numbers. -/
def FunctorOp.acceptsNumbersAt (op : FunctorOp) (_i : Nat) : Bool :=
  match op with
  | .cat => false
  | .ord => false
  | _ => true

/-- `AstIntrinsicFunctor::acceptsSymbols(i)`. -/
def FunctorOp.acceptsSymbolsAt (op : FunctorOp) (i : Nat) : Bool :=
  !(op.acceptsNumbersAt i)

/-- Aggregation operators of `AstAggregator`. -/
inductive AggOp where
  | count
  | sum
  | amin
  | amax
deriving DecidableEq, Repr

/-- Binary constraint operators (`BinaryConstraintOp`): `eq`, `ne`, the
numeric orderings, and the symbolic predicates. -/
inductive BinOp where
  | eq
  | ne
  | lt
  | le
  | gt
  | ge
  | scontains
  | smatch
deriving DecidableEq, Repr

/-- `AstBinaryConstraint::isNumerical` — ordering constraints on numbers. -/
def BinOp.isNumerical : BinOp → Bool
  | .lt | .le | .gt | .ge => true
  | _ => false

/-- `AstBinaryConstraint::isSymbolic`. -/
def BinOp.isSymbolic : BinOp → Bool
  | .scontains | .smatch => true
  | _ => false

/-! ## The AST

Every node carries a source location, modelled as a `Nat`.  Arguments and
literals are mutually inductive because an aggregator's body is a list of
literals.  A negation stores its inner atom inline (location of the
negation, location of the atom, relation name, arguments). -/

mutual
inductive Arg : Type where
  | var (loc : Nat) (name : String)
  | unnamed (loc : Nat)
  | num (loc : Nat) (value : Int)
  | strc (loc : Nat) (value : String)
  | nilc (loc : Nat)
  | counter (loc : Nat)
  | typecast (loc : Nat) (tyName : String) (value : Arg)
  | intrinsic (loc : Nat) (op : FunctorOp) (args : List Arg)
  | udf (loc : Nat) (name : String) (args : List Arg)
  | recInit (loc : Nat) (tyName : String) (args : List Arg)
  | agg (loc : Nat) (op : AggOp) (target : Option Arg) (body : List Lit)

inductive Lit : Type where
  | atom (loc : Nat) (rel : String) (args : List Arg)
  | neg (loc : Nat) (atomLoc : Nat) (rel : String) (args : List Arg)
  | binary (loc : Nat) (op : BinOp) (lhs rhs : Arg)
  | boolc (loc : Nat) (value : Bool)
end

/-- Source location of an argument node. -/
def Arg.loc : Arg → Nat
  | .var l _ | .unnamed l | .num l _ | .strc l _ | .nilc l | .counter l
  | .typecast l _ _ | .intrinsic l _ _ | .udf l _ _ | .recInit l _ _
  | .agg l _ _ _ => l

/-- Source location of a literal node. -/
def Lit.loc : Lit → Nat
  | .atom l _ _ | .neg l _ _ _ | .binary l _ _ _ | .boolc l _ => l

/-! ## Declarations and programs -/

/-- A relation attribute: name, type name, source location. -/
structure AttrDecl where
  aname : String
  typeName : String
  loc : Nat
deriving DecidableEq, Repr

/-- Relation representation; only the `eqrel` variant matters to the
semantic checks. -/
inductive RelRepr where
  | std
  | eqrel
deriving DecidableEq, Repr

/-- A single order of an execution plan: its length, whether it is
complete, and its source location. -/
structure PlanOrder where
  len : Nat
  complete : Bool
  loc : Nat
deriving DecidableEq, Repr

/-- An execution plan: orders indexed by version. -/
structure ExecPlan where
  orders : List (Nat × PlanOrder)
deriving DecidableEq, Repr

/-- A clause: one head atom (location, relation name, arguments) and a body
of literals, plus the `isGenerated` flag and an optional execution plan.
A fact is a clause with empty body. -/
structure Clause where
  headLoc : Nat
  headRel : String
  headArgs : List Arg
  body : List Lit
  generated : Bool
  plan : Option ExecPlan

/-- The head of a clause viewed as an atom literal. -/
def Clause.headAtom (c : Clause) : Lit := .atom c.headLoc c.headRel c.headArgs

/-- `AstClause::isFact`. -/
def Clause.isFact (c : Clause) : Bool := c.body.isEmpty

/-- A relation declaration with its attached clauses and qualifier flags. -/
structure RelDecl where
  rname : String
  attrs : List AttrDecl
  representation : RelRepr
  inlineFlag : Bool
  suppressedFlag : Bool
  inputFlag : Bool
  outputFlag : Bool
  clauses : List Clause
  loc : Nat

/-- Arity of a relation (`AstRelation::getArity`). -/
def RelDecl.arity (r : RelDecl) : Nat := r.attrs.length

/-- A user type declaration: primitive (`.type`/`.number_type`), union, or
record (field name together with field type name). -/
inductive TypeDecl where
  | primitive (name : String) (numeric : Bool) (loc : Nat)
  | unionT (name : String) (members : List String) (loc : Nat)
  | recordT (name : String) (fields : List (String × String)) (loc : Nat)
deriving DecidableEq, Repr

/-- The name of a type declaration. -/
def TypeDecl.name : TypeDecl → String
  | .primitive n _ _ | .unionT n _ _ | .recordT n _ _ => n

/-- Source location of a type declaration. -/
def TypeDecl.tloc : TypeDecl → Nat
  | .primitive _ _ l | .unionT _ _ l | .recordT _ _ l => l

/-- An IO directive (load / store / printSize): relation name, location. -/
structure IODirective where
  relName : String
  loc : Nat
deriving DecidableEq, Repr

/-- A user-defined functor declaration: name, argument kinds, output kind.
Only `symbol` and `number` occur as kinds. -/
structure FunctorDecl where
  fname : String
  argKinds : List Kind
  outKind : Kind
deriving DecidableEq, Repr

/-- `AstFunctorDeclaration::getArgCount`. -/
def FunctorDecl.argCount (f : FunctorDecl) : Nat := f.argKinds.length

/-- `acceptsNumbers(i)` of a functor declaration. -/
def FunctorDecl.acceptsNumbersAt (f : FunctorDecl) (i : Nat) : Bool :=
  f.argKinds.getD i Kind.symbol == Kind.number

/-- `acceptsSymbols(i)` of a functor declaration. -/
def FunctorDecl.acceptsSymbolsAt (f : FunctorDecl) (i : Nat) : Bool :=
  f.argKinds.getD i Kind.symbol == Kind.symbol

/-- The program: type declarations, relations (owning their clauses),
orphan clauses (clauses whose head relation is not declared, kept separate
by `AstProgram`), IO directives and functor declarations. -/
structure Program where
  types : List TypeDecl
  relations : List RelDecl
  orphanClauses : List Clause
  loads : List IODirective
  stores : List IODirective
  printSizes : List IODirective
  functors : List FunctorDecl

/-- `AstProgram::getRelation` — lookup by name. -/
def Program.getRelation (p : Program) (n : String) : Option RelDecl :=
  p.relations.find? (fun r => r.rname == n)

/-- `AstProgram::getType` — lookup by name. -/
def Program.getType (p : Program) (n : String) : Option TypeDecl :=
  p.types.find? (fun t => t.name == n)

/-- `AstProgram::getFunctorDeclaration`. -/
def Program.getFunctorDeclaration (p : Program) (n : String) : Option FunctorDecl :=
  p.functors.find? (fun f => f.fname == n)

end SouffleCore

namespace SouffleCore

/-! ## Depth-first subterm collectors

These model `visitDepthFirst`: pre-order enumeration of all argument
subterms and all literal subterms of a node. -/

mutual
/-- All argument subterms of an argument, itself included, pre-order. -/
def Arg.subArgs : Arg → List Arg
  | .typecast l t v => .typecast l t v :: v.subArgs
  | .intrinsic l o as => .intrinsic l o as :: subArgsList as
  | .udf l n as => .udf l n as :: subArgsList as
  | .recInit l t as => .recInit l t as :: subArgsList as
  | .agg l o t b => .agg l o t b :: (subArgsOpt t ++ subArgsLits b)
  | a => [a]

/-- Argument subterms of an optional argument. -/
def subArgsOpt : Option Arg → List Arg
  | none => []
  | some a => a.subArgs

/-- Argument subterms of a list of arguments. -/
def subArgsList : List Arg → List Arg
  | [] => []
  | a :: as => a.subArgs ++ subArgsList as

/-- Argument subterms of a list of literals. -/
def subArgsLits : List Lit → List Arg
  | [] => []
  | l :: ls => l.subArgs ++ subArgsLits ls

/-- All argument subterms of a literal. -/
def Lit.subArgs : Lit → List Arg
  | .atom _ _ as => subArgsList as
  | .neg _ _ _ as => subArgsList as
  | .binary _ _ a b => a.subArgs ++ b.subArgs
  | .boolc _ _ => []
end

mutual
/-- All literal subterms of an argument (literals inside aggregator
bodies, at any depth). -/
def Arg.subLits : Arg → List Lit
  | .typecast _ _ v => v.subLits
  | .intrinsic _ _ as => subLitsList as
  | .udf _ _ as => subLitsList as
  | .recInit _ _ as => subLitsList as
  | .agg _ _ t b => subLitsOpt t ++ subLitsLits b
  | _ => []

/-- Literal subterms of an optional argument. -/
def subLitsOpt : Option Arg → List Lit
  | none => []
  | some a => a.subLits

/-- Literal subterms of a list of arguments. -/
def subLitsList : List Arg → List Lit
  | [] => []
  | a :: as => a.subLits ++ subLitsList as

/-- Literal subterms of a list of literals (each literal included). -/
def subLitsLits : List Lit → List Lit
  | [] => []
  | l :: ls => l.subLits1 ++ subLitsLits ls

/-- All literal subterms of a literal, itself included, pre-order. -/
def Lit.subLits1 : Lit → List Lit
  | .atom l r as => .atom l r as :: subLitsList as
  | .neg l al r as => .neg l al r as :: subLitsList as
  | .binary l o a b => .binary l o a b :: (a.subLits ++ b.subLits)
  | .boolc l v => [.boolc l v]
end

/-- All argument subterms of a clause (head atom and body). -/
def Clause.allArgs (c : Clause) : List Arg :=
  subArgsList c.headArgs ++ subArgsLits c.body

/-- All literal subterms of a clause, head atom included. -/
def Clause.allLits (c : Clause) : List Lit :=
  c.headAtom.subLits1 ++ subLitsLits c.body

/-- View of a literal as an atom: positive atoms are themselves, and the
inner atom of a negation counts as an atom (as `visitDepthFirst<AstAtom>`
does); location, relation name and arguments. -/
def litAtomView : Lit → Option (Nat × String × List Arg)
  | .atom l r as => some (l, r, as)
  | .neg _ al r as => some (al, r, as)
  | _ => none

/-- All atoms of a clause: location, relation name, arguments. -/
def Clause.atoms (c : Clause) : List (Nat × String × List Arg) :=
  c.allLits.filterMap litAtomView

/-! ## Type-environment validity (the lattice gate)

`Modelled from the spec:` the `TypeLattice` sources are not in the
snapshot.  Per the spec, `isValid()` is false when construction detected a
malformed type environment: a mixed-kind union, an undefined base type, or
a record referencing a missing type.  Union kinds are computed through a
fuel-bounded traversal of union membership (a cyclic union exhausts the
fuel and is reported invalid). -/

/-- Kind of a declared type name, resolved through unions with fuel;
`none` for undefined names, mixed or cyclic unions, or unions containing a
record type. -/
def typeKindF (p : Program) : Nat → String → Option Kind
  | 0, _ => none
  | fuel + 1, n =>
    if n == "number" then some .number
    else if n == "symbol" then some .symbol
    else
      match p.getType n with
      | some (.primitive _ numeric _) => some (if numeric then .number else .symbol)
      | some (.recordT _ _ _) => some .record
      | some (.unionT _ mems _) =>
        let ks := mems.map (typeKindF p fuel)
        if ks.all (fun k => k == some Kind.number) then some .number
        else if ks.all (fun k => k == some Kind.symbol) then some .symbol
        else none
      | none => none

/-- Kind of a declared type name (fuel instantiated). -/
def typeKind (p : Program) (n : String) : Option Kind :=
  typeKindF p (p.types.length + 1) n

/-- `Modelled from the spec:` `TypeLattice::isValid`. -/
def latticeValid (p : Program) : Bool :=
  p.types.all fun t =>
    match t with
    | .primitive _ _ _ => true
    | .unionT n _ _ =>
      match typeKind p n with
      | some .number => true
      | some .symbol => true
      | _ => false
    | .recordT _ fields _ =>
      fields.all fun f =>
        f.2 == "number" || f.2 == "symbol" || (p.getType f.2).isSome

/-! ## `TypeAnalysis::isInvalidClause` and `TypeAnalysis::run` (C1) -/

/-- The atom conditions of `TypeAnalysis::isInvalidClause`: the relation
exists, arities match, and every attribute of the relation has a defined
type. -/
def atomOkForTyping (p : Program) (rel : String) (arity : Nat) : Bool :=
  match p.getRelation rel with
  | none => false
  | some r =>
    r.arity == arity &&
    r.attrs.all fun a =>
      a.typeName == "symbol" || a.typeName == "number" || (p.getType a.typeName).isSome

/-- The user-defined-functor condition of `isInvalidClause`. -/
def udfOkForTyping (p : Program) (n : String) (argc : Nat) : Bool :=
  match p.getFunctorDeclaration n with
  | none => false
  | some f => f.argCount == argc

/-- The record condition of `isInvalidClause`: the constructor's type name
resolves to a record type with as many fields as arguments. -/
def recOkForTyping (p : Program) (n : String) (argc : Nat) : Bool :=
  match p.getType n with
  | some (.recordT _ fields _) => argc == fields.length
  | _ => false

/-- The type-cast condition of `isInvalidClause`. -/
def castOkForTyping (p : Program) (n : String) : Bool :=
  n == "symbol" || n == "number" || (p.getType n).isSome

/-- `TypeAnalysis::isInvalidClause`.  NOTE the source polarity: despite
its name the function returns `true` when the clause is VALID for typing
(its local variable is called `valid`); the single call site compensates
by negating the result. -/
def TypeAnalysis.isInvalidClause (p : Program) (c : Clause) : Bool :=
  (c.atoms.all fun t => atomOkForTyping p t.2.1 t.2.2.length) &&
  (c.allArgs.all fun a =>
    match a with
    | .udf _ n as => udfOkForTyping p n as.length
    | _ => true) &&
  (c.allArgs.all fun a =>
    match a with
    | .recInit _ n as => recOkForTyping p n as.length
    | _ => true) &&
  (c.allArgs.all fun a =>
    match a with
    | .typecast _ n _ => castOkForTyping p n
    | _ => true)

/-- Clauses attached to declared relations, in program order. -/
def Program.attachedClauses (p : Program) : List Clause :=
  p.relations.flatMap (fun r => r.clauses)

/-- Result of the clause scan of `TypeAnalysis::run`. -/
structure TAResult where
  typedClauses : List Clause
  hasInvalidClauses : Bool

/-- The clause scan of `TypeAnalysis::run`: when the lattice is valid,
each clause of each relation is skipped (setting the invalid flag) when
`!isInvalidClause`, and kept in `typedClauses` otherwise; when the lattice
is invalid nothing runs.  Orphan clauses are not visited. -/
def TypeAnalysis.run (p : Program) : TAResult :=
  if latticeValid p then
    { typedClauses := p.attachedClauses.filter (fun c => TypeAnalysis.isInvalidClause p c)
    , hasInvalidClauses := p.attachedClauses.any (fun c => !TypeAnalysis.isInvalidClause p c) }
  else
    { typedClauses := [], hasInvalidClauses := false }

/-! Spec-side wording of C1: the six defect conditions. -/

/-- C1 wording: the clause references an undefined relation. -/
def refsUndefinedRelation (p : Program) (c : Clause) : Bool :=
  c.atoms.any fun t => (p.getRelation t.2.1).isNone

/-- C1 wording: the clause has an atom-arity mismatch. -/
def hasAtomArityMismatch (p : Program) (c : Clause) : Bool :=
  c.atoms.any fun t =>
    match p.getRelation t.2.1 with
    | some r => !(r.arity == t.2.2.length)
    | none => false

/-- C1 wording: some atom's relation uses an attribute whose type name is
neither `number`, `symbol`, nor a declared type. -/
def usesUndeclaredAttributeType (p : Program) (c : Clause) : Bool :=
  c.atoms.any fun t =>
    match p.getRelation t.2.1 with
    | some r =>
      r.attrs.any fun a =>
        !(a.typeName == "symbol" || a.typeName == "number" || (p.getType a.typeName).isSome)
    | none => false

/-- C1 wording: the clause calls an undefined or wrong-arity user functor. -/
def callsBadUserFunctor (p : Program) (c : Clause) : Bool :=
  c.allArgs.any fun a =>
    match a with
    | .udf _ n as => !udfOkForTyping p n as.length
    | _ => false

/-- C1 wording: the clause uses a record constructor whose type name does
not resolve to a record type or whose argument count differs from the
record's field count. -/
def usesBadRecordInit (p : Program) (c : Clause) : Bool :=
  c.allArgs.any fun a =>
    match a with
    | .recInit _ n as => !recOkForTyping p n as.length
    | _ => false

/-- C1 wording: the clause casts to an undeclared non-primitive type. -/
def castsToUndeclaredType (p : Program) (c : Clause) : Bool :=
  c.allArgs.any fun a =>
    match a with
    | .typecast _ n _ => !castOkForTyping p n
    | _ => false

/-- C1 wording: the clause is structurally unfit for typing. -/
def structurallyUnfit (p : Program) (c : Clause) : Bool :=
  refsUndefinedRelation p c || hasAtomArityMismatch p c ||
  usesUndeclaredAttributeType p c || callsBadUserFunctor p c ||
  usesBadRecordInit p c || castsToUndeclaredType p c

end SouffleCore

namespace SouffleCore

/-! ## Diagnostics -/

/-- A simple diagnostic of the `ErrorReport`: severity (error/warning),
message, source location. -/
structure Diag where
  isError : Bool
  msg : String
  loc : Nat
deriving DecidableEq, Repr

/-- `ErrorReport::addError`. -/
def mkError (m : String) (l : Nat) : Diag := ⟨true, m, l⟩

/-- `ErrorReport::addWarning`. -/
def mkWarning (m : String) (l : Nat) : Diag := ⟨false, m, l⟩

/-- The errors of a diagnostic stream. -/
def errorsOf (ds : List Diag) : List Diag := ds.filter (fun d => d.isError)

/-! ## Boolean helper lemmas -/

/-- `any` distributes over a pointwise disjunction. -/
theorem anyOrSplit (l : List α) (f g : α → Bool) :
    (l.any fun x => f x || g x) = (l.any f || l.any g) := by
  induction l with
  | nil => rfl
  | cons a t ih => cases hf : f a <;> cases hg : g a <;> simp [hf, hg, ih]

/-- Negation of `all` is `any` of the negation. -/
theorem notAllAny (l : List α) (f : α → Bool) :
    (!l.all f) = l.any (fun x => !f x) := by
  induction l with
  | nil => rfl
  | cons a t ih => cases hf : f a <;> simp [hf, ih]

/-! ## C1: the skipping of structurally unfit clauses -/

/-- Pointwise: an atom fails `atomOkForTyping` exactly for the three
reasons named by the claim. -/
theorem bad_atom_pointwise (p : Program) (t : Nat × String × List Arg) :
    (!atomOkForTyping p t.2.1 t.2.2.length) =
      ((p.getRelation t.2.1).isNone ||
       (match p.getRelation t.2.1 with
        | some r => !(r.arity == t.2.2.length)
        | none => false) ||
       (match p.getRelation t.2.1 with
        | some r =>
          r.attrs.any fun a =>
            !(a.typeName == "symbol" || a.typeName == "number" ||
              (p.getType a.typeName).isSome)
        | none => false)) := by
  cases h : p.getRelation t.2.1 with
  | none => simp [atomOkForTyping, h]
  | some r =>
    simp only [atomOkForTyping, h, Option.isNone_some, Bool.false_or, Bool.not_and,
      notAllAny]

/-- `isInvalidClause` (which, despite its name, returns `true` on valid
clauses) is the negation of the claim's structural-unfitness predicate. -/
theorem isInvalidClause_eq_not_unfit (p : Program) (c : Clause) :
    TypeAnalysis.isInvalidClause p c = !structurallyUnfit p c := by
  have hatom :
      (refsUndefinedRelation p c || hasAtomArityMismatch p c ||
        usesUndeclaredAttributeType p c) =
      (!c.atoms.all fun t => atomOkForTyping p t.2.1 t.2.2.length) := by
    rw [refsUndefinedRelation, hasAtomArityMismatch, usesUndeclaredAttributeType,
      notAllAny, ← anyOrSplit, ← anyOrSplit]
    congr 1
    funext t
    exact (bad_atom_pointwise p t).symm
  have hudf : callsBadUserFunctor p c =
      (!c.allArgs.all fun a =>
        match a with
        | .udf _ n as => udfOkForTyping p n as.length
        | _ => true) := by
    rw [notAllAny, callsBadUserFunctor]
    congr 1
    funext a
    cases a <;> rfl
  have hrec : usesBadRecordInit p c =
      (!c.allArgs.all fun a =>
        match a with
        | .recInit _ n as => recOkForTyping p n as.length
        | _ => true) := by
    rw [notAllAny, usesBadRecordInit]
    congr 1
    funext a
    cases a <;> rfl
  have hcast : castsToUndeclaredType p c =
      (!c.allArgs.all fun a =>
        match a with
        | .typecast _ n _ => castOkForTyping p n
        | _ => true) := by
    rw [notAllAny, castsToUndeclaredType]
    congr 1
    funext a
    cases a <;> rfl
  rw [structurallyUnfit, TypeAnalysis.isInvalidClause, hatom, hudf, hrec, hcast]
  cases (c.atoms.all fun t => atomOkForTyping p t.2.1 t.2.2.length) <;>
    cases (c.allArgs.all fun a =>
      match a with
      | .udf _ n as => udfOkForTyping p n as.length
      | _ => true) <;>
    cases (c.allArgs.all fun a =>
      match a with
      | .recInit _ n as => recOkForTyping p n as.length
      | _ => true) <;>
    cases (c.allArgs.all fun a =>
      match a with
      | .typecast _ n _ => castOkForTyping p n
      | _ => true) <;> rfl

end SouffleCore

namespace SouffleCore

/-- C1 (amended).  When the type lattice is valid: a clause attached to a
declared relation is typed if and only if it is free of the six structural
defects, and the invalid-clauses flag is recorded if and only if some
attached clause has a defect.  (As the counterexample shows, the claim as
stated fails for orphan clauses — which are never typed and never recorded
— and when the lattice is invalid, where nothing is typed.) -/
theorem typeAnalysis_skips_exactly_unfit_clauses (p : Program) (c : Clause)
    (hv : latticeValid p = true) :
    (c ∈ (TypeAnalysis.run p).typedClauses ↔
      (∃ r ∈ p.relations, c ∈ r.clauses) ∧ structurallyUnfit p c = false) ∧
    ((TypeAnalysis.run p).hasInvalidClauses = true ↔
      ∃ r ∈ p.relations, ∃ c0 ∈ r.clauses, structurallyUnfit p c0 = true) := by
  rw [TypeAnalysis.run, if_pos hv]
  constructor
  · rw [List.mem_filter, isInvalidClause_eq_not_unfit]
    simp only [Program.attachedClauses, List.mem_flatMap, Bool.not_eq_eq_eq_not,
      Bool.not_true]
  · simp only [List.any_eq_true, Program.attachedClauses, List.mem_flatMap,
      isInvalidClause_eq_not_unfit, Bool.not_not]
    constructor
    · rintro ⟨c0, ⟨r, hr, hc⟩, hu⟩
      exact ⟨r, hr, c0, hc, hu⟩
    · rintro ⟨r, hr, c0, hc, hu⟩
      exact ⟨c0, ⟨r, hr, hc⟩, hu⟩

/-! Concrete programs for the C1 witness and counterexample. -/

/-- The clause `r(1).`. -/
def clauseR1 : Clause :=
  { headLoc := 1, headRel := "r", headArgs := [.num 2 1], body := [],
    generated := false, plan := none }

/-- The orphan clause `q(1).` (relation `q` is not declared). -/
def clauseQ1 : Clause :=
  { headLoc := 3, headRel := "q", headArgs := [.num 4 1], body := [],
    generated := false, plan := none }

/-- The relation `.decl r(x:number)` with the single clause `r(1).`. -/
def relR : RelDecl :=
  { rname := "r", attrs := [⟨"x", "number", 5⟩], representation := .std,
    inlineFlag := false, suppressedFlag := false, inputFlag := false,
    outputFlag := false, clauses := [clauseR1], loc := 6 }

/-- Witness program: `.decl r(x:number)  r(1).`. -/
def progW1 : Program :=
  { types := [], relations := [relR], orphanClauses := [], loads := [],
    stores := [], printSizes := [], functors := [] }

/-- Counterexample program for C1: a mixed-kind union `.type U = number |
symbol` (making the lattice invalid) together with the defect-free
attached clause `r(1).` and the defective orphan clause `q(1).`. -/
def progC1X : Program :=
  { types := [.unionT "U" ["number", "symbol"] 7], relations := [relR],
    orphanClauses := [clauseQ1], loads := [], stores := [], printSizes := [],
    functors := [] }

/-- Counterexample to C1 as stated.  In `progC1X` the orphan clause
`q(1).` references an undefined relation — a defect — yet the
invalid-clauses flag is not recorded; and the attached clause `r(1).` has
no defect yet is not typed (the invalid lattice suppresses the whole
scan).  So "skipped (excluded and flag recorded) iff defective, every
other clause typed" is false on this program. -/
theorem c1_counterexample :
    structurallyUnfit progC1X clauseQ1 = true ∧
    (TypeAnalysis.run progC1X).hasInvalidClauses = false ∧
    structurallyUnfit progC1X clauseR1 = false ∧
    (TypeAnalysis.run progC1X).typedClauses = [] := by
  refine ⟨by rfl, by rfl, by rfl, by rfl⟩

/-- Witness for the amended C1 theorem at `progW1` and `r(1).`,
discharging the lattice-validity hypothesis concretely. -/
theorem typeAnalysis_skips_witness :
    latticeValid progW1 = true ∧
    (clauseR1 ∈ (TypeAnalysis.run progW1).typedClauses ↔
      (∃ r ∈ progW1.relations, clauseR1 ∈ r.clauses) ∧
      structurallyUnfit progW1 clauseR1 = false) :=
  ⟨by rfl, (typeAnalysis_skips_exactly_unfit_clauses progW1 clauseR1 (by rfl)).1⟩

/-! ## C9: the equivalence-relation check -/

/-- The `EQREL` block at the head of `AstSemanticChecker::checkRelation`:
an equivalence relation must be binary, and its two attribute type names
must agree. -/
def checkRelationEqrel (r : RelDecl) : List Diag :=
  if r.representation == RelRepr.eqrel then
    match r.attrs with
    | [a, b] =>
      if a.typeName == b.typeName then []
      else [mkError ("Domains of equivalence relation " ++ r.rname ++ " are different") r.loc]
    | _ => [mkError ("Equivalence relation " ++ r.rname ++ " is not binary") r.loc]
  else []

/-- C9.  For a relation of representation `equivalence`: the check accepts
it iff the arity is exactly 2 and both attribute type names agree; an
arity other than 2 produces the `not binary` error, and differing type
names at arity 2 produce the `domains are different` error. -/
theorem eqrel_check_characterization (r : RelDecl)
    (h : r.representation = RelRepr.eqrel) :
    (checkRelationEqrel r = [] ↔
      ∃ a b, r.attrs = [a, b] ∧ a.typeName = b.typeName) ∧
    (r.arity ≠ 2 →
      checkRelationEqrel r =
        [mkError ("Equivalence relation " ++ r.rname ++ " is not binary") r.loc]) ∧
    (∀ a b, r.attrs = [a, b] → a.typeName ≠ b.typeName →
      checkRelationEqrel r =
        [mkError ("Domains of equivalence relation " ++ r.rname ++ " are different") r.loc]) := by
  have hrep : (r.representation == RelRepr.eqrel) = true := by
    rw [h]; rfl
  refine ⟨?_, ?_, ?_⟩
  · rw [checkRelationEqrel, if_pos hrep]
    rcases hA : r.attrs with _ | ⟨a, _ | ⟨b, _ | ⟨c, rest⟩⟩⟩ <;> simp
    constructor
    · intro he
      exact ⟨a, b, ⟨rfl, rfl⟩, he⟩
    · rintro ⟨a2, b2, ⟨h1, h2⟩, h3⟩
      subst h1; subst h2
      exact h3
  · intro har
    rw [checkRelationEqrel, if_pos hrep]
    rcases hA : r.attrs with _ | ⟨a, _ | ⟨b, _ | ⟨c, rest⟩⟩⟩ <;> try rfl
    exact absurd (by rw [RelDecl.arity, hA]; rfl) har
  · intro a b hA hne
    rw [checkRelationEqrel, if_pos hrep, hA]
    simp only []
    rw [if_neg (by simpa using hne)]

/-- Witness for C9: `.decl e(x:T, y:T) eqrel` is accepted, and a unary
eqrel declaration draws the `not binary` error. -/
theorem eqrel_check_witness :
    (checkRelationEqrel
      { rname := "e", attrs := [⟨"x", "T", 1⟩, ⟨"y", "T", 2⟩],
        representation := .eqrel, inlineFlag := false, suppressedFlag := false,
        inputFlag := false, outputFlag := false, clauses := [], loc := 3 } = [] ↔
      ∃ a b, ([⟨"x", "T", 1⟩, ⟨"y", "T", 2⟩] : List AttrDecl) = [a, b] ∧
        a.typeName = b.typeName) :=
  (eqrel_check_characterization _ (by rfl)).1

end SouffleCore

namespace SouffleCore

/-! ## The analysis-type lattice

`Modelled from the spec:` the `TypeLattice` and `AnalysisType` sources are
not in the snapshot.  Analysis types are Top, Bottom, per-kind
top/bottom, per-kind constant types, user base types, user union types
(kind plus the transitive set of base-type names, kept deduplicated), and
user record types.  `isSubtype` is the reflexive, transitive, antisymmetric
order described by the spec; `join`/`meet` return an upper/lower bound,
with `meet` of incompatible kinds giving Bottom and `meet` within a kind
with no common inhabitant giving the kind's bottom. -/

inductive AnalysisType where
  | top
  | bot
  | topPrim (k : Kind)
  | botPrim (k : Kind)
  | constant (k : Kind)
  | base (name : String) (k : Kind)
  | unionA (name : String) (k : Kind) (members : List String)
  | recordA (name : String)
deriving DecidableEq, Repr

/-- The kind of an analysis type (`none` for Top and Bottom). -/
def kindOf : AnalysisType → Option Kind
  | .top | .bot => none
  | .topPrim k | .botPrim k | .constant k | .base _ k | .unionA _ k _ => some k
  | .recordA _ => some .record

/-- Containment of one member list in another. -/
def containsAll (m1 m2 : List String) : Bool := m1.all (fun x => m2.contains x)

/-- `Modelled from the spec:` `TypeLattice::isSubtype`. -/
def typeLe (a b : AnalysisType) : Bool :=
  match a, b with
  | .bot, _ => true
  | _, .top => true
  | .botPrim k, x => kindOf x == some k
  | x, .topPrim k => kindOf x == some k
  | .constant k, .constant k2 => k == k2
  | .constant k, .base _ k2 => k == k2
  | .constant k, .unionA _ k2 _ => k == k2
  | .constant k, .recordA _ => k == Kind.record
  | .base n k, .base n2 k2 => n == n2 && k == k2
  | .base n k, .unionA _ k2 mem => k == k2 && mem.contains n
  | .recordA n, .recordA n2 => n == n2
  | .unionA n k mem, .unionA n2 k2 mem2 =>
    (n == n2 && k == k2 && mem == mem2) ||
    (k == k2 && containsAll mem mem2 && !containsAll mem2 mem)
  | _, _ => false

/-- `isSubtype` is reflexive. -/
theorem typeLe_refl (a : AnalysisType) : typeLe a a = true := by
  cases a <;> simp [typeLe, kindOf, containsAll]

/-- `isSubtype` is antisymmetric. -/
theorem typeLe_antisymm (a b : AnalysisType)
    (h1 : typeLe a b = true) (h2 : typeLe b a = true) : a = b := by
  cases a <;> cases b <;>
    simp_all [typeLe, kindOf, containsAll]
  rcases h1 with ⟨⟨hn, hk⟩, hm⟩ | ⟨⟨hk, hsub⟩, x, hx2, hx1⟩
  · exact ⟨hn, hk, hm⟩
  · rcases h2 with ⟨⟨hn2, hk2⟩, hm2⟩ | ⟨⟨hk2, hsub2⟩, y, hy1, hy2⟩
    · exact ⟨hn2.symm, hk2.symm, hm2.symm⟩
    · exact absurd (hsub2 x hx2) hx1

/-- `Modelled from the spec:` `TypeLattice::meet` — a lower bound of its
arguments. -/
def typeMeet (a b : AnalysisType) : AnalysisType :=
  if typeLe a b then a
  else if typeLe b a then b
  else
    match kindOf a, kindOf b with
    | some k, some k2 => if k == k2 then .botPrim k else .bot
    | _, _ => .bot

/-- `Modelled from the spec:` `TypeLattice::join` — an upper bound of its
arguments. -/
def typeJoin (a b : AnalysisType) : AnalysisType :=
  if typeLe a b then b
  else if typeLe b a then a
  else
    match kindOf a, kindOf b with
    | some k, some k2 => if k == k2 then .topPrim k else .top
    | _, _ => .top

/-- Bottom is below everything. -/
theorem typeLe_bot (a : AnalysisType) : typeLe .bot a = true := by
  cases a <;> rfl

/-- The bottom of a kind is below every type of that kind. -/
theorem typeLe_botPrim_of_kind (k : Kind) (a : AnalysisType)
    (h : kindOf a = some k) : typeLe (.botPrim k) a = true := by
  cases a <;> simp_all [typeLe, kindOf]

/-- The meet is below its left argument. -/
theorem typeMeet_le_left (a b : AnalysisType) : typeLe (typeMeet a b) a = true := by
  rw [typeMeet]
  split_ifs with h1 h2
  · exact typeLe_refl a
  · exact h2
  · cases hka : kindOf a <;> cases hkb : kindOf b
    · exact typeLe_bot a
    · exact typeLe_bot a
    · exact typeLe_bot a
    · rename_i k k2
      show typeLe (if (k == k2) = true then AnalysisType.botPrim k else AnalysisType.bot) a = true
      by_cases hk : (k == k2) = true
      · rw [if_pos hk]
        exact typeLe_botPrim_of_kind k a hka
      · rw [if_neg hk]
        exact typeLe_bot a

/-- The meet is below its right argument. -/
theorem typeMeet_le_right (a b : AnalysisType) : typeLe (typeMeet a b) b = true := by
  rw [typeMeet]
  split_ifs with h1 h2
  · exact h1
  · exact typeLe_refl b
  · cases hka : kindOf a <;> cases hkb : kindOf b
    · exact typeLe_bot b
    · exact typeLe_bot b
    · exact typeLe_bot b
    · rename_i k k2
      show typeLe (if (k == k2) = true then AnalysisType.botPrim k else AnalysisType.bot) b = true
      by_cases hk : (k == k2) = true
      · rw [if_pos hk]
        have hkk : k = k2 := by simpa using hk
        subst hkk
        exact typeLe_botPrim_of_kind k b hkb
      · rw [if_neg hk]
        exact typeLe_bot b

end SouffleCore

namespace SouffleCore

/-! ## Heights in the lattice

The union size `usz` and the height function `hgtL` witness the finite
height of the lattice: along any strict ascent the height strictly grows,
provided union sizes stay below the parameter `L` (which the solver
computes from the constraint set at hand). -/

/-- Number of distinct members of a union type; 0 otherwise. -/
def usz : AnalysisType → Nat
  | .unionA _ _ mem => mem.dedup.length
  | _ => 0

/-- Height of an analysis type, parameterized by a bound `L` on the union
sizes in play. -/
def hgtL (L : Nat) : AnalysisType → Nat
  | .bot => 0
  | .botPrim _ => 1
  | .constant _ => 2
  | .base _ _ => 3
  | .recordA _ => 3
  | .unionA _ _ mem => 4 + mem.dedup.length
  | .topPrim _ => 4 + L
  | .top => 5 + L

/-- Proper containment of member lists strictly increases the number of
distinct members. -/
theorem containsAll_dedup_lt (m1 m2 : List String)
    (h1 : containsAll m1 m2 = true) (h2 : containsAll m2 m1 = false) :
    m1.dedup.length < m2.dedup.length := by
  rw [← List.card_toFinset, ← List.card_toFinset]
  apply Finset.card_lt_card
  rw [Finset.ssubset_iff_subset_ne]
  constructor
  · intro x hx
    rw [List.mem_toFinset] at hx ⊢
    have := (List.all_eq_true.mp h1) x hx
    simpa using this
  · intro hEq
    rw [containsAll] at h2
    have : ∀ x ∈ m2, x ∈ m1 := by
      intro x hx
      have : x ∈ m1.toFinset := by
        rw [hEq, List.mem_toFinset]
        exact hx
      simpa using this
    have : m2.all (fun x => m1.contains x) = true := by
      rw [List.all_eq_true]
      intro x hx
      simpa using this x hx
    rw [this] at h2
    exact absurd h2 (by simp)

/-- Strictly ascending in the order strictly increases the height, as long
as the lower type's union size is below `L`. -/
theorem hgtL_strict (L : Nat) (a b : AnalysisType) (hle : typeLe a b = true)
    (hne : a ≠ b) (hb : usz a < L) : hgtL L a < hgtL L b := by
  cases a <;> cases b <;>
    simp_all [typeLe, hgtL, usz, kindOf] <;> try omega
  · rcases hle with ⟨⟨hn, hk⟩, hm⟩ | ⟨⟨hk, h1⟩, h2⟩
    · exact absurd hm (hne hn hk)
    · exact containsAll_dedup_lt _ _ h1 h2

/-- Descending (weakly) in the order weakly decreases the height. -/
theorem hgtL_mono (L : Nat) (a b : AnalysisType) (hle : typeLe a b = true)
    (hb : usz a < L) : hgtL L a ≤ hgtL L b := by
  by_cases h : a = b
  · rw [h]
  · exact Nat.le_of_lt (hgtL_strict L a b hle h hb)

/-- The union size of a meet is bounded by those of its arguments. -/
theorem usz_typeMeet (a b : AnalysisType) :
    usz (typeMeet a b) ≤ max (usz a) (usz b) := by
  rw [typeMeet]
  split_ifs with h1 h2
  · exact Nat.le_max_left _ _
  · exact Nat.le_max_right _ _
  · cases kindOf a <;> cases kindOf b
    · simp [usz]
    · simp [usz]
    · simp [usz]
    · rename_i k k2
      show usz (if (k == k2) = true then AnalysisType.botPrim k else AnalysisType.bot) ≤ _
      split_ifs <;> simp [usz]

/-- The union size of a join is bounded by those of its arguments. -/
theorem usz_typeJoin (a b : AnalysisType) :
    usz (typeJoin a b) ≤ max (usz a) (usz b) := by
  rw [typeJoin]
  split_ifs with h1 h2
  · exact Nat.le_max_right _ _
  · exact Nat.le_max_left _ _
  · cases kindOf a <;> cases kindOf b
    · simp [usz]
    · simp [usz]
    · simp [usz]
    · rename_i k k2
      show usz (if (k == k2) = true then AnalysisType.topPrim k else AnalysisType.top) ≤ _
      split_ifs <;> simp [usz]

end SouffleCore

namespace SouffleCore

/-! ## Solver state and constraints

`Modelled from the spec:` the `TypeConstraint` sources are not in the
snapshot.  The solver state maps each argument occurrence (identified by
its source location, as the C++ maps each node pointer) to a current
analysis type.  Constraints are the four variants of §4.3; each can be
asked `isSatisfied` and `resolve`, and `resolve` only tightens (meets)
the target's type. -/

/-- Solver state: argument location ↦ current analysis type. -/
abbrev SolverSt := List (Nat × AnalysisType)

/-- Current type of a location (`Top` when absent). -/
def getT : SolverSt → Nat → AnalysisType
  | [], _ => .top
  | e :: rest, i => if e.1 == i then e.2 else getT rest i

/-- Update the type at a location. -/
def setT : SolverSt → Nat → AnalysisType → SolverSt
  | [], _, _ => []
  | e :: rest, i, t => (if e.1 == i then (e.1, t) else e) :: setT rest i t

/-- Keys of a solver state. -/
def keysOf (st : SolverSt) : List Nat := st.map Prod.fst

/-- The four constraint variants of §4.3.  An implication's consequent and
requirements are all `Fixed` constraints, stored as (target, type) pairs. -/
inductive Constr where
  | fixedC (target : Nat) (ty : AnalysisType)
  | varC (target source : Nat)
  | unionC (target a b : Nat)
  | implC (conc : Nat × AnalysisType) (reqs : List (Nat × AnalysisType))
deriving DecidableEq, Repr

/-- Satisfaction of a `Fixed` component. -/
def fixedSat (st : SolverSt) (c : Nat × AnalysisType) : Bool :=
  typeLe (getT st c.1) c.2

/-- `Constraint::isSatisfied`. -/
def isSat (st : SolverSt) : Constr → Bool
  | .fixedC i T => typeLe (getT st i) T
  | .varC i j => typeLe (getT st i) (getT st j)
  | .unionC i a b => typeLe (getT st i) (typeJoin (getT st a) (getT st b))
  | .implC conc reqs => !(reqs.all (fixedSat st)) || fixedSat st conc

/-- `type(i) := meet(type(i), T)` — the only state change a resolve makes. -/
def tighten (st : SolverSt) (i : Nat) (T : AnalysisType) : SolverSt :=
  setT st i (typeMeet (getT st i) T)

/-- `Constraint::resolve`. -/
def resolveC (st : SolverSt) : Constr → SolverSt
  | .fixedC i T => tighten st i T
  | .varC i j => tighten st i (getT st j)
  | .unionC i a b => tighten st i (typeJoin (getT st a) (getT st b))
  | .implC conc reqs =>
    if reqs.all (fixedSat st) then tighten st conc.1 conc.2 else st

/-- Types syntactically carried by a constraint. -/
def consTypes : Constr → List AnalysisType
  | .fixedC _ T => [T]
  | .varC _ _ => []
  | .unionC _ _ _ => []
  | .implC conc reqs => conc.2 :: reqs.map Prod.snd

/-- The (unique) location a resolve of the constraint may update. -/
def consTarget : Constr → Nat
  | .fixedC i _ => i
  | .varC i _ => i
  | .unionC i _ _ => i
  | .implC conc _ => conc.1

/-- One pass of `TypeSolver::resolveConstraints`: resolve each constraint
not currently satisfied, recording whether any resolve happened. -/
def passC : List Constr → SolverSt → Bool × SolverSt
  | [], st => (false, st)
  | c :: cs, st =>
    if isSat st c then passC cs st
    else (true, (passC cs (resolveC st c)).2)

/-- The fixed-point loop of `TypeSolver::resolveConstraints`, with fuel. -/
def loopC : Nat → List Constr → SolverSt → SolverSt
  | 0, _, st => st
  | fuel + 1, cs, st =>
    let r := passC cs st
    if r.1 then loopC fuel cs r.2 else r.2

/-! ### State lemmas -/

theorem setT_id_of_not_mem (st : SolverSt) (i : Nat) (t : AnalysisType)
    (h : ∀ e ∈ st, e.1 ≠ i) : setT st i t = st := by
  induction st with
  | nil => rfl
  | cons e rest ih =>
    rw [setT]
    rw [if_neg (by simpa using h e (List.mem_cons_self e rest))]
    rw [ih (fun x hx => h x (List.mem_cons_of_mem _ hx))]

theorem keysOf_setT (st : SolverSt) (i : Nat) (t : AnalysisType) :
    keysOf (setT st i t) = keysOf st := by
  induction st with
  | nil => rfl
  | cons e rest ih =>
    rw [setT, keysOf, List.map_cons]
    by_cases h : (e.1 == i) = true
    · rw [if_pos h]
      rw [keysOf] at ih
      rw [ih]
      rfl
    · rw [if_neg h]
      rw [keysOf] at ih
      rw [ih]
      rfl

theorem getT_setT_ne (st : SolverSt) (i j : Nat) (t : AnalysisType) (h : j ≠ i) :
    getT (setT st i t) j = getT st j := by
  induction st with
  | nil => rfl
  | cons e rest ih =>
    by_cases he : (e.1 == i) = true
    · have hej : (e.1 == j) = false := by
        have : e.1 = i := by simpa using he
        rw [this]
        simpa using fun hh => h hh.symm
      rw [setT, if_pos he, getT, getT]
      simp only [hej, if_false, Bool.false_eq_true]
      exact ih
    · rw [setT, if_neg he, getT, getT]
      by_cases hej : (e.1 == j) = true
      · rw [if_pos hej, if_pos hej]
      · rw [if_neg hej, if_neg hej]
        exact ih

theorem getT_setT_self_of_mem (st : SolverSt) (i : Nat) (t : AnalysisType)
    (h : i ∈ keysOf st) : getT (setT st i t) i = t := by
  induction st with
  | nil => cases h
  | cons e rest ih =>
    by_cases he : (e.1 == i) = true
    · rw [setT, if_pos he, getT, if_pos he]
    · rw [setT, if_neg he, getT, if_neg he]
      apply ih
      rcases List.mem_cons.mp h with h1 | h1
      · exact absurd (by simpa using h1.symm) he
      · exact h1

theorem getT_mem_of_mem_keys (st : SolverSt) (i : Nat) (h : i ∈ keysOf st) :
    ∃ e ∈ st, e.1 = i ∧ e.2 = getT st i := by
  induction st with
  | nil => cases h
  | cons e rest ih =>
    by_cases he : (e.1 == i) = true
    · refine ⟨e, List.mem_cons_self e rest, by simpa using he, ?_⟩
      rw [getT, if_pos he]
    · rcases List.mem_cons.mp h with h1 | h1
      · exact absurd (by simpa using h1.symm) he
      · rcases ih h1 with ⟨e2, he2, hk, hv⟩
        refine ⟨e2, List.mem_cons_of_mem _ he2, hk, ?_⟩
        rw [getT, if_neg he]
        exact hv

end SouffleCore

namespace SouffleCore

/-! ### The termination measure -/

/-- All union sizes in the state are below `L`. -/
def StOK (L : Nat) (st : SolverSt) : Prop := ∀ e ∈ st, usz e.2 < L

/-- Total height of a state. -/
def mSum (L : Nat) (st : SolverSt) : Nat := (st.map (fun e => hgtL L e.2)).sum

theorem mSum_setT (L : Nat) (st : SolverSt) (i : Nat) (t : AnalysisType)
    (hnd : (keysOf st).Nodup) (hmem : i ∈ keysOf st) :
    mSum L (setT st i t) + hgtL L (getT st i) = mSum L st + hgtL L t := by
  induction st with
  | nil => cases hmem
  | cons e rest ih =>
    rw [keysOf, List.map_cons, List.nodup_cons] at hnd
    by_cases he : (e.1 == i) = true
    · have hei : e.1 = i := by simpa using he
      have hrest : setT rest i t = rest := by
        apply setT_id_of_not_mem
        intro x hx hxi
        refine absurd ?_ hnd.1
        rw [hei, ← hxi]
        exact List.mem_map.mpr ⟨x, hx, rfl⟩
      rw [setT, if_pos he, getT, if_pos he, hrest, mSum, mSum, List.map_cons,
        List.map_cons, List.sum_cons, List.sum_cons]
      have hsnd : ((e.1, t).2 : AnalysisType) = t := rfl
      rw [hsnd]
      omega
    · have hmem2 : i ∈ keysOf rest := by
        rcases List.mem_cons.mp hmem with h1 | h1
        · exact absurd (by simpa using h1.symm) he
        · exact h1
      have := ih hnd.2 hmem2
      rw [setT, if_neg he, getT, if_neg he, mSum, mSum, List.map_cons,
        List.map_cons, List.sum_cons, List.sum_cons]
      rw [mSum, mSum] at this
      omega

theorem getT_usz (L : Nat) (st : SolverSt) (i : Nat) (hL : 0 < L)
    (hSt : StOK L st) : usz (getT st i) < L := by
  induction st with
  | nil => simpa [getT, usz] using hL
  | cons e rest ih =>
    rw [getT]
    by_cases he : (e.1 == i) = true
    · rw [if_pos he]
      exact hSt e (List.mem_cons_self e rest)
    · rw [if_neg he]
      exact ih (fun x hx => hSt x (List.mem_cons_of_mem _ hx))

theorem StOK_setT (L : Nat) (st : SolverSt) (i : Nat) (t : AnalysisType)
    (hSt : StOK L st) (ht : usz t < L) : StOK L (setT st i t) := by
  induction st with
  | nil => intro e he; cases he
  | cons e rest ih =>
    intro x hx
    rw [setT] at hx
    rcases List.mem_cons.mp hx with h1 | h1
    · by_cases he : (e.1 == i) = true
      · rw [if_pos he] at h1
        rw [h1]
        exact ht
      · rw [if_neg he] at h1
        rw [h1]
        exact hSt e (List.mem_cons_self e rest)
    · exact ih (fun y hy => hSt y (List.mem_cons_of_mem _ hy)) x h1

/-! ### Tighten lemmas -/

theorem tighten_keys (st : SolverSt) (i : Nat) (T : AnalysisType) :
    keysOf (tighten st i T) = keysOf st := keysOf_setT st i _

theorem tighten_StOK (L : Nat) (st : SolverSt) (i : Nat) (T : AnalysisType)
    (hL : 0 < L) (hSt : StOK L st) (hT : usz T < L) :
    StOK L (tighten st i T) := by
  apply StOK_setT L st i _ hSt
  calc usz (typeMeet (getT st i) T) ≤ max (usz (getT st i)) (usz T) :=
        usz_typeMeet _ _
    _ < L := by
        have := getT_usz L st i hL hSt
        omega

theorem tighten_mSum_le (L : Nat) (st : SolverSt) (i : Nat) (T : AnalysisType)
    (hL : 0 < L) (hnd : (keysOf st).Nodup) (hSt : StOK L st) (hT : usz T < L) :
    mSum L (tighten st i T) ≤ mSum L st := by
  by_cases hmem : i ∈ keysOf st
  · have heq := mSum_setT L st i (typeMeet (getT st i) T) hnd hmem
    have husz : usz (typeMeet (getT st i) T) < L := by
      calc usz (typeMeet (getT st i) T) ≤ max (usz (getT st i)) (usz T) :=
            usz_typeMeet _ _
        _ < L := by
            have := getT_usz L st i hL hSt
            omega
    have hmono : hgtL L (typeMeet (getT st i) T) ≤ hgtL L (getT st i) :=
      hgtL_mono L _ _ (typeMeet_le_left _ _) husz
    rw [tighten]
    omega
  · rw [tighten, setT_id_of_not_mem]
    intro e he hei
    exact hmem (by
      rw [← hei]
      exact List.mem_map.mpr ⟨e, he, rfl⟩)

theorem tighten_mSum_lt (L : Nat) (st : SolverSt) (i : Nat) (T : AnalysisType)
    (hL : 0 < L) (hnd : (keysOf st).Nodup) (hSt : StOK L st) (hT : usz T < L)
    (hmem : i ∈ keysOf st) (hUnsat : typeLe (getT st i) T = false) :
    mSum L (tighten st i T) < mSum L st := by
  have heq := mSum_setT L st i (typeMeet (getT st i) T) hnd hmem
  have husz : usz (typeMeet (getT st i) T) < L := by
    calc usz (typeMeet (getT st i) T) ≤ max (usz (getT st i)) (usz T) :=
          usz_typeMeet _ _
      _ < L := by
          have := getT_usz L st i hL hSt
          omega
  have hneq : typeMeet (getT st i) T ≠ getT st i := by
    intro hc
    have := typeMeet_le_right (getT st i) T
    rw [hc] at this
    rw [this] at hUnsat
    cases hUnsat
  have hstrict : hgtL L (typeMeet (getT st i) T) < hgtL L (getT st i) :=
    hgtL_strict L _ _ (typeMeet_le_left _ _) hneq husz
  rw [tighten]
  omega

end SouffleCore

namespace SouffleCore

/-! ### Resolve, pass and loop lemmas -/

/-- All types carried by a constraint have union size below `L`. -/
def ConsOK (L : Nat) (c : Constr) : Prop := ∀ T ∈ consTypes c, usz T < L

theorem resolve_keys (st : SolverSt) (c : Constr) :
    keysOf (resolveC st c) = keysOf st := by
  cases c with
  | fixedC i T => exact tighten_keys st i T
  | varC i j => exact tighten_keys st i _
  | unionC i a b => exact tighten_keys st i _
  | implC conc reqs =>
    rw [resolveC]
    split_ifs
    · exact tighten_keys st conc.1 _
    · rfl

theorem resolve_StOK (L : Nat) (st : SolverSt) (c : Constr) (hL : 0 < L)
    (hSt : StOK L st) (hc : ConsOK L c) : StOK L (resolveC st c) := by
  cases c with
  | fixedC i T =>
    exact tighten_StOK L st i T hL hSt (hc T (by simp [consTypes]))
  | varC i j =>
    exact tighten_StOK L st i _ hL hSt (getT_usz L st j hL hSt)
  | unionC i a b =>
    apply tighten_StOK L st i _ hL hSt
    calc usz (typeJoin (getT st a) (getT st b)) ≤
        max (usz (getT st a)) (usz (getT st b)) := usz_typeJoin _ _
      _ < L := by
        have h1 := getT_usz L st a hL hSt
        have h2 := getT_usz L st b hL hSt
        omega
  | implC conc reqs =>
    rw [resolveC]
    split_ifs
    · exact tighten_StOK L st conc.1 conc.2 hL hSt (hc conc.2 (by simp [consTypes]))
    · exact hSt

theorem resolve_mSum_le (L : Nat) (st : SolverSt) (c : Constr) (hL : 0 < L)
    (hnd : (keysOf st).Nodup) (hSt : StOK L st) (hc : ConsOK L c) :
    mSum L (resolveC st c) ≤ mSum L st := by
  cases c with
  | fixedC i T =>
    exact tighten_mSum_le L st i T hL hnd hSt (hc T (by simp [consTypes]))
  | varC i j =>
    exact tighten_mSum_le L st i _ hL hnd hSt (getT_usz L st j hL hSt)
  | unionC i a b =>
    apply tighten_mSum_le L st i _ hL hnd hSt
    calc usz (typeJoin (getT st a) (getT st b)) ≤
        max (usz (getT st a)) (usz (getT st b)) := usz_typeJoin _ _
      _ < L := by
        have h1 := getT_usz L st a hL hSt
        have h2 := getT_usz L st b hL hSt
        omega
  | implC conc reqs =>
    rw [resolveC]
    split_ifs
    · exact tighten_mSum_le L st conc.1 conc.2 hL hnd hSt (hc conc.2 (by simp [consTypes]))
    · exact Nat.le_refl _

theorem resolve_mSum_lt (L : Nat) (st : SolverSt) (c : Constr) (hL : 0 < L)
    (hnd : (keysOf st).Nodup) (hSt : StOK L st) (hc : ConsOK L c)
    (hkey : consTarget c ∈ keysOf st) (hUnsat : isSat st c = false) :
    mSum L (resolveC st c) < mSum L st := by
  cases c with
  | fixedC i T =>
    exact tighten_mSum_lt L st i T hL hnd hSt (hc T (by simp [consTypes])) hkey hUnsat
  | varC i j =>
    exact tighten_mSum_lt L st i _ hL hnd hSt (getT_usz L st j hL hSt) hkey hUnsat
  | unionC i a b =>
    apply tighten_mSum_lt L st i _ hL hnd hSt ?_ hkey hUnsat
    calc usz (typeJoin (getT st a) (getT st b)) ≤
        max (usz (getT st a)) (usz (getT st b)) := usz_typeJoin _ _
      _ < L := by
        have h1 := getT_usz L st a hL hSt
        have h2 := getT_usz L st b hL hSt
        omega
  | implC conc reqs =>
    rw [isSat] at hUnsat
    have hall : reqs.all (fixedSat st) = true := by
      cases h : reqs.all (fixedSat st)
      · rw [h] at hUnsat
        cases hUnsat
      · rfl
    have hconc : fixedSat st conc = false := by
      rw [hall] at hUnsat
      simpa using hUnsat
    rw [resolveC, if_pos hall]
    exact tighten_mSum_lt L st conc.1 conc.2 hL hnd hSt
      (hc conc.2 (by simp [consTypes])) hkey hconc

theorem passC_sound (cs : List Constr) (st : SolverSt)
    (h : (passC cs st).1 = false) :
    (passC cs st).2 = st ∧ ∀ c ∈ cs, isSat st c = true := by
  induction cs generalizing st with
  | nil => exact ⟨rfl, by intro c hc; cases hc⟩
  | cons c cs ih =>
    by_cases hc : isSat st c = true
    · rw [passC, if_pos hc] at h ⊢
      rcases ih st h with ⟨h1, h2⟩
      refine ⟨h1, ?_⟩
      intro x hx
      rcases List.mem_cons.mp hx with h3 | h3
      · rw [h3]; exact hc
      · exact h2 x h3
    · rw [passC, if_neg hc] at h
      cases h

theorem passC_invariants (L : Nat) (cs : List Constr) (st : SolverSt)
    (hL : 0 < L) (hnd : (keysOf st).Nodup) (hSt : StOK L st)
    (hcs : ∀ c ∈ cs, ConsOK L c)
    (hkeys : ∀ c ∈ cs, consTarget c ∈ keysOf st) :
    keysOf (passC cs st).2 = keysOf st ∧ StOK L (passC cs st).2 ∧
    mSum L (passC cs st).2 ≤ mSum L st ∧
    ((passC cs st).1 = true → mSum L (passC cs st).2 < mSum L st) := by
  induction cs generalizing st with
  | nil =>
    refine ⟨rfl, hSt, Nat.le_refl _, ?_⟩
    intro h
    cases h
  | cons c cs ih =>
    by_cases hc : isSat st c = true
    · rw [passC, if_pos hc]
      exact ih st hnd hSt (fun x hx => hcs x (List.mem_cons_of_mem _ hx))
        (fun x hx => hkeys x (List.mem_cons_of_mem _ hx))
    · rw [passC, if_neg hc]
      have hcOK : ConsOK L c := hcs c (List.mem_cons_self c cs)
      have hkeysEq := resolve_keys st c
      have hnd2 : (keysOf (resolveC st c)).Nodup := by rw [hkeysEq]; exact hnd
      have hSt2 : StOK L (resolveC st c) := resolve_StOK L st c hL hSt hcOK
      have hlt : mSum L (resolveC st c) < mSum L st :=
        resolve_mSum_lt L st c hL hnd hSt hcOK
          (hkeys c (List.mem_cons_self c cs))
          (by
            cases h : isSat st c
            · rfl
            · exact absurd h hc)
      rcases ih (resolveC st c) hnd2 hSt2
        (fun x hx => hcs x (List.mem_cons_of_mem _ hx))
        (fun x hx => by
          rw [hkeysEq]
          exact hkeys x (List.mem_cons_of_mem _ hx)) with ⟨h1, h2, h3, _⟩
      have hred : ((true, (passC cs (resolveC st c)).2) : Bool × SolverSt).2 =
          (passC cs (resolveC st c)).2 := rfl
      exact ⟨by rw [hred, h1, hkeysEq], by rw [hred]; exact h2,
        by rw [hred]; omega, fun _ => by rw [hred]; omega⟩

theorem loopC_allSat (L : Nat) (cs : List Constr) (hL : 0 < L)
    (hcs : ∀ c ∈ cs, ConsOK L c) :
    ∀ (fuel : Nat) (st : SolverSt), (keysOf st).Nodup → StOK L st →
      (∀ c ∈ cs, consTarget c ∈ keysOf st) → mSum L st < fuel →
      ∀ c ∈ cs, isSat (loopC fuel cs st) c = true := by
  intro fuel
  induction fuel with
  | zero =>
    intro st _ _ _ hm
    omega
  | succ fuel ih =>
    intro st hnd hSt hkeys hm
    rw [loopC]
    by_cases hr : (passC cs st).1 = true
    · simp only [hr, if_pos]
      rcases passC_invariants L cs st hL hnd hSt hcs hkeys with ⟨h1, h2, h3, h4⟩
      apply ih (passC cs st).2 (by rw [h1]; exact hnd) h2
        (fun x hx => by rw [h1]; exact hkeys x hx)
      have := h4 hr
      omega
    · have hr2 : (passC cs st).1 = false := by
        cases h : (passC cs st).1
        · rfl
        · exact absurd h hr
      simp only [hr2, Bool.false_eq_true, if_false]
      rcases passC_sound cs st hr2 with ⟨h1, h2⟩
      rw [h1]
      exact h2

/-! ### The solver entry point -/

/-- Maximum of a list of naturals. -/
def maxOfList (l : List Nat) : Nat := l.foldr Nat.max 0

theorem le_maxOfList (l : List Nat) : ∀ x ∈ l, x ≤ maxOfList l := by
  induction l with
  | nil => intro x hx; cases hx
  | cons a t ih =>
    intro x hx
    rcases List.mem_cons.mp hx with h | h
    · rw [h, maxOfList, List.foldr_cons]
      exact Nat.le_max_left _ _
    · calc x ≤ maxOfList t := ih x h
        _ ≤ maxOfList (a :: t) := by
          rw [maxOfList, maxOfList, List.foldr_cons]
          exact Nat.le_max_right _ _

/-- A union-size bound valid for every type in the constraint set. -/
def boundLOf (cs : List Constr) : Nat :=
  1 + maxOfList (cs.map (fun c => maxOfList ((consTypes c).map usz)))

theorem boundLOf_pos (cs : List Constr) : 0 < boundLOf cs := by
  rw [boundLOf]
  omega

theorem boundLOf_ConsOK (cs : List Constr) :
    ∀ c ∈ cs, ConsOK (boundLOf cs) c := by
  intro c hc T hT
  have h1 : usz T ≤ maxOfList ((consTypes c).map usz) :=
    le_maxOfList _ _ (List.mem_map.mpr ⟨T, hT, rfl⟩)
  have h2 : maxOfList ((consTypes c).map usz) ≤
      maxOfList (cs.map (fun c => maxOfList ((consTypes c).map usz))) :=
    le_maxOfList _ _ (List.mem_map.mpr ⟨c, hc, rfl⟩)
  rw [boundLOf]
  omega

/-- The initial state: every argument occurrence starts at `Top`
(`restore everything to the top type`). -/
def stInit (locs : List Nat) : SolverSt :=
  locs.dedup.map (fun l => (l, AnalysisType.top))

theorem keysOf_stInit (locs : List Nat) : keysOf (stInit locs) = locs.dedup := by
  rw [keysOf, stInit, List.map_map]
  have hfn : (Prod.fst ∘ fun l => ((l, AnalysisType.top) : Nat × AnalysisType)) = id := rfl
  rw [hfn, List.map_id]

theorem stInit_StOK (L : Nat) (locs : List Nat) (hL : 0 < L) :
    StOK L (stInit locs) := by
  intro e he
  rw [stInit] at he
  rcases List.mem_map.mp he with ⟨l, _, hl⟩
  rw [← hl]
  simpa [usz] using hL

/-- `TypeSolver::resolveConstraints`: start from all-Top and loop until a
pass finds every constraint satisfied.  The fuel is the initial measure
plus one, which the termination argument shows is enough. -/
def resolveConstraints (cs : List Constr) (locs : List Nat) : SolverSt :=
  loopC (mSum (boundLOf cs) (stInit locs) + 1) cs (stInit locs)

/-- At the exit of `resolveConstraints`, every constraint is satisfied:
the fixed point is reached. -/
theorem resolveConstraints_allSat (cs : List Constr) (locs : List Nat)
    (hids : ∀ c ∈ cs, consTarget c ∈ locs) :
    ∀ c ∈ cs, isSat (resolveConstraints cs locs) c = true := by
  apply loopC_allSat (boundLOf cs) cs (boundLOf_pos cs) (boundLOf_ConsOK cs)
    (mSum (boundLOf cs) (stInit locs) + 1) (stInit locs)
  · rw [keysOf_stInit]
    exact locs.nodup_dedup
  · exact stInit_StOK _ _ (boundLOf_pos cs)
  · intro c hc
    rw [keysOf_stInit, List.mem_dedup]
    exact hids c hc
  · omega

end SouffleCore

namespace SouffleCore

/-! ## Lattice lookups by type name

`Modelled from the spec:` `TypeLattice::getAnalysisType(typeName)` — the
primitives map to their kind's top, a user primitive to a base type, a
union to a union type carrying its transitive base names (deduplicated),
and a record declaration to a record type. -/

/-- Transitive leaf names of a union-membership tree, fuel-bounded. -/
def unionLeavesF (p : Program) : Nat → List String → List String
  | 0, _ => []
  | fuel + 1, names =>
    names.flatMap fun n =>
      match p.getType n with
      | some (.unionT _ mems _) => unionLeavesF p fuel mems
      | _ => [n]

/-- `TypeLattice::getAnalysisType` keyed by type name. -/
def getAnalysisTypeByName (p : Program) (n : String) : AnalysisType :=
  if n == "number" then .topPrim .number
  else if n == "symbol" then .topPrim .symbol
  else
    match p.getType n with
    | some (.primitive nm numeric _) =>
      .base nm (if numeric then .number else .symbol)
    | some (.unionT nm mems _) =>
      .unionA nm ((typeKind p nm).getD .number)
        ((unionLeavesF p (p.types.length + 1) mems).dedup)
    | some (.recordT nm _ _) => .recordA nm
    | none => .top

/-! ## Constraint generation (`TypeSolver::generateConstraints`)

The generator walks the clause exactly as `ConstraintFinder` does; the
representative table maps each variable name to the location of the first
occurrence passed to `getRepresentative`, and constraints are emitted in
visit order.  Each function returns the updated table and the emitted
constraints. -/

/-- The representative table of `TypeSolver::getRepresentative`. -/
abbrev RepSt := List (String × Nat)

/-- `TypeSolver::getRepresentative`: non-variables represent themselves;
the first variable occurrence of a name becomes the name's
representative. -/
def getRepLoc (r : RepSt) (a : Arg) : RepSt × Nat :=
  match a with
  | .var l n =>
    match List.lookup n r with
    | some l0 => (r, l0)
    | none => (r ++ [(n, l)], l)
  | _ => (r, a.loc)

/-- Read-only representative lookup. -/
def repLocOf (r : RepSt) (a : Arg) : Nat :=
  match a with
  | .var l n => (List.lookup n r).getD l
  | _ => a.loc

/-- Requirements of the constant-propagation implication of a functor:
one `Fixed(rep(arg_i), Constant(kind_i))` per argument. -/
def genKindReqs (r : RepSt) (args : List Arg) (kindAt : Nat → Kind) (i : Nat) :
    RepSt × List (Nat × AnalysisType) :=
  match args with
  | [] => (r, [])
  | a :: rest =>
    let p1 := getRepLoc r a
    let p2 := genKindReqs p1.1 rest kindAt (i + 1)
    (p2.1, (p1.2, .constant (kindAt i)) :: p2.2)

/-- Scenario (1) of `visitRecordInit`: if the record is bound to the
record kind, each argument is bound to its field type. -/
def genRecCover1 (p : Program) (r : RepSt) (recLoc : Nat) :
    List Arg → List String → RepSt × List Constr
  | a :: as, ty :: tys =>
    let p1 := getRepLoc r a
    let p2 := genRecCover1 p p1.1 recLoc as tys
    (p2.1, .implC (p1.2, getAnalysisTypeByName p ty) [(recLoc, .topPrim .record)] :: p2.2)
  | _, _ => (r, [])

/-- Scenario (2) of `visitRecordInit`: requirements that each argument
matches its field type. -/
def genRecReqs (p : Program) (r : RepSt) :
    List Arg → List String → RepSt × List (Nat × AnalysisType)
  | a :: as, ty :: tys =>
    let p1 := getRepLoc r a
    let p2 := genRecReqs p p1.1 as tys
    (p2.1, (p1.2, getAnalysisTypeByName p ty) :: p2.2)
  | _, _ => (r, [])

/-- The per-argument `Fixed` constraints of `visitAtom`: each argument's
representative is bound to the declared attribute type. -/
def genAtomFixed (p : Program) (r : RepSt) :
    List Arg → List AttrDecl → RepSt × List Constr
  | a :: as, att :: atts =>
    let p1 := getRepLoc r a
    let p2 := genAtomFixed p p1.1 as atts
    (p2.1, .fixedC p1.2 (getAnalysisTypeByName p att.typeName) :: p2.2)
  | _, _ => (r, [])

mutual
/-- Constraints of one argument (`ConstraintFinder::visit*`). -/
def genArg (p : Program) (r : RepSt) : Arg → RepSt × List Constr
  | .var _ _ => (r, [])
  | .unnamed _ => (r, [])
  | .num l _ => (r, [.fixedC l (.constant .number)])
  | .strc l _ => (r, [.fixedC l (.constant .symbol)])
  | .nilc l => (r, [.fixedC l (.constant .record)])
  | .counter l => (r, [.fixedC l (.constant .number)])
  | .typecast l n v =>
    let p1 := genArg p r v
    (p1.1, p1.2 ++ [.fixedC l (getAnalysisTypeByName p n)])
  | .intrinsic l op args =>
    let p1 := genArgs p r args
    if op.isMinMax then
      match args with
      | [x, y] =>
        let q1 := getRepLoc p1.1 x
        let q2 := getRepLoc q1.1 y
        (q2.1, p1.2 ++ [.unionC l q1.2 q2.2])
      | _ => p1
    else
      let q := genKindReqs p1.1 args
        (fun i => if op.acceptsSymbolsAt i then Kind.symbol else Kind.number) 0
      (q.1, p1.2 ++ [.fixedC l (.topPrim op.outKind),
        .implC (l, .constant op.outKind) q.2])
  | .udf l n args =>
    let p1 := genArgs p r args
    match p.getFunctorDeclaration n with
    | none => p1
    | some fd =>
      let q := genKindReqs p1.1 args
        (fun i => if fd.acceptsSymbolsAt i then Kind.symbol else Kind.number) 0
      (q.1, p1.2 ++ [.fixedC l (.topPrim fd.outKind),
        .implC (l, .constant fd.outKind) q.2])
  | .recInit l n args =>
    let p1 := genArgs p r args
    match p.getType n with
    | some (.recordT nm fields _) =>
      let q1 := genRecCover1 p p1.1 l args (fields.map Prod.snd)
      let q2 := genRecReqs p q1.1 args (fields.map Prod.snd)
      (q2.1, p1.2 ++ q1.2 ++ [.implC (l, .recordA nm) q2.2])
    | _ => p1
  | .agg l op target body =>
    let p1 := genArgOpt p r target
    let p2 := genLits p p1.1 body
    match op with
    | .count => (p2.1, p1.2 ++ p2.2 ++ [.fixedC l (.topPrim .number)])
    | .sum => (p2.1, p1.2 ++ p2.2 ++ [.fixedC l (.topPrim .number)])
    | _ =>
      match target with
      | some t =>
        let q := getRepLoc p2.1 t
        (q.1, p1.2 ++ p2.2 ++ [.varC l q.2])
      | none => (p2.1, p1.2 ++ p2.2)

/-- Constraints of an optional argument. -/
def genArgOpt (p : Program) (r : RepSt) : Option Arg → RepSt × List Constr
  | none => (r, [])
  | some a => genArg p r a

/-- Constraints of a list of arguments. -/
def genArgs (p : Program) (r : RepSt) : List Arg → RepSt × List Constr
  | [] => (r, [])
  | a :: as =>
    let p1 := genArg p r a
    let p2 := genArgs p p1.1 as
    (p2.1, p1.2 ++ p2.2)

/-- Constraints of one literal. -/
def genLit (p : Program) (r : RepSt) : Lit → RepSt × List Constr
  | .atom _ rel args =>
    let p1 := genArgs p r args
    match p.getRelation rel with
    | some rd =>
      let p2 := genAtomFixed p p1.1 args rd.attrs
      (p2.1, p1.2 ++ p2.2)
    | none => p1
  | .neg _ _ _ args => genArgs p r args
  | .binary _ op a b =>
    let p1 := genArg p r a
    let p2 := genArg p p1.1 b
    if op == BinOp.eq then
      let q1 := getRepLoc p2.1 a
      let q2 := getRepLoc q1.1 b
      (q2.1, p1.2 ++ p2.2 ++ [.varC q1.2 q2.2, .varC q2.2 q1.2])
    else (p2.1, p1.2 ++ p2.2)
  | .boolc _ _ => (r, [])

/-- Constraints of a list of literals. -/
def genLits (p : Program) (r : RepSt) : List Lit → RepSt × List Constr
  | [] => (r, [])
  | l :: ls =>
    let p1 := genLit p r l
    let p2 := genLits p p1.1 ls
    (p2.1, p1.2 ++ p2.2)
end

/-- `ConstraintFinder::visitClause`: constraints from the body literals,
then from the children of the head; the head atom itself is ignored. -/
def genClause (p : Program) (c : Clause) : RepSt × List Constr :=
  let p1 := genLits p [] c.body
  let p2 := genArgs p p1.1 c.headArgs
  (p2.1, p1.2 ++ p2.2)

/-- Locations of all argument occurrences of a clause (the domain
initialized to `Top` by `resolveConstraints`). -/
def Clause.argLocs (c : Clause) : List Nat := c.allArgs.map Arg.loc

/-- The solver result for one clause: representative table, constraints,
and the state at the fixed point. -/
def solveClause (p : Program) (c : Clause) : RepSt × List Constr × SolverSt :=
  let g := genClause p c
  (g.1, g.2, resolveConstraints g.2 c.argLocs)

/-- `Modelled from the spec:` `TypeSolver::getType` — all occurrences of a
variable share the representative's inferred type. -/
def getTypeAt (r : RepSt) (st : SolverSt) (a : Arg) : AnalysisType :=
  getT st (repLocOf r a)

end SouffleCore

namespace SouffleCore

/-! ### Subterm membership lemmas -/

theorem self_mem_subArgs (a : Arg) : a ∈ a.subArgs := by
  cases a <;> simp [Arg.subArgs]

theorem subArgs_of_mem_list (as : List Arg) (a : Arg) (h : a ∈ as) :
    ∀ x ∈ a.subArgs, x ∈ subArgsList as := by
  induction as with
  | nil => cases h
  | cons b rest ih =>
    intro x hx
    rw [subArgsList, List.mem_append]
    rcases List.mem_cons.mp h with h1 | h1
    · exact Or.inl (h1 ▸ hx)
    · exact Or.inr (ih h1 x hx)

theorem subArgs_of_mem_lits (ls : List Lit) (l : Lit) (h : l ∈ ls) :
    ∀ x ∈ l.subArgs, x ∈ subArgsLits ls := by
  induction ls with
  | nil => cases h
  | cons b rest ih =>
    intro x hx
    rw [subArgsLits, List.mem_append]
    rcases List.mem_cons.mp h with h1 | h1
    · exact Or.inl (h1 ▸ hx)
    · exact Or.inr (ih h1 x hx)

theorem mem_loc_of_mem_subArgs {xs : List Arg} {x : Arg} (h : x ∈ xs) :
    x.loc ∈ xs.map Arg.loc := List.mem_map.mpr ⟨x, h, rfl⟩

/-! ### Ids-validity of generated constraints -/

/-- Every representative points into the location set. -/
def RepsIn (LS : List Nat) (r : RepSt) : Prop := ∀ e ∈ r, e.2 ∈ LS

/-- Every constraint target lies in the location set. -/
def TargetsIn (LS : List Nat) (d : List Constr) : Prop :=
  ∀ c ∈ d, consTarget c ∈ LS

theorem lookup_mem {α β : Type} [BEq α] [LawfulBEq α] (n : α) (r : List (α × β))
    (v : β) (h : List.lookup n r = some v) : ∃ k, (k, v) ∈ r := by
  induction r with
  | nil => cases h
  | cons e rest ih =>
    rw [List.lookup] at h
    by_cases he : (n == e.1) = true
    · simp only [he] at h
      exact ⟨e.1, by
        have hv : e.2 = v := by injection h
        rw [← hv]
        exact List.mem_cons_self e rest⟩
    · have he2 : (n == e.1) = false := by simpa using he
      simp only [he2] at h
      rcases ih h with ⟨k, hk⟩
      exact ⟨k, List.mem_cons_of_mem _ hk⟩

theorem getRepLoc_ids (LS : List Nat) (r : RepSt) (a : Arg)
    (hr : RepsIn LS r) (ha : a.loc ∈ LS) :
    RepsIn LS (getRepLoc r a).1 ∧ (getRepLoc r a).2 ∈ LS := by
  cases a with
  | var l n =>
    rw [getRepLoc]
    cases h : List.lookup n r with
    | some l0 =>
      refine ⟨hr, ?_⟩
      rcases lookup_mem n r l0 h with ⟨k, hk⟩
      exact hr (k, l0) hk
    | none =>
      constructor
      · intro e he
        rcases List.mem_append.mp he with h1 | h1
        · exact hr e h1
        · rw [List.mem_singleton] at h1
          rw [h1]
          exact ha
      · exact ha
  | unnamed l => exact ⟨hr, ha⟩
  | num l v => exact ⟨hr, ha⟩
  | strc l v => exact ⟨hr, ha⟩
  | nilc l => exact ⟨hr, ha⟩
  | counter l => exact ⟨hr, ha⟩
  | typecast l n v => exact ⟨hr, ha⟩
  | intrinsic l o as => exact ⟨hr, ha⟩
  | udf l n as => exact ⟨hr, ha⟩
  | recInit l n as => exact ⟨hr, ha⟩
  | agg l o t b => exact ⟨hr, ha⟩

theorem genKindReqs_ids (LS : List Nat) :
    ∀ (args : List Arg) (r : RepSt) (kindAt : Nat → Kind) (i : Nat),
      RepsIn LS r → (∀ a ∈ args, a.loc ∈ LS) →
      RepsIn LS (genKindReqs r args kindAt i).1 := by
  intro args
  induction args with
  | nil => intro r kindAt i hr _; exact hr
  | cons a rest ih =>
    intro r kindAt i hr hargs
    rw [genKindReqs]
    exact ih _ _ _
      (getRepLoc_ids LS r a hr (hargs a (List.mem_cons_self a rest))).1
      (fun x hx => hargs x (List.mem_cons_of_mem _ hx))

theorem genRecCover1_ids (LS : List Nat) (p : Program) (recLoc : Nat) :
    ∀ (args : List Arg) (tys : List String) (r : RepSt),
      RepsIn LS r → (∀ a ∈ args, a.loc ∈ LS) →
      RepsIn LS (genRecCover1 p r recLoc args tys).1 ∧
      TargetsIn LS (genRecCover1 p r recLoc args tys).2 := by
  intro args
  induction args with
  | nil =>
    intro tys r hr _
    exact ⟨hr, by intro c hc; cases hc⟩
  | cons a rest ih =>
    intro tys r hr hargs
    cases tys with
    | nil => exact ⟨hr, by intro c hc; cases hc⟩
    | cons ty tys =>
      rw [genRecCover1]
      have h1 := getRepLoc_ids LS r a hr (hargs a (List.mem_cons_self a rest))
      rcases ih tys _ h1.1 (fun x hx => hargs x (List.mem_cons_of_mem _ hx)) with ⟨h2, h3⟩
      refine ⟨h2, ?_⟩
      intro c hc
      rcases List.mem_cons.mp hc with h4 | h4
      · rw [h4, consTarget]
        exact h1.2
      · exact h3 c h4

theorem genRecReqs_ids (LS : List Nat) (p : Program) :
    ∀ (args : List Arg) (tys : List String) (r : RepSt),
      RepsIn LS r → (∀ a ∈ args, a.loc ∈ LS) →
      RepsIn LS (genRecReqs p r args tys).1 := by
  intro args
  induction args with
  | nil => intro tys r hr _; exact hr
  | cons a rest ih =>
    intro tys r hr hargs
    cases tys with
    | nil => exact hr
    | cons ty tys =>
      rw [genRecReqs]
      exact ih tys _
        (getRepLoc_ids LS r a hr (hargs a (List.mem_cons_self a rest))).1
        (fun x hx => hargs x (List.mem_cons_of_mem _ hx))

theorem genAtomFixed_ids (LS : List Nat) (p : Program) :
    ∀ (args : List Arg) (atts : List AttrDecl) (r : RepSt),
      RepsIn LS r → (∀ a ∈ args, a.loc ∈ LS) →
      RepsIn LS (genAtomFixed p r args atts).1 ∧
      TargetsIn LS (genAtomFixed p r args atts).2 := by
  intro args
  induction args with
  | nil =>
    intro atts r hr _
    exact ⟨hr, by intro c hc; cases hc⟩
  | cons a rest ih =>
    intro atts r hr hargs
    cases atts with
    | nil => exact ⟨hr, by intro c hc; cases hc⟩
    | cons att atts =>
      rw [genAtomFixed]
      have h1 := getRepLoc_ids LS r a hr (hargs a (List.mem_cons_self a rest))
      rcases ih atts _ h1.1 (fun x hx => hargs x (List.mem_cons_of_mem _ hx)) with ⟨h2, h3⟩
      refine ⟨h2, ?_⟩
      intro c hc
      rcases List.mem_cons.mp hc with h4 | h4
      · rw [h4, consTarget]
        exact h1.2
      · exact h3 c h4

end SouffleCore

namespace SouffleCore

mutual

theorem genArg_ids (p : Program) (LS : List Nat) :
    ∀ (a : Arg) (r : RepSt), (∀ x ∈ a.subArgs, x.loc ∈ LS) → RepsIn LS r →
      RepsIn LS (genArg p r a).1 ∧ TargetsIn LS (genArg p r a).2
  | .var l n, r, hls, hr => by
    simp only [genArg]
    exact ⟨hr, fun c hc => absurd hc (List.not_mem_nil c)⟩
  | .unnamed l, r, hls, hr => by
    simp only [genArg]
    exact ⟨hr, fun c hc => absurd hc (List.not_mem_nil c)⟩
  | .num l v, r, hls, hr => by
    simp only [genArg]
    refine ⟨hr, ?_⟩
    intro c hc
    rw [List.mem_singleton] at hc
    rw [hc, consTarget]
    exact hls _ (self_mem_subArgs (.num l v))
  | .strc l v, r, hls, hr => by
    simp only [genArg]
    refine ⟨hr, ?_⟩
    intro c hc
    rw [List.mem_singleton] at hc
    rw [hc, consTarget]
    exact hls _ (self_mem_subArgs (.strc l v))
  | .nilc l, r, hls, hr => by
    simp only [genArg]
    refine ⟨hr, ?_⟩
    intro c hc
    rw [List.mem_singleton] at hc
    rw [hc, consTarget]
    exact hls _ (self_mem_subArgs (.nilc l))
  | .counter l, r, hls, hr => by
    simp only [genArg]
    refine ⟨hr, ?_⟩
    intro c hc
    rw [List.mem_singleton] at hc
    rw [hc, consTarget]
    exact hls _ (self_mem_subArgs (.counter l))
  | .typecast l n v, r, hls, hr => by
    simp only [genArg]
    have hsub : ∀ x ∈ v.subArgs, x.loc ∈ LS := by
      intro x hx
      apply hls
      simp only [Arg.subArgs]
      exact List.mem_cons_of_mem _ hx
    have h1 := genArg_ids p LS v r hsub hr
    refine ⟨h1.1, ?_⟩
    intro c hc
    rcases List.mem_append.mp hc with h2 | h2
    · exact h1.2 c h2
    · rw [List.mem_singleton] at h2
      rw [h2, consTarget]
      exact hls _ (self_mem_subArgs (.typecast l n v))
  | .intrinsic l op args, r, hls, hr => by
    simp only [genArg]
    have hsub : ∀ x ∈ subArgsList args, x.loc ∈ LS := by
      intro x hx
      apply hls
      simp only [Arg.subArgs]
      exact List.mem_cons_of_mem _ hx
    have hargsLoc : ∀ x ∈ args, x.loc ∈ LS :=
      fun x hx => hsub x (subArgs_of_mem_list args x hx x (self_mem_subArgs x))
    have hl : l ∈ LS := hls _ (self_mem_subArgs (.intrinsic l op args))
    have h1 := genArgs_ids p LS args r hsub hr
    by_cases hmm : op.isMinMax = true
    · rw [if_pos hmm]
      match args, hargsLoc with
      | [], _ => exact h1
      | [x], _ => exact h1
      | [x, y], hargsLoc =>
        have h2 := getRepLoc_ids LS (genArgs p r [x, y]).1 x h1.1
          (hargsLoc x (by simp))
        have h3 := getRepLoc_ids LS _ y h2.1 (hargsLoc y (by simp))
        refine ⟨h3.1, ?_⟩
        intro c hc
        rcases List.mem_append.mp hc with h4 | h4
        · exact h1.2 c h4
        · rw [List.mem_singleton] at h4
          rw [h4, consTarget]
          exact hl
      | x :: y :: z :: rest, _ => exact h1
    · rw [if_neg hmm]
      have h2 := genKindReqs_ids LS args (genArgs p r args).1
        (fun i => if op.acceptsSymbolsAt i then Kind.symbol else Kind.number) 0 h1.1 hargsLoc
      refine ⟨h2, ?_⟩
      intro c hc
      rcases List.mem_append.mp hc with h3 | h3
      · exact h1.2 c h3
      · rcases List.mem_cons.mp h3 with h4 | h4
        · rw [h4, consTarget]
          exact hl
        · rw [List.mem_singleton] at h4
          rw [h4, consTarget]
          exact hl
  | .udf l n args, r, hls, hr => by
    simp only [genArg]
    have hsub : ∀ x ∈ subArgsList args, x.loc ∈ LS := by
      intro x hx
      apply hls
      simp only [Arg.subArgs]
      exact List.mem_cons_of_mem _ hx
    have hargsLoc : ∀ x ∈ args, x.loc ∈ LS :=
      fun x hx => hsub x (subArgs_of_mem_list args x hx x (self_mem_subArgs x))
    have hl : l ∈ LS := hls _ (self_mem_subArgs (.udf l n args))
    have h1 := genArgs_ids p LS args r hsub hr
    cases hfd : p.getFunctorDeclaration n with
    | none => exact h1
    | some fd =>
      have h2 := genKindReqs_ids LS args (genArgs p r args).1
        (fun i => if fd.acceptsSymbolsAt i then Kind.symbol else Kind.number) 0 h1.1 hargsLoc
      refine ⟨h2, ?_⟩
      intro c hc
      rcases List.mem_append.mp hc with h3 | h3
      · exact h1.2 c h3
      · rcases List.mem_cons.mp h3 with h4 | h4
        · rw [h4, consTarget]
          exact hl
        · rw [List.mem_singleton] at h4
          rw [h4, consTarget]
          exact hl
  | .recInit l n args, r, hls, hr => by
    simp only [genArg]
    have hsub : ∀ x ∈ subArgsList args, x.loc ∈ LS := by
      intro x hx
      apply hls
      simp only [Arg.subArgs]
      exact List.mem_cons_of_mem _ hx
    have hargsLoc : ∀ x ∈ args, x.loc ∈ LS :=
      fun x hx => hsub x (subArgs_of_mem_list args x hx x (self_mem_subArgs x))
    have hl : l ∈ LS := hls _ (self_mem_subArgs (.recInit l n args))
    have h1 := genArgs_ids p LS args r hsub hr
    cases hty : p.getType n with
    | none => exact h1
    | some td =>
      cases td with
      | primitive nm numeric tl => exact h1
      | unionT nm mems tl => exact h1
      | recordT nm fields tl =>
        have h2 := genRecCover1_ids LS p l args (fields.map Prod.snd)
          (genArgs p r args).1 h1.1 hargsLoc
        have h3 := genRecReqs_ids LS p args (fields.map Prod.snd)
          (genRecCover1 p (genArgs p r args).1 l args (fields.map Prod.snd)).1
          h2.1 hargsLoc
        refine ⟨h3, ?_⟩
        intro c hc
        rcases List.mem_append.mp hc with h4 | h4
        · rcases List.mem_append.mp h4 with h5 | h5
          · exact h1.2 c h5
          · exact h2.2 c h5
        · rw [List.mem_singleton] at h4
          rw [h4, consTarget]
          exact hl
  | .agg l op target body, r, hls, hr => by
    simp only [genArg]
    have hsubT : ∀ x ∈ subArgsOpt target, x.loc ∈ LS := by
      intro x hx
      apply hls
      simp only [Arg.subArgs]
      exact List.mem_cons_of_mem _ (List.mem_append.mpr (Or.inl hx))
    have hsubB : ∀ x ∈ subArgsLits body, x.loc ∈ LS := by
      intro x hx
      apply hls
      simp only [Arg.subArgs]
      exact List.mem_cons_of_mem _ (List.mem_append.mpr (Or.inr hx))
    have hl : l ∈ LS := hls _ (self_mem_subArgs (.agg l op target body))
    have h1 := genArgOpt_ids p LS target r hsubT hr
    have h2 := genLits_ids p LS body (genArgOpt p r target).1 hsubB h1.1
    cases op with
    | count =>
      refine ⟨h2.1, ?_⟩
      intro c hc
      rcases List.mem_append.mp hc with h3 | h3
      · rcases List.mem_append.mp h3 with h4 | h4
        · exact h1.2 c h4
        · exact h2.2 c h4
      · rw [List.mem_singleton] at h3
        rw [h3, consTarget]
        exact hl
    | sum =>
      refine ⟨h2.1, ?_⟩
      intro c hc
      rcases List.mem_append.mp hc with h3 | h3
      · rcases List.mem_append.mp h3 with h4 | h4
        · exact h1.2 c h4
        · exact h2.2 c h4
      · rw [List.mem_singleton] at h3
        rw [h3, consTarget]
        exact hl
    | amin =>
      cases target with
      | none =>
        refine ⟨h2.1, ?_⟩
        intro c hc
        rcases List.mem_append.mp hc with h4 | h4
        · exact h1.2 c h4
        · exact h2.2 c h4
      | some t =>
        have h3 := getRepLoc_ids LS _ t h2.1
          (hsubT t (by simp [subArgsOpt]; exact self_mem_subArgs t))
        refine ⟨h3.1, ?_⟩
        intro c hc
        rcases List.mem_append.mp hc with h4 | h4
        · rcases List.mem_append.mp h4 with h5 | h5
          · exact h1.2 c h5
          · exact h2.2 c h5
        · rw [List.mem_singleton] at h4
          rw [h4, consTarget]
          exact hl
    | amax =>
      cases target with
      | none =>
        refine ⟨h2.1, ?_⟩
        intro c hc
        rcases List.mem_append.mp hc with h4 | h4
        · exact h1.2 c h4
        · exact h2.2 c h4
      | some t =>
        have h3 := getRepLoc_ids LS _ t h2.1
          (hsubT t (by simp [subArgsOpt]; exact self_mem_subArgs t))
        refine ⟨h3.1, ?_⟩
        intro c hc
        rcases List.mem_append.mp hc with h4 | h4
        · rcases List.mem_append.mp h4 with h5 | h5
          · exact h1.2 c h5
          · exact h2.2 c h5
        · rw [List.mem_singleton] at h4
          rw [h4, consTarget]
          exact hl

theorem genArgOpt_ids (p : Program) (LS : List Nat) :
    ∀ (t : Option Arg) (r : RepSt), (∀ x ∈ subArgsOpt t, x.loc ∈ LS) →
      RepsIn LS r →
      RepsIn LS (genArgOpt p r t).1 ∧ TargetsIn LS (genArgOpt p r t).2
  | none, r, hls, hr => by
    simp only [genArgOpt]
    exact ⟨hr, fun c hc => absurd hc (List.not_mem_nil c)⟩
  | some a, r, hls, hr => by
    simp only [genArgOpt]
    exact genArg_ids p LS a r (fun x hx => hls x (by simpa [subArgsOpt] using hx)) hr

theorem genArgs_ids (p : Program) (LS : List Nat) :
    ∀ (as : List Arg) (r : RepSt), (∀ x ∈ subArgsList as, x.loc ∈ LS) →
      RepsIn LS r →
      RepsIn LS (genArgs p r as).1 ∧ TargetsIn LS (genArgs p r as).2
  | [], r, hls, hr => by
    simp only [genArgs]
    exact ⟨hr, fun c hc => absurd hc (List.not_mem_nil c)⟩
  | a :: as, r, hls, hr => by
    simp only [genArgs]
    have hA : ∀ x ∈ a.subArgs, x.loc ∈ LS := by
      intro x hx
      apply hls
      rw [subArgsList]
      exact List.mem_append.mpr (Or.inl hx)
    have hAs : ∀ x ∈ subArgsList as, x.loc ∈ LS := by
      intro x hx
      apply hls
      rw [subArgsList]
      exact List.mem_append.mpr (Or.inr hx)
    have h1 := genArg_ids p LS a r hA hr
    have h2 := genArgs_ids p LS as (genArg p r a).1 hAs h1.1
    refine ⟨h2.1, ?_⟩
    intro c hc
    rcases List.mem_append.mp hc with h3 | h3
    · exact h1.2 c h3
    · exact h2.2 c h3

theorem genLit_ids (p : Program) (LS : List Nat) :
    ∀ (l : Lit) (r : RepSt), (∀ x ∈ l.subArgs, x.loc ∈ LS) → RepsIn LS r →
      RepsIn LS (genLit p r l).1 ∧ TargetsIn LS (genLit p r l).2
  | .atom ll rel args, r, hls, hr => by
    simp only [genLit]
    have hsub : ∀ x ∈ subArgsList args, x.loc ∈ LS := by
      intro x hx
      apply hls
      simpa [Lit.subArgs] using hx
    have hargsLoc : ∀ x ∈ args, x.loc ∈ LS :=
      fun x hx => hsub x (subArgs_of_mem_list args x hx x (self_mem_subArgs x))
    have h1 := genArgs_ids p LS args r hsub hr
    cases hrel : p.getRelation rel with
    | none => exact h1
    | some rd =>
      have h2 := genAtomFixed_ids LS p args rd.attrs (genArgs p r args).1 h1.1 hargsLoc
      refine ⟨h2.1, ?_⟩
      intro c hc
      rcases List.mem_append.mp hc with h3 | h3
      · exact h1.2 c h3
      · exact h2.2 c h3
  | .neg ll al rel args, r, hls, hr => by
    simp only [genLit]
    exact genArgs_ids p LS args r (fun x hx => hls x (by simpa [Lit.subArgs] using hx)) hr
  | .binary ll op a b, r, hls, hr => by
    simp only [genLit]
    have hA : ∀ x ∈ a.subArgs, x.loc ∈ LS := by
      intro x hx
      apply hls
      simp only [Lit.subArgs]
      exact List.mem_append.mpr (Or.inl hx)
    have hB : ∀ x ∈ b.subArgs, x.loc ∈ LS := by
      intro x hx
      apply hls
      simp only [Lit.subArgs]
      exact List.mem_append.mpr (Or.inr hx)
    have h1 := genArg_ids p LS a r hA hr
    have h2 := genArg_ids p LS b (genArg p r a).1 hB h1.1
    by_cases hop : (op == BinOp.eq) = true
    · rw [if_pos hop]
      have h3 := getRepLoc_ids LS _ a h2.1 (hA a (self_mem_subArgs a))
      have h4 := getRepLoc_ids LS _ b h3.1 (hB b (self_mem_subArgs b))
      refine ⟨h4.1, ?_⟩
      intro c hc
      rcases List.mem_append.mp hc with h5 | h5
      · rcases List.mem_append.mp h5 with h6 | h6
        · exact h1.2 c h6
        · exact h2.2 c h6
      · rcases List.mem_cons.mp h5 with h6 | h6
        · rw [h6, consTarget]
          exact h3.2
        · rw [List.mem_singleton] at h6
          rw [h6, consTarget]
          exact h4.2
    · rw [if_neg hop]
      refine ⟨h2.1, ?_⟩
      intro c hc
      rcases List.mem_append.mp hc with h5 | h5
      · exact h1.2 c h5
      · exact h2.2 c h5
  | .boolc ll v, r, hls, hr => by
    simp only [genLit]
    exact ⟨hr, fun c hc => absurd hc (List.not_mem_nil c)⟩

theorem genLits_ids (p : Program) (LS : List Nat) :
    ∀ (ls : List Lit) (r : RepSt), (∀ x ∈ subArgsLits ls, x.loc ∈ LS) →
      RepsIn LS r →
      RepsIn LS (genLits p r ls).1 ∧ TargetsIn LS (genLits p r ls).2
  | [], r, hls, hr => by
    simp only [genLits]
    exact ⟨hr, fun c hc => absurd hc (List.not_mem_nil c)⟩
  | l :: ls, r, hls, hr => by
    simp only [genLits]
    have hL : ∀ x ∈ l.subArgs, x.loc ∈ LS := by
      intro x hx
      apply hls
      rw [subArgsLits]
      exact List.mem_append.mpr (Or.inl hx)
    have hLs : ∀ x ∈ subArgsLits ls, x.loc ∈ LS := by
      intro x hx
      apply hls
      rw [subArgsLits]
      exact List.mem_append.mpr (Or.inr hx)
    have h1 := genLit_ids p LS l r hL hr
    have h2 := genLits_ids p LS ls (genLit p r l).1 hLs h1.1
    refine ⟨h2.1, ?_⟩
    intro c hc
    rcases List.mem_append.mp hc with h3 | h3
    · exact h1.2 c h3
    · exact h2.2 c h3

end

/-- The constraints generated for a clause only target locations of the
clause's own argument occurrences. -/
theorem genClause_targets (p : Program) (c : Clause) :
    ∀ cons ∈ (genClause p c).2, consTarget cons ∈ c.argLocs := by
  have hbody : ∀ x ∈ subArgsLits c.body, x.loc ∈ c.argLocs := by
    intro x hx
    rw [Clause.argLocs]
    apply mem_loc_of_mem_subArgs
    rw [Clause.allArgs]
    exact List.mem_append.mpr (Or.inr hx)
  have hhead : ∀ x ∈ subArgsList c.headArgs, x.loc ∈ c.argLocs := by
    intro x hx
    rw [Clause.argLocs]
    apply mem_loc_of_mem_subArgs
    rw [Clause.allArgs]
    exact List.mem_append.mpr (Or.inl hx)
  have h1 := genLits_ids p c.argLocs c.body [] hbody
    (fun e he => absurd he (List.not_mem_nil e))
  have h2 := genArgs_ids p c.argLocs c.headArgs (genLits p [] c.body).1 hhead h1.1
  intro cons hc
  rw [genClause] at hc
  rcases List.mem_append.mp hc with h3 | h3
  · exact h1.2 cons h3
  · exact h2.2 cons h3

end SouffleCore

namespace SouffleCore

/-! ## C5: monotone descent and termination of the solver loop -/

theorem getT_tighten_le (st : SolverSt) (j : Nat) (T : AnalysisType) (i : Nat) :
    typeLe (getT (tighten st j T) i) (getT st i) = true := by
  by_cases hij : i = j
  · subst hij
    by_cases hmem : i ∈ keysOf st
    · rw [tighten, getT_setT_self_of_mem st i _ hmem]
      exact typeMeet_le_left _ _
    · rw [tighten, setT_id_of_not_mem st i _ ?_]
      · exact typeLe_refl _
      · intro e he hei
        exact hmem (by
          rw [← hei]
          exact List.mem_map.mpr ⟨e, he, rfl⟩)
  · rw [tighten, getT_setT_ne st j i _ hij]
    exact typeLe_refl _

/-- Every resolve step only lowers (never raises) the type of any
argument in the lattice. -/
theorem resolve_lowers (st : SolverSt) (c : Constr) (i : Nat) :
    typeLe (getT (resolveC st c) i) (getT st i) = true := by
  cases c with
  | fixedC j T => exact getT_tighten_le st j T i
  | varC j k => exact getT_tighten_le st j _ i
  | unionC j a b => exact getT_tighten_le st j _ i
  | implC conc reqs =>
    rw [resolveC]
    split_ifs
    · exact getT_tighten_le st conc.1 _ i
    · exact typeLe_refl _

/-- A pass over a state satisfying every constraint resolves nothing. -/
theorem passC_of_allSat (cs : List Constr) (st : SolverSt)
    (h : ∀ c ∈ cs, isSat st c = true) : passC cs st = (false, st) := by
  induction cs with
  | nil => rfl
  | cons c cs ih =>
    rw [passC, if_pos (h c (List.mem_cons_self c cs))]
    exact ih (fun x hx => h x (List.mem_cons_of_mem _ hx))

/-- C5.  For every clause and the constraint set the solver generates for
it, the fixed-point loop of `resolveConstraints` terminates: each resolve
step only lowers an argument's type in the lattice (first conjunct), the
state reached by the fuelled loop satisfies every generated constraint
(second conjunct) — the fuel, computed from the finite lattice height, is
shown sufficient — and hence the loop reaches a pass in which no
constraint is unsatisfied (third conjunct). -/
theorem solver_fixpoint_termination (p : Program) (c : Clause) :
    (∀ (st : SolverSt) (cons : Constr) (i : Nat),
      typeLe (getT (resolveC st cons) i) (getT st i) = true) ∧
    (∀ cons ∈ (genClause p c).2,
      isSat (resolveConstraints (genClause p c).2 c.argLocs) cons = true) ∧
    passC (genClause p c).2 (resolveConstraints (genClause p c).2 c.argLocs) =
      (false, resolveConstraints (genClause p c).2 c.argLocs) := by
  have hall := resolveConstraints_allSat (genClause p c).2 c.argLocs
    (genClause_targets p c)
  exact ⟨fun st cons i => resolve_lowers st cons i, hall,
    passC_of_allSat _ _ hall⟩

end SouffleCore

namespace SouffleCore

/-! ## Representative stability

The representative table only ever grows by appending, and `List.lookup`
returns the first match, so a binding once made never changes.  These
lemmas let constraints emitted mid-generation be read off the final
table. -/

/-- `r2` extends `r1` by appending. -/
def extendsRep (r1 r2 : RepSt) : Prop := ∃ e, r2 = r1 ++ e

theorem extendsRep_refl (r : RepSt) : extendsRep r r := ⟨[], (List.append_nil r).symm⟩

theorem extendsRep_trans {r1 r2 r3 : RepSt}
    (h1 : extendsRep r1 r2) (h2 : extendsRep r2 r3) : extendsRep r1 r3 := by
  rcases h1 with ⟨e1, he1⟩
  rcases h2 with ⟨e2, he2⟩
  exact ⟨e1 ++ e2, by rw [he2, he1, List.append_assoc]⟩

theorem lookup_append_some {α β : Type} [BEq α] (n : α) (r ext : List (α × β))
    (v : β) (h : List.lookup n r = some v) :
    List.lookup n (r ++ ext) = some v := by
  induction r with
  | nil => cases h
  | cons e rest ih =>
    rw [List.cons_append, List.lookup]
    rw [List.lookup] at h
    cases he : (n == e.1) with
    | true =>
      rw [he] at h
      exact h
    | false =>
      rw [he] at h
      exact ih h

theorem lookup_append_none {α β : Type} [BEq α] (n : α) (r rest : List (α × β))
    (h : List.lookup n r = none) :
    List.lookup n (r ++ rest) = List.lookup n rest := by
  induction r with
  | nil => rfl
  | cons e r2 ih =>
    rw [List.cons_append, List.lookup]
    rw [List.lookup] at h
    cases he : (n == e.1) with
    | true =>
      rw [he] at h
      cases h
    | false =>
      rw [he] at h
      exact ih h

/-- The representative of `a` in `r`, once computed, is stable under any
further growth of the table. -/
def RepStable (r : RepSt) (a : Arg) (la : Nat) : Prop :=
  ∀ ext, repLocOf (r ++ ext) a = la

theorem RepStable_mono {r r2 : RepSt} {a : Arg} {la : Nat}
    (h : RepStable r a la) (hext : extendsRep r r2) : RepStable r2 a la := by
  rcases hext with ⟨e, he⟩
  intro ext
  rw [he, List.append_assoc]
  exact h (e ++ ext)

theorem RepStable_here {r : RepSt} {a : Arg} {la : Nat}
    (h : RepStable r a la) : repLocOf r a = la := by
  have := h []
  rwa [List.append_nil] at this

theorem getRepLoc_ext (r : RepSt) (a : Arg) : extendsRep r (getRepLoc r a).1 := by
  cases a with
  | var l n =>
    rw [getRepLoc]
    cases h : List.lookup n r with
    | some l0 => exact extendsRep_refl r
    | none => exact ⟨[(n, l)], rfl⟩
  | unnamed l => exact extendsRep_refl r
  | num l v => exact extendsRep_refl r
  | strc l v => exact extendsRep_refl r
  | nilc l => exact extendsRep_refl r
  | counter l => exact extendsRep_refl r
  | typecast l t v => exact extendsRep_refl r
  | intrinsic l o as => exact extendsRep_refl r
  | udf l n as => exact extendsRep_refl r
  | recInit l n as => exact extendsRep_refl r
  | agg l o t b => exact extendsRep_refl r

theorem getRepLoc_stable (r : RepSt) (a : Arg) :
    RepStable (getRepLoc r a).1 a (getRepLoc r a).2 := by
  cases a with
  | var l n =>
    rw [getRepLoc]
    cases h : List.lookup n r with
    | some l0 =>
      intro ext
      rw [repLocOf, lookup_append_some n r ext l0 h]
      rfl
    | none =>
      intro ext
      rw [repLocOf, List.append_assoc, lookup_append_none n r _ h]
      simp [List.lookup, getRepLoc, h]
  | unnamed l => intro ext; rfl
  | num l v => intro ext; rfl
  | strc l v => intro ext; rfl
  | nilc l => intro ext; rfl
  | counter l => intro ext; rfl
  | typecast l t v => intro ext; rfl
  | intrinsic l o as => intro ext; rfl
  | udf l n as => intro ext; rfl
  | recInit l n as => intro ext; rfl
  | agg l o t b => intro ext; rfl

theorem genKindReqs_ext (args : List Arg) :
    ∀ (r : RepSt) (kindAt : Nat → Kind) (i : Nat),
      extendsRep r (genKindReqs r args kindAt i).1 := by
  induction args with
  | nil => intro r kindAt i; exact extendsRep_refl r
  | cons a rest ih =>
    intro r kindAt i
    rw [genKindReqs]
    exact extendsRep_trans (getRepLoc_ext r a) (ih _ _ _)

theorem genRecCover1_ext (p : Program) (recLoc : Nat) :
    ∀ (args : List Arg) (tys : List String) (r : RepSt),
      extendsRep r (genRecCover1 p r recLoc args tys).1 := by
  intro args
  induction args with
  | nil => intro tys r; exact extendsRep_refl r
  | cons a rest ih =>
    intro tys r
    cases tys with
    | nil => exact extendsRep_refl r
    | cons ty tys =>
      rw [genRecCover1]
      exact extendsRep_trans (getRepLoc_ext r a) (ih tys _)

theorem genRecReqs_ext (p : Program) :
    ∀ (args : List Arg) (tys : List String) (r : RepSt),
      extendsRep r (genRecReqs p r args tys).1 := by
  intro args
  induction args with
  | nil => intro tys r; exact extendsRep_refl r
  | cons a rest ih =>
    intro tys r
    cases tys with
    | nil => exact extendsRep_refl r
    | cons ty tys =>
      rw [genRecReqs]
      exact extendsRep_trans (getRepLoc_ext r a) (ih tys _)

theorem genAtomFixed_ext (p : Program) :
    ∀ (args : List Arg) (atts : List AttrDecl) (r : RepSt),
      extendsRep r (genAtomFixed p r args atts).1 := by
  intro args
  induction args with
  | nil => intro atts r; exact extendsRep_refl r
  | cons a rest ih =>
    intro atts r
    cases atts with
    | nil => exact extendsRep_refl r
    | cons att atts =>
      rw [genAtomFixed]
      exact extendsRep_trans (getRepLoc_ext r a) (ih atts _)

mutual

theorem genArg_ext (p : Program) :
    ∀ (a : Arg) (r : RepSt), extendsRep r (genArg p r a).1
  | .var l n, r => by
    simp only [genArg]
    exact extendsRep_refl r
  | .unnamed l, r => by
    simp only [genArg]
    exact extendsRep_refl r
  | .num l v, r => by
    simp only [genArg]
    exact extendsRep_refl r
  | .strc l v, r => by
    simp only [genArg]
    exact extendsRep_refl r
  | .nilc l, r => by
    simp only [genArg]
    exact extendsRep_refl r
  | .counter l, r => by
    simp only [genArg]
    exact extendsRep_refl r
  | .typecast l n v, r => by
    simp only [genArg]
    exact genArg_ext p v r
  | .intrinsic l op args, r => by
    simp only [genArg]
    have h1 := genArgs_ext p args r
    by_cases hmm : op.isMinMax = true
    · rw [if_pos hmm]
      match args with
      | [] => exact h1
      | [x] => exact h1
      | [x, y] =>
        exact extendsRep_trans h1 (extendsRep_trans (getRepLoc_ext _ x) (getRepLoc_ext _ y))
      | x :: y :: z :: rest => exact h1
    · rw [if_neg hmm]
      exact extendsRep_trans h1 (genKindReqs_ext args _ _ 0)
  | .udf l n args, r => by
    simp only [genArg]
    have h1 := genArgs_ext p args r
    cases hfd : p.getFunctorDeclaration n with
    | none => exact h1
    | some fd => exact extendsRep_trans h1 (genKindReqs_ext args _ _ 0)
  | .recInit l n args, r => by
    simp only [genArg]
    have h1 := genArgs_ext p args r
    cases hty : p.getType n with
    | none => exact h1
    | some td =>
      cases td with
      | primitive nm numeric tl => exact h1
      | unionT nm mems tl => exact h1
      | recordT nm fields tl =>
        exact extendsRep_trans h1 (extendsRep_trans
          (genRecCover1_ext p l args (fields.map Prod.snd) _)
          (genRecReqs_ext p args (fields.map Prod.snd) _))
  | .agg l op target body, r => by
    simp only [genArg]
    have h1 := genArgOpt_ext p target r
    have h2 := genLits_ext p body (genArgOpt p r target).1
    cases op with
    | count => exact extendsRep_trans h1 h2
    | sum => exact extendsRep_trans h1 h2
    | amin =>
      cases target with
      | none => exact extendsRep_trans h1 h2
      | some t => exact extendsRep_trans h1 (extendsRep_trans h2 (getRepLoc_ext _ t))
    | amax =>
      cases target with
      | none => exact extendsRep_trans h1 h2
      | some t => exact extendsRep_trans h1 (extendsRep_trans h2 (getRepLoc_ext _ t))

theorem genArgOpt_ext (p : Program) :
    ∀ (t : Option Arg) (r : RepSt), extendsRep r (genArgOpt p r t).1
  | none, r => by
    simp only [genArgOpt]
    exact extendsRep_refl r
  | some a, r => by
    simp only [genArgOpt]
    exact genArg_ext p a r

theorem genArgs_ext (p : Program) :
    ∀ (as : List Arg) (r : RepSt), extendsRep r (genArgs p r as).1
  | [], r => by
    simp only [genArgs]
    exact extendsRep_refl r
  | a :: as, r => by
    simp only [genArgs]
    exact extendsRep_trans (genArg_ext p a r) (genArgs_ext p as _)

theorem genLit_ext (p : Program) :
    ∀ (l : Lit) (r : RepSt), extendsRep r (genLit p r l).1
  | .atom ll rel args, r => by
    simp only [genLit]
    have h1 := genArgs_ext p args r
    cases hrel : p.getRelation rel with
    | none => exact h1
    | some rd => exact extendsRep_trans h1 (genAtomFixed_ext p args rd.attrs _)
  | .neg ll al rel args, r => by
    simp only [genLit]
    exact genArgs_ext p args r
  | .binary ll op a b, r => by
    simp only [genLit]
    have h1 := genArg_ext p a r
    have h2 := genArg_ext p b (genArg p r a).1
    by_cases hop : (op == BinOp.eq) = true
    · rw [if_pos hop]
      exact extendsRep_trans h1 (extendsRep_trans h2
        (extendsRep_trans (getRepLoc_ext _ a) (getRepLoc_ext _ b)))
    · rw [if_neg hop]
      exact extendsRep_trans h1 h2
  | .boolc ll v, r => by
    simp only [genLit]
    exact extendsRep_refl r

theorem genLits_ext (p : Program) :
    ∀ (ls : List Lit) (r : RepSt), extendsRep r (genLits p r ls).1
  | [], r => by
    simp only [genLits]
    exact extendsRep_refl r
  | l :: ls, r => by
    simp only [genLits]
    exact extendsRep_trans (genLit_ext p l r) (genLits_ext p ls _)

end

end SouffleCore

namespace SouffleCore

/-! ## C6: the symmetric Variable constraints of EQ -/

mutual
/-- All EQ binary-constraint side pairs inside an argument. -/
def eqPairsArg : Arg → List (Arg × Arg)
  | .typecast _ _ v => eqPairsArg v
  | .intrinsic _ _ as => eqPairsList as
  | .udf _ _ as => eqPairsList as
  | .recInit _ _ as => eqPairsList as
  | .agg _ _ t b => eqPairsOpt t ++ eqPairsLits b
  | _ => []

/-- EQ pairs of an optional argument. -/
def eqPairsOpt : Option Arg → List (Arg × Arg)
  | none => []
  | some a => eqPairsArg a

/-- EQ pairs of a list of arguments. -/
def eqPairsList : List Arg → List (Arg × Arg)
  | [] => []
  | a :: as => eqPairsArg a ++ eqPairsList as

/-- EQ pairs of a literal. -/
def eqPairsLit : Lit → List (Arg × Arg)
  | .atom _ _ as => eqPairsList as
  | .neg _ _ _ as => eqPairsList as
  | .binary _ op a b =>
    (if op == BinOp.eq then [(a, b)] else []) ++ eqPairsArg a ++ eqPairsArg b
  | .boolc _ _ => []

/-- EQ pairs of a list of literals. -/
def eqPairsLits : List Lit → List (Arg × Arg)
  | [] => []
  | l :: ls => eqPairsLit l ++ eqPairsLits ls
end

/-- All EQ side pairs of a clause (body and head children). -/
def Clause.eqPairs (c : Clause) : List (Arg × Arg) :=
  eqPairsLits c.body ++ eqPairsList c.headArgs

/-- The conclusion of the EQ-membership lemmas: the two symmetric
`Variable` constraints of an EQ pair are in the delta, at the
representatives of the two sides as read off any extension of the
resulting table. -/
def EqWitness (res : RepSt × List Constr) (pr : Arg × Arg) : Prop :=
  ∃ la lb, Constr.varC la lb ∈ res.2 ∧ Constr.varC lb la ∈ res.2 ∧
    RepStable res.1 pr.1 la ∧ RepStable res.1 pr.2 lb

theorem EqWitness_lift {r2 : RepSt} {d0 d2 : List Constr}
    {res : RepSt × List Constr} {pr : Arg × Arg}
    (h : EqWitness res pr) (hext : extendsRep res.1 r2)
    (hsub : ∀ x ∈ res.2, x ∈ d0 ++ res.2 ++ d2) :
    EqWitness (r2, d0 ++ res.2 ++ d2) pr := by
  rcases h with ⟨la, lb, h1, h2, h3, h4⟩
  exact ⟨la, lb, hsub _ h1, hsub _ h2,
    RepStable_mono h3 hext, RepStable_mono h4 hext⟩

theorem mem_mid (d0 d2 : List Constr) (d : List Constr) :
    ∀ x ∈ d, x ∈ d0 ++ d ++ d2 := by
  intro x hx
  exact List.mem_append.mpr (Or.inl (List.mem_append.mpr (Or.inr hx)))

mutual

theorem genArg_eqMem (p : Program) :
    ∀ (a : Arg) (r : RepSt), ∀ pr ∈ eqPairsArg a, EqWitness (genArg p r a) pr
  | .var l n, r, pr, hpr => absurd hpr (by simp [eqPairsArg])
  | .unnamed l, r, pr, hpr => absurd hpr (by simp [eqPairsArg])
  | .num l v, r, pr, hpr => absurd hpr (by simp [eqPairsArg])
  | .strc l v, r, pr, hpr => absurd hpr (by simp [eqPairsArg])
  | .nilc l, r, pr, hpr => absurd hpr (by simp [eqPairsArg])
  | .counter l, r, pr, hpr => absurd hpr (by simp [eqPairsArg])
  | .typecast l n v, r, pr, hpr => by
    simp only [eqPairsArg] at hpr
    simp only [genArg]
    rcases genArg_eqMem p v r pr hpr with ⟨la, lb, h1, h2, h3, h4⟩
    exact ⟨la, lb, List.mem_append.mpr (Or.inl h1),
      List.mem_append.mpr (Or.inl h2), h3, h4⟩
  | .intrinsic l op args, r, pr, hpr => by
    simp only [eqPairsArg] at hpr
    simp only [genArg]
    have hbase := genArgs_eqMem p args r pr hpr
    by_cases hmm : op.isMinMax = true
    · rw [if_pos hmm]
      match args, hbase with
      | [], hbase => exact hbase
      | [x], hbase => exact hbase
      | [x, y], hbase =>
        rcases hbase with ⟨la, lb, h1, h2, h3, h4⟩
        refine ⟨la, lb, List.mem_append.mpr (Or.inl h1),
          List.mem_append.mpr (Or.inl h2), ?_, ?_⟩
        · exact RepStable_mono h3
            (extendsRep_trans (getRepLoc_ext _ x) (getRepLoc_ext _ y))
        · exact RepStable_mono h4
            (extendsRep_trans (getRepLoc_ext _ x) (getRepLoc_ext _ y))
      | x :: y :: z :: rest, hbase => exact hbase
    · rw [if_neg hmm]
      rcases hbase with ⟨la, lb, h1, h2, h3, h4⟩
      exact ⟨la, lb, List.mem_append.mpr (Or.inl h1),
        List.mem_append.mpr (Or.inl h2),
        RepStable_mono h3 (genKindReqs_ext args _ _ 0),
        RepStable_mono h4 (genKindReqs_ext args _ _ 0)⟩
  | .udf l n args, r, pr, hpr => by
    simp only [eqPairsArg] at hpr
    simp only [genArg]
    have hbase := genArgs_eqMem p args r pr hpr
    cases hfd : p.getFunctorDeclaration n with
    | none => exact hbase
    | some fd =>
      rcases hbase with ⟨la, lb, h1, h2, h3, h4⟩
      exact ⟨la, lb, List.mem_append.mpr (Or.inl h1),
        List.mem_append.mpr (Or.inl h2),
        RepStable_mono h3 (genKindReqs_ext args _ _ 0),
        RepStable_mono h4 (genKindReqs_ext args _ _ 0)⟩
  | .recInit l n args, r, pr, hpr => by
    simp only [eqPairsArg] at hpr
    simp only [genArg]
    have hbase := genArgs_eqMem p args r pr hpr
    cases hty : p.getType n with
    | none => exact hbase
    | some td =>
      cases td with
      | primitive nm numeric tl => exact hbase
      | unionT nm mems tl => exact hbase
      | recordT nm fields tl =>
        rcases hbase with ⟨la, lb, h1, h2, h3, h4⟩
        refine ⟨la, lb, ?_, ?_, ?_, ?_⟩
        · exact List.mem_append.mpr (Or.inl (List.mem_append.mpr (Or.inl h1)))
        · exact List.mem_append.mpr (Or.inl (List.mem_append.mpr (Or.inl h2)))
        · exact RepStable_mono h3 (extendsRep_trans
            (genRecCover1_ext p l args (fields.map Prod.snd) _)
            (genRecReqs_ext p args (fields.map Prod.snd) _))
        · exact RepStable_mono h4 (extendsRep_trans
            (genRecCover1_ext p l args (fields.map Prod.snd) _)
            (genRecReqs_ext p args (fields.map Prod.snd) _))
  | .agg l op target body, r, pr, hpr => by
    simp only [eqPairsArg] at hpr
    simp only [genArg]
    have hw : EqWitness
        ((genLits p (genArgOpt p r target).1 body).1,
          (genArgOpt p r target).2 ++ (genLits p (genArgOpt p r target).1 body).2) pr := by
      rcases List.mem_append.mp hpr with hT | hB
      · rcases genArgOpt_eqMem p target r pr hT with ⟨la, lb, h1, h2, h3, h4⟩
        exact ⟨la, lb, List.mem_append.mpr (Or.inl h1),
          List.mem_append.mpr (Or.inl h2),
          RepStable_mono h3 (genLits_ext p body _),
          RepStable_mono h4 (genLits_ext p body _)⟩
      · rcases genLits_eqMem p body (genArgOpt p r target).1 pr hB with
          ⟨la, lb, h1, h2, h3, h4⟩
        exact ⟨la, lb, List.mem_append.mpr (Or.inr h1),
          List.mem_append.mpr (Or.inr h2), h3, h4⟩
    rcases hw with ⟨la, lb, h1, h2, h3, h4⟩
    cases op with
    | count =>
      exact ⟨la, lb, List.mem_append.mpr (Or.inl h1),
        List.mem_append.mpr (Or.inl h2), h3, h4⟩
    | sum =>
      exact ⟨la, lb, List.mem_append.mpr (Or.inl h1),
        List.mem_append.mpr (Or.inl h2), h3, h4⟩
    | amin =>
      cases target with
      | none => exact ⟨la, lb, h1, h2, h3, h4⟩
      | some t =>
        exact ⟨la, lb, List.mem_append.mpr (Or.inl h1),
          List.mem_append.mpr (Or.inl h2),
          RepStable_mono h3 (getRepLoc_ext _ t),
          RepStable_mono h4 (getRepLoc_ext _ t)⟩
    | amax =>
      cases target with
      | none => exact ⟨la, lb, h1, h2, h3, h4⟩
      | some t =>
        exact ⟨la, lb, List.mem_append.mpr (Or.inl h1),
          List.mem_append.mpr (Or.inl h2),
          RepStable_mono h3 (getRepLoc_ext _ t),
          RepStable_mono h4 (getRepLoc_ext _ t)⟩

theorem genArgOpt_eqMem (p : Program) :
    ∀ (t : Option Arg) (r : RepSt), ∀ pr ∈ eqPairsOpt t,
      EqWitness (genArgOpt p r t) pr
  | none, r, pr, hpr => absurd hpr (by simp [eqPairsOpt])
  | some a, r, pr, hpr => by
    simp only [eqPairsOpt] at hpr
    simp only [genArgOpt]
    exact genArg_eqMem p a r pr hpr

theorem genArgs_eqMem (p : Program) :
    ∀ (as : List Arg) (r : RepSt), ∀ pr ∈ eqPairsList as,
      EqWitness (genArgs p r as) pr
  | [], r, pr, hpr => absurd hpr (by simp [eqPairsList])
  | a :: as, r, pr, hpr => by
    simp only [eqPairsList] at hpr
    simp only [genArgs]
    rcases List.mem_append.mp hpr with hA | hAs
    · rcases genArg_eqMem p a r pr hA with ⟨la, lb, h1, h2, h3, h4⟩
      exact ⟨la, lb, List.mem_append.mpr (Or.inl h1),
        List.mem_append.mpr (Or.inl h2),
        RepStable_mono h3 (genArgs_ext p as _),
        RepStable_mono h4 (genArgs_ext p as _)⟩
    · rcases genArgs_eqMem p as (genArg p r a).1 pr hAs with ⟨la, lb, h1, h2, h3, h4⟩
      exact ⟨la, lb, List.mem_append.mpr (Or.inr h1),
        List.mem_append.mpr (Or.inr h2), h3, h4⟩

theorem genLit_eqMem (p : Program) :
    ∀ (l : Lit) (r : RepSt), ∀ pr ∈ eqPairsLit l, EqWitness (genLit p r l) pr
  | .atom ll rel args, r, pr, hpr => by
    simp only [eqPairsLit] at hpr
    simp only [genLit]
    have hbase := genArgs_eqMem p args r pr hpr
    cases hrel : p.getRelation rel with
    | none => exact hbase
    | some rd =>
      rcases hbase with ⟨la, lb, h1, h2, h3, h4⟩
      exact ⟨la, lb, List.mem_append.mpr (Or.inl h1),
        List.mem_append.mpr (Or.inl h2),
        RepStable_mono h3 (genAtomFixed_ext p args rd.attrs _),
        RepStable_mono h4 (genAtomFixed_ext p args rd.attrs _)⟩
  | .neg ll al rel args, r, pr, hpr => by
    simp only [eqPairsLit] at hpr
    simp only [genLit]
    exact genArgs_eqMem p args r pr hpr
  | .binary ll op a b, r, pr, hpr => by
    simp only [eqPairsLit] at hpr
    simp only [genLit]
    by_cases hop : (op == BinOp.eq) = true
    · rw [if_pos hop]
      rw [if_pos hop] at hpr
      rcases List.mem_append.mp hpr with hAB | hB
      · rcases List.mem_append.mp hAB with hOwn | hA
        · -- the EQ pair itself
          rw [List.mem_singleton] at hOwn
          subst hOwn
          refine ⟨(getRepLoc (genArg p (genArg p r a).1 b).1 a).2,
            (getRepLoc (getRepLoc (genArg p (genArg p r a).1 b).1 a).1 b).2,
            ?_, ?_, ?_, ?_⟩
          · apply List.mem_append.mpr (Or.inr _)
            exact List.mem_cons_self _ _
          · apply List.mem_append.mpr (Or.inr _)
            exact List.mem_cons_of_mem _ (List.mem_singleton.mpr rfl)
          · exact RepStable_mono (getRepLoc_stable _ a) (getRepLoc_ext _ b)
          · exact getRepLoc_stable _ b
        · -- a pair inside the left side
          rcases genArg_eqMem p a r pr hA with ⟨la, lb, h1, h2, h3, h4⟩
          refine ⟨la, lb,
            List.mem_append.mpr (Or.inl (List.mem_append.mpr (Or.inl h1))),
            List.mem_append.mpr (Or.inl (List.mem_append.mpr (Or.inl h2))), ?_, ?_⟩
          · exact RepStable_mono h3 (extendsRep_trans (genArg_ext p b _)
              (extendsRep_trans (getRepLoc_ext _ a) (getRepLoc_ext _ b)))
          · exact RepStable_mono h4 (extendsRep_trans (genArg_ext p b _)
              (extendsRep_trans (getRepLoc_ext _ a) (getRepLoc_ext _ b)))
      · -- a pair inside the right side
        rcases genArg_eqMem p b (genArg p r a).1 pr hB with ⟨la, lb, h1, h2, h3, h4⟩
        refine ⟨la, lb,
          List.mem_append.mpr (Or.inl (List.mem_append.mpr (Or.inr h1))),
          List.mem_append.mpr (Or.inl (List.mem_append.mpr (Or.inr h2))), ?_, ?_⟩
        · exact RepStable_mono h3
            (extendsRep_trans (getRepLoc_ext _ a) (getRepLoc_ext _ b))
        · exact RepStable_mono h4
            (extendsRep_trans (getRepLoc_ext _ a) (getRepLoc_ext _ b))
    · rw [if_neg hop]
      rw [if_neg hop] at hpr
      rw [List.nil_append] at hpr
      rcases List.mem_append.mp hpr with hA | hB
      · rcases genArg_eqMem p a r pr hA with ⟨la, lb, h1, h2, h3, h4⟩
        exact ⟨la, lb, List.mem_append.mpr (Or.inl h1),
          List.mem_append.mpr (Or.inl h2),
          RepStable_mono h3 (genArg_ext p b _),
          RepStable_mono h4 (genArg_ext p b _)⟩
      · rcases genArg_eqMem p b (genArg p r a).1 pr hB with ⟨la, lb, h1, h2, h3, h4⟩
        exact ⟨la, lb, List.mem_append.mpr (Or.inr h1),
          List.mem_append.mpr (Or.inr h2), h3, h4⟩
  | .boolc ll v, r, pr, hpr => absurd hpr (by simp [eqPairsLit])

theorem genLits_eqMem (p : Program) :
    ∀ (ls : List Lit) (r : RepSt), ∀ pr ∈ eqPairsLits ls,
      EqWitness (genLits p r ls) pr
  | [], r, pr, hpr => absurd hpr (by simp [eqPairsLits])
  | l :: ls, r, pr, hpr => by
    simp only [eqPairsLits] at hpr
    simp only [genLits]
    rcases List.mem_append.mp hpr with hL | hLs
    · rcases genLit_eqMem p l r pr hL with ⟨la, lb, h1, h2, h3, h4⟩
      exact ⟨la, lb, List.mem_append.mpr (Or.inl h1),
        List.mem_append.mpr (Or.inl h2),
        RepStable_mono h3 (genLits_ext p ls _),
        RepStable_mono h4 (genLits_ext p ls _)⟩
    · rcases genLits_eqMem p ls (genLit p r l).1 pr hLs with ⟨la, lb, h1, h2, h3, h4⟩
      exact ⟨la, lb, List.mem_append.mpr (Or.inr h1),
        List.mem_append.mpr (Or.inr h2), h3, h4⟩

end

/-- EQ pairs of a clause have their symmetric `Variable` constraints in
the clause's generated constraints, at the final representatives. -/
theorem genClause_eqMem (p : Program) (c : Clause) :
    ∀ pr ∈ c.eqPairs,
      ∃ la lb, Constr.varC la lb ∈ (genClause p c).2 ∧
        Constr.varC lb la ∈ (genClause p c).2 ∧
        repLocOf (genClause p c).1 pr.1 = la ∧
        repLocOf (genClause p c).1 pr.2 = lb := by
  intro pr hpr
  rw [Clause.eqPairs] at hpr
  rw [genClause]
  rcases List.mem_append.mp hpr with hB | hH
  · rcases genLits_eqMem p c.body [] pr hB with ⟨la, lb, h1, h2, h3, h4⟩
    refine ⟨la, lb, List.mem_append.mpr (Or.inl h1),
      List.mem_append.mpr (Or.inl h2), ?_, ?_⟩
    · exact RepStable_here (RepStable_mono h3 (genArgs_ext p c.headArgs _))
    · exact RepStable_here (RepStable_mono h4 (genArgs_ext p c.headArgs _))
  · rcases genArgs_eqMem p c.headArgs (genLits p [] c.body).1 pr hH with
      ⟨la, lb, h1, h2, h3, h4⟩
    exact ⟨la, lb, List.mem_append.mpr (Or.inr h1),
      List.mem_append.mpr (Or.inr h2), RepStable_here h3, RepStable_here h4⟩

end SouffleCore

namespace SouffleCore

/-- C6.  For every pair of arguments that are the two sides of an EQ
binary constraint in a clause that is not skipped, the types inferred at
the solver's fixed point are equal: generation emits the symmetric pair
of `Variable` constraints, both are satisfied at the fixed point, and the
subtype order is antisymmetric. -/
theorem eq_sides_types_equal (p : Program) (c : Clause)
    (hvalid : TypeAnalysis.isInvalidClause p c = true) :
    ∀ pr ∈ c.eqPairs,
      getTypeAt (solveClause p c).1 (solveClause p c).2.2 pr.1 =
      getTypeAt (solveClause p c).1 (solveClause p c).2.2 pr.2 := by
  intro pr hpr
  rcases genClause_eqMem p c pr hpr with ⟨la, lb, h1, h2, h3, h4⟩
  have hall := resolveConstraints_allSat (genClause p c).2 c.argLocs
    (genClause_targets p c)
  have hs1 := hall _ h1
  have hs2 := hall _ h2
  rw [isSat] at hs1 hs2
  show getT (resolveConstraints (genClause p c).2 c.argLocs)
      (repLocOf (genClause p c).1 pr.1) =
    getT (resolveConstraints (genClause p c).2 c.argLocs)
      (repLocOf (genClause p c).1 pr.2)
  rw [h3, h4]
  exact typeLe_antisymm _ _ hs1 hs2

/-- The clause `r(X) :- X = 3.` used as the C6 witness. -/
def clauseC6 : Clause :=
  { headLoc := 10, headRel := "r", headArgs := [.var 11 "X"],
    body := [.binary 12 .eq (.var 13 "X") (.num 14 3)],
    generated := false, plan := none }

/-- Witness for C6 on `r(X) :- X = 3.`: the two sides of the equality get
the same inferred type. -/
theorem eq_sides_types_equal_witness :
    TypeAnalysis.isInvalidClause progW1 clauseC6 = true ∧
    getTypeAt (solveClause progW1 clauseC6).1 (solveClause progW1 clauseC6).2.2
      (Arg.var 13 "X") =
    getTypeAt (solveClause progW1 clauseC6).1 (solveClause progW1 clauseC6).2.2
      (Arg.num 14 3) :=
  ⟨by rfl,
    eq_sides_types_equal progW1 clauseC6 (by rfl)
      (Arg.var 13 "X", Arg.num 14 3) (by
        show (Arg.var 13 "X", Arg.num 14 3) ∈ clauseC6.eqPairs
        rw [show clauseC6.eqPairs = [(Arg.var 13 "X", Arg.num 14 3)] from rfl]
        exact List.mem_singleton.mpr rfl)⟩

/-! ## C7: negated atoms contribute only their children's constraints -/

/-- Every argument position of `genAtomFixed` receives a `Fixed`
constraint to the declared attribute type. -/
theorem genAtomFixed_mem (p : Program) :
    ∀ (args : List Arg) (atts : List AttrDecl) (r : RepSt) (i : Nat)
      (ha : i < args.length) (hb : i < atts.length),
      ∃ la, Constr.fixedC la (getAnalysisTypeByName p ((atts.get ⟨i, hb⟩).typeName)) ∈
        (genAtomFixed p r args atts).2 := by
  intro args
  induction args with
  | nil =>
    intro atts r i ha
    exact absurd ha (by simp)
  | cons a rest ih =>
    intro atts r i ha hb
    cases atts with
    | nil => exact absurd hb (by simp)
    | cons att atts =>
      cases i with
      | zero =>
        refine ⟨(getRepLoc r a).2, ?_⟩
        rw [genAtomFixed]
        exact List.mem_cons_self _ _
      | succ n =>
        have hb2 : n < atts.length := by simpa using hb
        rcases ih atts (getRepLoc r a).1 n (by simpa using ha) hb2 with ⟨la, hla⟩
        refine ⟨la, ?_⟩
        rw [genAtomFixed]
        exact List.mem_cons_of_mem _ hla

/-- C7.  Constraint generation for a negated atom yields exactly the
constraints of the atom's child arguments — it does not impose the
relation's declared attribute types (first conjunct) — while a positive
atom of a declared relation additionally emits the `genAtomFixed`
constraints (second conjunct), which bind every argument position to the
declared attribute type (third conjunct). -/
theorem negation_only_child_constraints (p : Program) :
    (∀ (r : RepSt) (loc atomLoc : Nat) (rel : String) (args : List Arg),
      genLit p r (.neg loc atomLoc rel args) = genArgs p r args) ∧
    (∀ (r : RepSt) (loc : Nat) (rel : String) (args : List Arg) (rd : RelDecl),
      p.getRelation rel = some rd →
      genLit p r (.atom loc rel args) =
        ((genAtomFixed p (genArgs p r args).1 args rd.attrs).1,
         (genArgs p r args).2 ++ (genAtomFixed p (genArgs p r args).1 args rd.attrs).2)) ∧
    (∀ (r : RepSt) (args : List Arg) (atts : List AttrDecl) (i : Nat)
      (ha : i < args.length) (hb : i < atts.length),
      ∃ la, Constr.fixedC la (getAnalysisTypeByName p ((atts.get ⟨i, hb⟩).typeName)) ∈
        (genAtomFixed p r args atts).2) := by
  refine ⟨?_, ?_, ?_⟩
  · intro r loc atomLoc rel args
    rw [genLit]
  · intro r loc rel args rd hrel
    rw [genLit, hrel]
  · intro r args atts i ha hb
    exact genAtomFixed_mem p args atts r i ha hb

/-- Witness for C7 at `progW1` and `!r(X)` / `r(X)`: discharges the
relation-lookup and index hypotheses at concrete inputs. -/
theorem negation_only_child_constraints_witness :
    genLit progW1 [] (.neg 20 21 "r" [.var 22 "X"]) =
      genArgs progW1 [] [.var 22 "X"] ∧
    genLit progW1 [] (.atom 23 "r" [.var 22 "X"]) =
      ((genAtomFixed progW1 (genArgs progW1 [] [.var 22 "X"]).1
          [.var 22 "X"] relR.attrs).1,
       (genArgs progW1 [] [.var 22 "X"]).2 ++
        (genAtomFixed progW1 (genArgs progW1 [] [.var 22 "X"]).1
          [.var 22 "X"] relR.attrs).2) ∧
    ∃ la, Constr.fixedC la
        (getAnalysisTypeByName progW1 ((relR.attrs.get ⟨0, by decide⟩).typeName)) ∈
      (genAtomFixed progW1 [] [.var 22 "X"] relR.attrs).2 :=
  ⟨(negation_only_child_constraints progW1).1 [] 20 21 "r" [.var 22 "X"],
   (negation_only_child_constraints progW1).2.1 [] 23 "r" [.var 22 "X"] relR (by rfl),
   (negation_only_child_constraints progW1).2.2 [] [.var 22 "X"] relR.attrs 0
     (by decide) (by decide)⟩

end SouffleCore

namespace SouffleCore

/-! ## The ground analysis

`Modelled from the spec:` `getGroundedTerms` (AstGroundAnalysis) is not in
the snapshot.  Rules, following §4.1: positive atom arguments are
grounded; variables in `EQ` constraints with grounded sides are
transitively grounded; constants, counters, functors-over-grounded-args
and records-over-grounded-args are grounded; aggregator result positions
are grounded; variables occurring only in negations or inequalities are
not grounded by them; the head does not ground.  The computation is a
fixed point over the set of grounded variable names. -/

mutual
/-- Whether an argument's own structure makes it grounded, given the set
`G` of grounded variable names. -/
def argGroundedB (G : List String) : Arg → Bool
  | .var _ n => G.contains n
  | .unnamed _ => false
  | .num _ _ => true
  | .strc _ _ => true
  | .nilc _ => true
  | .counter _ => true
  | .typecast _ _ v => argGroundedB G v
  | .intrinsic _ _ as => argsGroundedB G as
  | .udf _ _ as => argsGroundedB G as
  | .recInit _ _ as => argsGroundedB G as
  | .agg _ _ _ _ => true

/-- Conjunction of groundedness over a list of arguments. -/
def argsGroundedB (G : List String) : List Arg → Bool
  | [] => true
  | a :: as => argGroundedB G a && argsGroundedB G as
end

/-- The name of a direct variable argument, if any. -/
def varNameOf : Arg → List String
  | .var _ n => [n]
  | _ => []

mutual
/-- Variable names newly grounded inside an argument (through nested
aggregator bodies). -/
def groundVarsArg (G : List String) : Arg → List String
  | .typecast _ _ v => groundVarsArg G v
  | .intrinsic _ _ as => groundVarsList G as
  | .udf _ _ as => groundVarsList G as
  | .recInit _ _ as => groundVarsList G as
  | .agg _ _ t b => groundVarsOpt G t ++ groundVarsLits G b
  | _ => []

/-- Newly grounded names of an optional argument. -/
def groundVarsOpt (G : List String) : Option Arg → List String
  | none => []
  | some a => groundVarsArg G a

/-- Newly grounded names of a list of arguments. -/
def groundVarsList (G : List String) : List Arg → List String
  | [] => []
  | a :: as => groundVarsArg G a ++ groundVarsList G as

/-- Variable names newly grounded by one literal: a positive atom grounds
its direct variable arguments; an `EQ` with a grounded side grounds a
variable on the other side; negations ground nothing directly. -/
def groundVarsLit (G : List String) : Lit → List String
  | .atom _ _ as => as.flatMap varNameOf ++ groundVarsList G as
  | .neg _ _ _ as => groundVarsList G as
  | .binary _ op a b =>
    (if op == BinOp.eq then
      (if argGroundedB G b then varNameOf a else []) ++
      (if argGroundedB G a then varNameOf b else [])
    else []) ++ groundVarsArg G a ++ groundVarsArg G b
  | .boolc _ _ => []

/-- Newly grounded names of a list of literals. -/
def groundVarsLits (G : List String) : List Lit → List String
  | [] => []
  | l :: ls => groundVarsLit G l ++ groundVarsLits G ls
end

/-- One saturation step followed by iteration until stable, with fuel. -/
def groundIter (body : List Lit) : Nat → List String → List String
  | 0, G => G
  | n + 1, G =>
    let G2 := (G ++ groundVarsLits G body).dedup
    if G2.length == G.length then G else groundIter body n G2

/-- The set of grounded variable names of a body (the head, which is not
part of the body, does not ground). -/
def groundedVars (body : List Lit) : List String :=
  groundIter body ((subArgsLits body).length + 1) []

/-- Occurrence-level groundedness: a direct argument of a positive atom
is grounded positionally; otherwise the argument's structure decides. -/
def occGroundedB (G : List String) (pos : Bool) (a : Arg) : Bool :=
  pos || argGroundedB G a

/-! ## The witness check (`usesInvalidWitness`, C2)

The node mapper `M` replaces every aggregator (outermost first) by a
fresh variable `+aggr_var_k`; the fresh counter is threaded globally as
the C++ static counter is. -/

mutual
/-- Replace aggregators in an argument; returns the next counter, the
names created, and the rewritten argument. -/
def replaceAggArg (k : Nat) : Arg → Nat × List String × Arg
  | .agg _ _ _ _ =>
    (k + 1, ["+aggr_var_" ++ toString k], .var 0 ("+aggr_var_" ++ toString k))
  | .typecast l t v =>
    let q := replaceAggArg k v
    (q.1, q.2.1, .typecast l t q.2.2)
  | .intrinsic l o as =>
    let q := replaceAggArgs k as
    (q.1, q.2.1, .intrinsic l o q.2.2)
  | .udf l n as =>
    let q := replaceAggArgs k as
    (q.1, q.2.1, .udf l n q.2.2)
  | .recInit l n as =>
    let q := replaceAggArgs k as
    (q.1, q.2.1, .recInit l n q.2.2)
  | a => (k, [], a)

/-- Replace aggregators in a list of arguments. -/
def replaceAggArgs (k : Nat) : List Arg → Nat × List String × List Arg
  | [] => (k, [], [])
  | a :: as =>
    let q1 := replaceAggArg k a
    let q2 := replaceAggArgs q1.1 as
    (q2.1, q1.2.1 ++ q2.2.1, q1.2.2 :: q2.2.2)

/-- Replace aggregators in a literal. -/
def replaceAggLit (k : Nat) : Lit → Nat × List String × Lit
  | .atom l r as =>
    let q := replaceAggArgs k as
    (q.1, q.2.1, .atom l r q.2.2)
  | .neg l al r as =>
    let q := replaceAggArgs k as
    (q.1, q.2.1, .neg l al r q.2.2)
  | .binary l op a b =>
    let q1 := replaceAggArg k a
    let q2 := replaceAggArg q1.1 b
    (q2.1, q1.2.1 ++ q2.2.1, .binary l op q1.2.2 q2.2.2)
  | .boolc l v => (k, [], .boolc l v)

/-- Replace aggregators in a list of literals. -/
def replaceAggLits (k : Nat) : List Lit → Nat × List String × List Lit
  | [] => (k, [], [])
  | l :: ls =>
    let q1 := replaceAggLit k l
    let q2 := replaceAggLits q1.1 ls
    (q2.1, q1.2.1 ++ q2.2.1, q1.2.2 :: q2.2.2)
end

mutual
/-- The identical-subnode pairing of `usesInvalidWitness`: matched
occurrences of the original and the aggregator-replaced clone, with their
positional flag.  An original aggregator's region has no surviving
counterpart (the fresh variable is unmapped, so it can never be
reported). -/
def pairedOccsArg (pos : Bool) : Arg → Arg → List (Bool × Arg × Arg)
  | .agg _ _ _ _, _ => []
  | .typecast lo t v, .typecast lr tr vr =>
    (pos, .typecast lo t v, .typecast lr tr vr) :: pairedOccsArg false v vr
  | .intrinsic lo o as, .intrinsic lr or2 asr =>
    (pos, .intrinsic lo o as, .intrinsic lr or2 asr) :: pairedOccsArgs false as asr
  | .udf lo n as, .udf lr nr asr =>
    (pos, .udf lo n as, .udf lr nr asr) :: pairedOccsArgs false as asr
  | .recInit lo n as, .recInit lr nr asr =>
    (pos, .recInit lo n as, .recInit lr nr asr) :: pairedOccsArgs false as asr
  | .var lo n, .var lr nr => [(pos, .var lo n, .var lr nr)]
  | .unnamed lo, .unnamed lr => [(pos, .unnamed lo, .unnamed lr)]
  | .num lo v, .num lr vr => [(pos, .num lo v, .num lr vr)]
  | .strc lo v, .strc lr vr => [(pos, .strc lo v, .strc lr vr)]
  | .nilc lo, .nilc lr => [(pos, .nilc lo, .nilc lr)]
  | .counter lo, .counter lr => [(pos, .counter lo, .counter lr)]
  | _, _ => []

/-- Pairing over argument lists. -/
def pairedOccsArgs (pos : Bool) : List Arg → List Arg → List (Bool × Arg × Arg)
  | a :: as, b :: bs => pairedOccsArg pos a b ++ pairedOccsArgs pos as bs
  | _, _ => []

/-- Pairing over literals: positive atom arguments are positional. -/
def pairedOccsLit : Lit → Lit → List (Bool × Arg × Arg)
  | .atom _ _ as, .atom _ _ asr => pairedOccsArgs true as asr
  | .neg _ _ _ as, .neg _ _ _ asr => pairedOccsArgs false as asr
  | .binary _ _ a b, .binary _ _ ar br =>
    pairedOccsArg false a ar ++ pairedOccsArg false b br
  | _, _ => []

/-- Pairing over literal lists. -/
def pairedOccsLits : List Lit → List Lit → List (Bool × Arg × Arg)
  | a :: as, b :: bs => pairedOccsLit a b ++ pairedOccsLits as bs
  | _, _ => []
end

/-- The reporting loop of `usesInvalidWitness`: locations of occurrences
that are ungrounded in the aggregator-replaced clone but grounded in the
unmodified clone. -/
def reportsOf (GO GR : List String) (lits rlits : List Lit) : List Nat :=
  ((pairedOccsLits lits rlits).filter
    (fun t => !occGroundedB GR t.1 t.2.2 && occGroundedB GO t.1 t.2.1)).map
    (fun t => t.2.2.loc)

mutual
/-- Bodies of all aggregators inside an argument, depth-first. -/
def aggBodiesArg : Arg → List (List Lit)
  | .typecast _ _ v => aggBodiesArg v
  | .intrinsic _ _ as => aggBodiesList as
  | .udf _ _ as => aggBodiesList as
  | .recInit _ _ as => aggBodiesList as
  | .agg _ _ t b => b :: (aggBodiesOpt t ++ aggBodiesLits b)
  | _ => []

/-- Aggregator bodies of an optional argument. -/
def aggBodiesOpt : Option Arg → List (List Lit)
  | none => []
  | some a => aggBodiesArg a

/-- Aggregator bodies of a list of arguments. -/
def aggBodiesList : List Arg → List (List Lit)
  | [] => []
  | a :: as => aggBodiesArg a ++ aggBodiesList as

/-- Aggregator bodies of a literal. -/
def aggBodiesLit : Lit → List (List Lit)
  | .atom _ _ as => aggBodiesList as
  | .neg _ _ _ as => aggBodiesList as
  | .binary _ _ a b => aggBodiesArg a ++ aggBodiesArg b
  | .boolc _ _ => []

/-- Aggregator bodies of a list of literals. -/
def aggBodiesLits : List Lit → List (List Lit)
  | [] => []
  | l :: ls => aggBodiesLit l ++ aggBodiesLits ls
end

/-- `usesInvalidWitness`: build the two clones, force the fresh
aggregator variables and the carried grounded arguments to be grounded
through the synthetic `grounding_atom`s, compare the ground analyses of
the two clones, then recurse into every aggregator body with everything
of the replaced clone considered grounded. -/
def uiw : Nat → List Lit → List Arg → Nat → List Nat × Nat
  | 0, _, _, k => ([], k)
  | fuel + 1, lits, ga, k =>
    let q := replaceAggLits k lits
    let groundingOrig : Lit := .atom 0 "grounding_atom" ga
    let groundingRepl : Lit :=
      .atom 0 "grounding_atom" (q.2.1.map (fun n => Arg.var 0 n) ++ ga)
    let GO := groundedVars (lits ++ [groundingOrig])
    let GR := groundedVars (q.2.2 ++ [groundingRepl])
    let newly := subArgsLits (q.2.2 ++ [groundingRepl]) ++ ga
    let rest := (aggBodiesLits lits).foldl
      (fun (acc : List Nat × Nat) b =>
        let r := uiw fuel b newly acc.2
        (acc.1 ++ r.1, r.2)) ([], q.1)
    (reportsOf GO GR lits q.2.2 ++ rest.1, rest.2)

/-- The head variables of a clause, cloned (`checkWitnessProblem` adds
them as a negated synthetic atom, keeping them ungrounded). -/
def headVarArgs (c : Clause) : List Arg :=
  (subArgsList c.headArgs).filterMap fun a =>
    match a with
    | .var l n => some (.var l n)
    | _ => none

/-- The literal list `checkWitnessProblem` hands to `usesInvalidWitness`:
the body plus the negated head-variables atom. -/
def witnessLits (c : Clause) : List Lit :=
  c.body ++ [.neg 0 0 "*" (headVarArgs c)]

/-- The witness message of the checker. -/
def witnessMsg : String :=
  "Witness problem: argument grounded by an aggregator's inner scope is used ungrounded in outer scope"

/-- `checkWitnessProblem` for one clause, threading the fresh counter. -/
def checkWitnessClause (c : Clause) (k : Nat) : List Diag × Nat :=
  let lits := witnessLits c
  let r := uiw ((subArgsLits lits).length + 1) lits [] k
  (r.1.map (fun l => mkError witnessMsg l), r.2)

/-- `AstSemanticChecker::checkWitnessProblem` over all clauses of the
program. -/
def checkWitnessProblem (p : Program) : List Diag :=
  ((p.attachedClauses ++ p.orphanClauses).foldl
    (fun (acc : List Diag × Nat) c =>
      let r := checkWitnessClause c acc.2
      (acc.1 ++ r.1, r.2)) ([], 0)).1

end SouffleCore

namespace SouffleCore

/-! ## C2: programs and theorems -/

/-- The clause `s(X) :- X = min Y : r(_,Y).` of the claim's scenario. -/
def clauseC2 : Clause :=
  { headLoc := 30, headRel := "s", headArgs := [.var 31 "X"],
    body := [.binary 32 .eq (.var 33 "X")
      (.agg 34 .amin (some (.var 35 "Y")) [.atom 36 "r" [.unnamed 37, .var 38 "Y"]])],
    generated := false, plan := none }

/-- `.decl r(x:number, y:number)`. -/
def relRC2 : RelDecl :=
  { rname := "r", attrs := [⟨"x", "number", 40⟩, ⟨"y", "number", 41⟩],
    representation := .std, inlineFlag := false, suppressedFlag := false,
    inputFlag := false, outputFlag := false, clauses := [], loc := 42 }

/-- `.decl s(x:number)` with the scenario clause. -/
def relSC2 : RelDecl :=
  { rname := "s", attrs := [⟨"x", "number", 43⟩], representation := .std,
    inlineFlag := false, suppressedFlag := false, inputFlag := false,
    outputFlag := false, clauses := [clauseC2], loc := 44 }

/-- The scenario program of C2. -/
def progC2 : Program :=
  { types := [], relations := [relRC2, relSC2], orphanClauses := [],
    loads := [], stores := [], printSizes := [], functors := [] }

/-- Counterexample to C2 as stated: on the claim's own program the
witness check emits no error at all — in both clones the head variable
`X` is grounded (in the replaced clone the fresh aggregator variable is
forced grounded by the synthetic grounding atom, and the equality then
grounds `X`), so the claimed witness error at the use of `X` does not
occur. -/
theorem c2_counterexample : checkWitnessProblem progC2 = [] := by rfl

/-- C2 (amended).  The witness check reports, at each level, exactly the
arguments that are ungrounded in the aggregator-replaced clone but
grounded in the unmodified clone (first conjunct: the reporting equation
of `usesInvalidWitness`, whose top-level reports are the
`ungrounded-in-replaced but grounded-in-original` filter, followed by the
recursive reports of the aggregator bodies); and on the program
`.decl r(x:number,y:number) .decl s(x:number) s(X) :- X = min Y : r(_,Y).`
it emits no witness error (second conjunct). -/
theorem witness_check_reports (fuel : Nat) (lits : List Lit) (ga : List Arg)
    (k : Nat) :
    ((uiw (fuel + 1) lits ga k).1 =
      reportsOf
        (groundedVars (lits ++ [.atom 0 "grounding_atom" ga]))
        (groundedVars ((replaceAggLits k lits).2.2 ++
          [.atom 0 "grounding_atom"
            ((replaceAggLits k lits).2.1.map (fun n => Arg.var 0 n) ++ ga)]))
        lits (replaceAggLits k lits).2.2 ++
      ((aggBodiesLits lits).foldl
        (fun (acc : List Nat × Nat) b =>
          let r := uiw fuel b
            (subArgsLits ((replaceAggLits k lits).2.2 ++
              [.atom 0 "grounding_atom"
                ((replaceAggLits k lits).2.1.map (fun n => Arg.var 0 n) ++ ga)]) ++ ga)
            acc.2
          (acc.1 ++ r.1, r.2)) ([], (replaceAggLits k lits).1)).1) ∧
    checkWitnessProblem progC2 = [] :=
  ⟨rfl, rfl⟩

/-- The clause `t(X,Y) :- X = min Z : r(Y,Z).` — a genuine witness leak:
`Y` is grounded only inside the aggregator. -/
def clauseC2b : Clause :=
  { headLoc := 50, headRel := "t", headArgs := [.var 51 "X", .var 52 "Y"],
    body := [.binary 53 .eq (.var 54 "X")
      (.agg 55 .amin (some (.var 56 "Z")) [.atom 57 "r" [.var 58 "Y", .var 59 "Z"]])],
    generated := false, plan := none }

/-- A program exercising the genuine leak. -/
def progC2b : Program :=
  { types := [], relations := [relRC2], orphanClauses := [clauseC2b],
    loads := [], stores := [], printSizes := [], functors := [] }

/-- Sanity check of the model: a genuine leak (a head variable grounded
only inside an aggregator body) IS reported, at the head occurrence of
the leaked variable. -/
theorem witness_model_detects_leak :
    checkWitnessProblem progC2b = [mkError witnessMsg 52] := by rfl

end SouffleCore

namespace SouffleCore

/-! ## C3: stratification

Modelled from the spec: `PrecedenceGraph` and the generic `Graph`
(`vertices`, `reaches`, `clique`) as well as the utility queries
`hasClauseWithNegatedRelation` / `hasClauseWithAggregatedRelation` are
not in the snapshot and are modelled from the spec (sections on inputs,
utility queries and checkStratification). -/

/-- Modelled from the spec: the precedence graph over relation names, a
precomputed analysis offering `vertices`, `reaches` and `clique`. -/
structure PGraph where
  vertices : List String
  edges : List (String × String)

/-- The successors of a vertex: the targets of its outgoing edges. -/
def succsOf (g : PGraph) (v : String) : List String :=
  (g.edges.filter (fun e => e.1 == v)).map (fun e => e.2)

/-- One saturation step of forward reachability. -/
def stepR (g : PGraph) (S : List String) : List String :=
  (S ++ S.flatMap (succsOf g)).dedup

/-- Fuelled saturation, stopping when a step adds nothing. -/
def iterR (g : PGraph) : Nat → List String → List String
  | 0, S => S
  | n + 1, S =>
    if (stepR g S).length = S.length then S else iterR g n (stepR g S)

/-- The vertices reachable from `a` by at least one edge. -/
def reachList (g : PGraph) (a : String) : List String :=
  iterR g ((g.edges.map (fun e => e.2)).dedup.length + 1) (succsOf g a).dedup

/-- Modelled from the spec: `Graph::reaches` — reachability by a
non-empty edge path. -/
def reachesB (g : PGraph) (a b : String) : Bool :=
  decide (b ∈ reachList g a)

/-- Modelled from the spec: `Graph::clique` — the vertices mutually
reachable with `cur`. -/
def clique (g : PGraph) (cur : String) : List String :=
  g.vertices.filter (fun v => reachesB g cur v && reachesB g v cur)

/-- Reachability by at least one edge, as an inductive relation: the
mathematical reading of `Graph::reaches`. -/
inductive Reaches (g : PGraph) : String → String → Prop
  | edge {a b : String} : (a, b) ∈ g.edges → Reaches g a b
  | tail {a c b : String} : (a, c) ∈ g.edges → Reaches g c b → Reaches g a b

/-- Reachability is transitive. -/
theorem reaches_trans {g : PGraph} {a b c : String} (h1 : Reaches g a b)
    (h2 : Reaches g b c) : Reaches g a c := by
  induction h1 with
  | edge he => exact .tail he h2
  | tail he _ ih => exact .tail he (ih h2)

/-- Reachability extends along a final edge. -/
theorem reaches_snoc {g : PGraph} {a b c : String} (h : Reaches g a b)
    (he : (b, c) ∈ g.edges) : Reaches g a c :=
  reaches_trans h (.edge he)

/-- Successor membership is edge membership. -/
theorem mem_succsOf {g : PGraph} {v x : String} :
    x ∈ succsOf g v ↔ (v, x) ∈ g.edges := by
  constructor
  · intro h
    simp only [succsOf, List.mem_map, List.mem_filter] at h
    obtain ⟨e, ⟨he, hv⟩, hx⟩ := h
    have h1 : e.1 = v := by simpa using hv
    cases e
    simp only at h1 hx
    subst h1; subst hx; exact he
  · intro h
    simp only [succsOf, List.mem_map, List.mem_filter]
    exact ⟨(v, x), ⟨h, by simp⟩, rfl⟩

/-- A saturation step preserves reachability of every member. -/
theorem stepR_sound {g : PGraph} {a : String} {S : List String}
    (hS : ∀ x ∈ S, Reaches g a x) : ∀ x ∈ stepR g S, Reaches g a x := by
  intro x hx
  simp only [stepR, List.mem_dedup, List.mem_append, List.mem_flatMap] at hx
  rcases hx with hx | ⟨y, hy, hxy⟩
  · exact hS x hx
  · exact reaches_snoc (hS y hy) (mem_succsOf.mp hxy)

/-- The saturation loop preserves reachability of every member. -/
theorem iterR_sound {g : PGraph} {a : String} :
    ∀ (n : Nat) (S : List String), (∀ x ∈ S, Reaches g a x) →
      ∀ x ∈ iterR g n S, Reaches g a x := by
  intro n
  induction n with
  | zero => intro S hS; simpa [iterR] using hS
  | succ n ih =>
    intro S hS x hx
    rw [iterR] at hx
    by_cases hlen : (stepR g S).length = S.length
    · rw [if_pos hlen] at hx; exact hS x hx
    · rw [if_neg hlen] at hx; exact ih (stepR g S) (stepR_sound hS) x hx

/-- Soundness: the computed reachability implies the inductive one. -/
theorem reachesB_sound {g : PGraph} {a b : String}
    (h : reachesB g a b = true) : Reaches g a b := by
  have hb : b ∈ reachList g a := of_decide_eq_true h
  refine iterR_sound _ ((succsOf g a).dedup) ?_ b hb
  intro x hx
  exact Reaches.edge (mem_succsOf.mp (List.mem_dedup.mp hx))

/-- A set closed under the successor operation. -/
def ClosedSet (g : PGraph) (S : List String) : Prop :=
  ∀ x ∈ S, ∀ y ∈ succsOf g x, y ∈ S

end SouffleCore

namespace SouffleCore

/-- With enough fuel the saturation loop contains its start and reaches
a successor-closed set: each failed stability test strictly grows a
duplicate-free subset of the edge-target list. -/
theorem iterR_closed {g : PGraph} :
    ∀ (n : Nat) (S : List String), S.Nodup →
      (∀ x ∈ S, x ∈ (g.edges.map (fun e => e.2)).dedup) →
      (g.edges.map (fun e => e.2)).dedup.length + 1 ≤ n + S.length →
      (∀ x ∈ S, x ∈ iterR g n S) ∧ ClosedSet g (iterR g n S) := by
  intro n
  induction n with
  | zero =>
    intro S hnd hsub hb
    exfalso
    have h1 : S.toFinset.card = S.length := List.toFinset_card_of_nodup hnd
    have h2 : ((g.edges.map (fun e => e.2)).dedup).toFinset.card =
        (g.edges.map (fun e => e.2)).dedup.length :=
      List.toFinset_card_of_nodup (List.nodup_dedup _)
    have h3 : S.toFinset ⊆ ((g.edges.map (fun e => e.2)).dedup).toFinset := by
      intro x hx
      exact List.mem_toFinset.mpr (hsub x (List.mem_toFinset.mp hx))
    have h4 := Finset.card_le_card h3
    omega
  | succ n ih =>
    intro S hnd hsub hb
    rw [iterR]
    have hsubS : ∀ x ∈ S, x ∈ stepR g S := fun x hx =>
      List.mem_dedup.mpr (List.mem_append_left _ hx)
    have hndS : (stepR g S).Nodup := List.nodup_dedup _
    by_cases hlen : (stepR g S).length = S.length
    · rw [if_pos hlen]
      refine ⟨fun x hx => hx, ?_⟩
      have hfin : S.toFinset = (stepR g S).toFinset := by
        apply Finset.eq_of_subset_of_card_le
        · intro x hx
          exact List.mem_toFinset.mpr (hsubS x (List.mem_toFinset.mp hx))
        · rw [List.toFinset_card_of_nodup hndS, List.toFinset_card_of_nodup hnd, hlen]
      intro x hx y hy
      have hyS : y ∈ stepR g S :=
        List.mem_dedup.mpr (List.mem_append_right _ (List.mem_flatMap.mpr ⟨x, hx, hy⟩))
      have hyF : y ∈ (stepR g S).toFinset := List.mem_toFinset.mpr hyS
      rw [← hfin] at hyF
      exact List.mem_toFinset.mp hyF
    · rw [if_neg hlen]
      have hsubU : ∀ x ∈ stepR g S, x ∈ (g.edges.map (fun e => e.2)).dedup := by
        intro x hx
        rcases List.mem_append.mp (List.mem_dedup.mp hx) with h | h
        · exact hsub x h
        · obtain ⟨y, _, hxy⟩ := List.mem_flatMap.mp h
          exact List.mem_dedup.mpr (List.mem_map.mpr ⟨(y, x), mem_succsOf.mp hxy, rfl⟩)
      have hgrow : S.length + 1 ≤ (stepR g S).length := by
        have hle : S.length ≤ (stepR g S).length := by
          rw [← List.toFinset_card_of_nodup hnd, ← List.toFinset_card_of_nodup hndS]
          apply Finset.card_le_card
          intro x hx
          exact List.mem_toFinset.mpr (hsubS x (List.mem_toFinset.mp hx))
        omega
      have hrec := ih (stepR g S) hndS hsubU (by omega)
      exact ⟨fun x hx => hrec.1 x (hsubS x hx), hrec.2⟩

/-- The reach list contains the immediate successors and is closed. -/
theorem reachList_closed (g : PGraph) (a : String) :
    (∀ x ∈ (succsOf g a).dedup, x ∈ reachList g a) ∧
      ClosedSet g (reachList g a) := by
  apply iterR_closed
  · exact List.nodup_dedup _
  · intro x hx
    exact List.mem_dedup.mpr
      (List.mem_map.mpr ⟨(a, x), mem_succsOf.mp (List.mem_dedup.mp hx), rfl⟩)
  · omega

/-- A walk starting inside a closed set stays inside it. -/
theorem reaches_mem_of_closed {g : PGraph} {S : List String}
    (hc : ClosedSet g S) {c b : String} (hcS : c ∈ S) (h : Reaches g c b) :
    b ∈ S := by
  revert hcS
  induction h with
  | edge he => intro hcS; exact hc _ hcS _ (mem_succsOf.mpr he)
  | tail he _ ih => intro hcS; exact ih (hc _ hcS _ (mem_succsOf.mpr he))

/-- Completeness: the inductive reachability implies the computed one. -/
theorem reachesB_complete {g : PGraph} {a b : String}
    (h : Reaches g a b) : reachesB g a b = true := by
  apply decide_eq_true
  obtain ⟨hinit, hclosed⟩ := reachList_closed g a
  cases h with
  | edge he => exact hinit b (List.mem_dedup.mpr (mem_succsOf.mpr he))
  | tail he h2 =>
    exact reaches_mem_of_closed hclosed
      (hinit _ (List.mem_dedup.mpr (mem_succsOf.mpr he))) h2

end SouffleCore

namespace SouffleCore

/-- A cycle in the precedence graph: a non-empty closed edge walk,
written as the list of visited vertices. -/
def isCycle (g : PGraph) : List String → Prop
  | [] => False
  | v :: t => List.Chain' (fun a b => (a, b) ∈ g.edges) (v :: (t ++ [v]))

/-- Along an edge chain, the head reaches every later element. -/
theorem chain_reaches_mem {g : PGraph} :
    ∀ (L : List String) (x y : String),
      List.Chain' (fun a b => (a, b) ∈ g.edges) (x :: L) → y ∈ L →
      Reaches g x y := by
  intro L
  induction L with
  | nil => intro x y _ hy; cases hy
  | cons z L ih =>
    intro x y hch hy
    rw [List.chain'_cons] at hch
    rcases List.mem_cons.mp hy with rfl | hy
    · exact Reaches.edge hch.1
    · exact Reaches.tail hch.1 (ih z y hch.2 hy)

/-- The head of a cycle reaches every member of the cycle. -/
theorem cycle_head_reaches {g : PGraph} {v : String} {t : List String}
    (hcyc : isCycle g (v :: t)) {b : String} (hb : b ∈ v :: t) :
    Reaches g v b := by
  apply chain_reaches_mem (t ++ [v]) v b hcyc
  rcases List.mem_cons.mp hb with rfl | hb
  · exact List.mem_append_right _ (List.mem_singleton.mpr rfl)
  · exact List.mem_append_left _ hb

/-- Every member of a cycle reaches the head of the cycle. -/
theorem cycle_reaches_head {g : PGraph} {v : String} {t : List String}
    (hcyc : isCycle g (v :: t)) {a : String} (ha : a ∈ v :: t) :
    Reaches g a v := by
  rcases List.mem_cons.mp ha with rfl | ha
  · exact cycle_head_reaches hcyc (List.mem_cons_self _ _)
  · obtain ⟨u, w, rfl⟩ := List.append_of_mem ha
    have hch : List.Chain' (fun a b => (a, b) ∈ g.edges)
        ((v :: u) ++ (a :: (w ++ [v]))) := by
      have heq : (v :: u) ++ (a :: (w ++ [v])) = v :: ((u ++ a :: w) ++ [v]) := by
        simp
      rw [heq]; exact hcyc
    have hch2 := (List.chain'_append.mp hch).2.1
    exact chain_reaches_mem (w ++ [v]) a v hch2
      (List.mem_append_right _ (List.mem_singleton.mpr rfl))

/-- Any two members of a cycle reach each other. -/
theorem cycle_mem_reaches {g : PGraph} {v : String} {t : List String}
    (hcyc : isCycle g (v :: t)) {a b : String} (ha : a ∈ v :: t)
    (hb : b ∈ v :: t) : Reaches g a b :=
  reaches_trans (cycle_reaches_head hcyc ha) (cycle_head_reaches hcyc hb)

/-- The source of any reachability fact is a vertex of a well-formed
graph. -/
theorem reaches_src_mem {g : PGraph}
    (hWF : ∀ e ∈ g.edges, e.1 ∈ g.vertices) {a b : String}
    (h : Reaches g a b) : a ∈ g.vertices := by
  cases h with
  | edge he => exact hWF _ he
  | tail he _ => exact hWF _ he

/-- Reachability yields an explicit non-empty edge chain. -/
theorem reaches_path {g : PGraph} {a b : String} (h : Reaches g a b) :
    ∃ P : List String, P ≠ [] ∧
      List.Chain' (fun x y => (x, y) ∈ g.edges) (a :: P) ∧
      P.getLast? = some b := by
  induction h with
  | edge he =>
    rename_i a2 b2
    exact ⟨[b2], by simp, List.chain'_pair.mpr he, by simp⟩
  | tail he _ ih =>
    obtain ⟨P, hne, hch, hlast⟩ := ih
    refine ⟨_ :: P, by simp, List.chain'_cons.mpr ⟨he, hch⟩, ?_⟩
    cases P with
    | nil => exact absurd rfl hne
    | cons p P2 => rw [List.getLast?_cons_cons]; exact hlast

/-- Mutually reachable vertices lie on a common cycle. -/
theorem mutual_reaches_cycle {g : PGraph} {x y : String}
    (hxy : Reaches g x y) (hyx : Reaches g y x) :
    ∃ C : List String, isCycle g C ∧ x ∈ C ∧ y ∈ C := by
  obtain ⟨P1, h1ne, h1ch, h1last⟩ := reaches_path hxy
  obtain ⟨P2, h2ne, h2ch, h2last⟩ := reaches_path hyx
  have h2lastv : P2.getLast h2ne = x := by
    have := List.getLast?_eq_getLast P2 h2ne
    rw [this] at h2last
    exact Option.some_injective _ h2last
  have h1lastv : P1.getLast h1ne = y := by
    have := List.getLast?_eq_getLast P1 h1ne
    rw [this] at h1last
    exact Option.some_injective _ h1last
  refine ⟨x :: (P1 ++ P2.dropLast), ?_, List.mem_cons_self _ _, ?_⟩
  · show List.Chain' (fun a b => (a, b) ∈ g.edges)
      (x :: ((P1 ++ P2.dropLast) ++ [x]))
    have hfull : (x :: ((P1 ++ P2.dropLast) ++ [x])) = (x :: P1) ++ P2 := by
      have hdl : P2.dropLast ++ [x] = P2 := by
        conv_rhs => rw [← List.dropLast_append_getLast h2ne]
        rw [h2lastv]
      rw [← hdl]; simp
    rw [hfull]
    apply List.chain'_append.mpr
    refine ⟨h1ch, ?_, ?_⟩
    · cases P2 with
      | nil => exact absurd rfl h2ne
      | cons p P2t => exact (List.chain'_cons.mp h2ch).2
    · intro u hu w hw
      have hu2 : u = y := by
        have : (x :: P1).getLast? = some y := by
          rw [List.getLast?_eq_getLast _ (by simp)]
          rw [List.getLast_cons h1ne, h1lastv]
        rw [this] at hu
        exact Option.some_injective _ hu.symm
      have hw2 : P2.head? = some w := hw
      cases P2 with
      | nil => exact absurd rfl h2ne
      | cons p P2t =>
        have hp : w = p := by
          rw [List.head?_cons] at hw2
          exact (Option.some_injective _ hw2).symm
        subst hu2; subst hp
        exact (List.chain'_cons.mp h2ch).1
  · have hy1 : y ∈ P1 := h1lastv ▸ List.getLast_mem h1ne
    exact List.mem_cons_of_mem _ (List.mem_append_left _ hy1)

end SouffleCore

namespace SouffleCore

/-- Modelled from the spec: the first negated literal in a clause of
relation `r` whose atom refers to relation `s`; returns its source
location (the found literal of `checkStratification`). -/
def hasClauseWithNegatedRelation (p : Program) (r s : String) : Option Nat :=
  (p.getRelation r).bind (fun rd =>
    rd.clauses.findSome? (fun c =>
      c.allLits.findSome? (fun l =>
        match l with
        | .neg loc _ rel _ => if rel == s then some loc else none
        | _ => none)))

/-- Modelled from the spec: the first atom inside an aggregator of a
clause of relation `r` that refers to relation `s`; returns its source
location. -/
def hasClauseWithAggregatedRelation (p : Program) (r s : String) : Option Nat :=
  (p.getRelation r).bind (fun rd =>
    rd.clauses.findSome? (fun c =>
      c.allArgs.findSome? (fun a =>
        match a with
        | .agg _ _ _ body =>
          body.findSome? (fun l =>
            match l with
            | .atom loc rel _ => if rel == s then some loc else none
            | .neg _ atomLoc rel _ => if rel == s then some atomLoc else none
            | _ => none)
        | _ => none)))

/-- A stratification diagnostic: the main message naming the clique, the
message naming the seed relation at its location, and the note naming
the dependency kind at the offending literal's location. -/
structure StratDiag where
  main : String
  relMsg : String
  relLoc : Nat
  note : String
  noteLoc : Nat

/-- The first clique member depending on `cur` via negation (checked
first) or aggregation, with the dependency kind and the literal. -/
def findStratOffense (p : Program) (cur : String) (cl : List String) :
    Option (String × Nat) :=
  cl.findSome? (fun r =>
    match hasClauseWithNegatedRelation p r cur with
    | some l => some ("negation", l)
    | none =>
      match hasClauseWithAggregatedRelation p r cur with
      | some l => some ("aggregation", l)
      | none => none)

/-- Source location of a declared relation. -/
def relLocOf (p : Program) (r : String) : Nat :=
  ((p.getRelation r).map (fun rd => rd.loc)).getD 0

/-- `AstSemanticChecker::checkStratification`: for every vertex on a
cycle of the precedence graph, scan its clique for a member depending on
it via negation or aggregation, and emit (at most one per vertex, the
scan breaking at the first offender) a diagnostic naming the clique and
the offending literal. -/
def checkStratification (p : Program) (g : PGraph) : List StratDiag :=
  g.vertices.flatMap (fun cur =>
    if reachesB g cur cur then
      match findStratOffense p cur (clique g cur) with
      | some wl =>
        [{ main := "Unable to stratify relation(s) \x7b" ++
             String.intercalate "," (clique g cur) ++ "\x7d",
           relMsg := "Relation " ++ cur, relLoc := relLocOf p cur,
           note := "has cyclic " ++ wl.1, noteLoc := wl.2 }]
      | none => []
    else [])

end SouffleCore

namespace SouffleCore

/-- C3.  The stratification check accepts (emits no diagnostic) if and
only if for every cycle of the precedence graph no relation on the cycle
depends on a relation on the cycle via negation or aggregation; and each
emitted diagnostic names the clique of a vertex lying on a cycle (in its
main message) together with the dependency kind and the offending
literal's location of the first offender found in that clique. -/
theorem stratification_cycle_characterization (p : Program) (g : PGraph)
    (hWF : ∀ e ∈ g.edges, e.1 ∈ g.vertices) :
    (checkStratification p g = [] ↔
      ∀ C : List String, isCycle g C → ∀ a ∈ C, ∀ b ∈ C,
        hasClauseWithNegatedRelation p a b = none ∧
        hasClauseWithAggregatedRelation p a b = none) ∧
    (∀ d ∈ checkStratification p g, ∃ cur nm lit,
      cur ∈ g.vertices ∧ reachesB g cur cur = true ∧
      findStratOffense p cur (clique g cur) = some (nm, lit) ∧
      d.main = "Unable to stratify relation(s) \x7b" ++
        String.intercalate "," (clique g cur) ++ "\x7d" ∧
      d.relMsg = "Relation " ++ cur ∧ d.relLoc = relLocOf p cur ∧
      d.note = "has cyclic " ++ nm ∧ d.noteLoc = lit) := by
  constructor
  · constructor
    · intro hE C hcyc a haC b hbC
      cases C with
      | nil => simp [isCycle] at hcyc
      | cons v t =>
        by_contra hne
        have hRbb : Reaches g b b := cycle_mem_reaches hcyc hbC hbC
        have hRba : Reaches g b a := cycle_mem_reaches hcyc hbC haC
        have hRab : Reaches g a b := cycle_mem_reaches hcyc haC hbC
        have hbv : b ∈ g.vertices := reaches_src_mem hWF hRbb
        have hav : a ∈ g.vertices := reaches_src_mem hWF hRab
        have haclq : a ∈ clique g b := by
          simp only [clique, List.mem_filter]
          refine ⟨hav, ?_⟩
          rw [reachesB_complete hRba, reachesB_complete hRab]
          rfl
        have hoff : findStratOffense p b (clique g b) ≠ none := by
          intro h0
          have hfa := List.findSome?_eq_none.mp h0 a haclq
          revert hfa
          cases hneg : hasClauseWithNegatedRelation p a b with
          | some l => simp
          | none =>
            cases hagg : hasClauseWithAggregatedRelation p a b with
            | some l => simp
            | none => intro _; exact hne ⟨hneg, hagg⟩
        rw [checkStratification, List.flatMap_eq_nil_iff] at hE
        have hent := hE b hbv
        rw [if_pos (reachesB_complete hRbb)] at hent
        cases hoffv : findStratOffense p b (clique g b) with
        | none => exact hoff hoffv
        | some wl => rw [hoffv] at hent; cases hent
    · intro hclean
      rw [checkStratification, List.flatMap_eq_nil_iff]
      intro cur hcur
      by_cases hrr : reachesB g cur cur = true
      · rw [if_pos hrr]
        cases hoff : findStratOffense p cur (clique g cur) with
        | none => rfl
        | some wl =>
          exfalso
          obtain ⟨r, hrclq, hfr⟩ := List.exists_of_findSome?_eq_some hoff
          have hrv := List.mem_filter.mp hrclq
          have h2 := hrv.2
          rw [Bool.and_eq_true] at h2
          have hcr : Reaches g cur r := reachesB_sound h2.1
          have hrc : Reaches g r cur := reachesB_sound h2.2
          obtain ⟨C, hcyc, hcurC, hrC⟩ := mutual_reaches_cycle hcr hrc
          have hcl := hclean C hcyc r hrC cur hcurC
          simp only [hcl.1, hcl.2] at hfr
          cases hfr
      · rw [if_neg hrr]
  · intro d hd
    rw [checkStratification, List.mem_flatMap] at hd
    obtain ⟨cur, hcur, hdf⟩ := hd
    by_cases hrr : reachesB g cur cur = true
    · rw [if_pos hrr] at hdf
      cases hoff : findStratOffense p cur (clique g cur) with
      | none => rw [hoff] at hdf; cases hdf
      | some wl =>
        rw [hoff] at hdf
        have hd1 := List.mem_singleton.mp hdf
        subst hd1
        exact ⟨cur, wl.1, wl.2, hcur, hrr, by rw [hoff], rfl, rfl, rfl, rfl, rfl⟩
    · rw [if_neg hrr] at hdf
      cases hdf

end SouffleCore

namespace SouffleCore

/-- The clause `a(X) :- b(X).`. -/
def clauseStratA : Clause :=
  { headLoc := 60, headRel := "a", headArgs := [.var 61 "X"],
    body := [.atom 62 "b" [.var 63 "X"]], generated := false, plan := none }

/-- The clause `b(X) :- !a(X).`. -/
def clauseStratB : Clause :=
  { headLoc := 64, headRel := "b", headArgs := [.var 65 "X"],
    body := [.neg 66 67 "a" [.var 68 "X"]], generated := false, plan := none }

/-- `.decl a(x:number)` with its clause. -/
def relStratA : RelDecl :=
  { rname := "a", attrs := [⟨"x", "number", 69⟩], representation := .std,
    inlineFlag := false, suppressedFlag := false, inputFlag := false,
    outputFlag := false, clauses := [clauseStratA], loc := 70 }

/-- `.decl b(x:number)` with its clause. -/
def relStratB : RelDecl :=
  { rname := "b", attrs := [⟨"x", "number", 72⟩], representation := .std,
    inlineFlag := false, suppressedFlag := false, inputFlag := false,
    outputFlag := false, clauses := [clauseStratB], loc := 71 }

/-- The mutually recursive program with a negation across the cycle. -/
def progStrat : Program :=
  { types := [], relations := [relStratA, relStratB], orphanClauses := [],
    loads := [], stores := [], printSizes := [], functors := [] }

/-- Its precedence graph: `a` and `b` depend on each other. -/
def gStrat : PGraph :=
  { vertices := ["a", "b"], edges := [("b", "a"), ("a", "b")] }

/-- The characterization instantiated on the mutually recursive program
with a negation across the cycle; the well-formedness hypothesis is
discharged by computation. -/
theorem stratification_characterization_witness :
    (checkStratification progStrat gStrat = [] ↔
      ∀ C : List String, isCycle gStrat C → ∀ a ∈ C, ∀ b ∈ C,
        hasClauseWithNegatedRelation progStrat a b = none ∧
        hasClauseWithAggregatedRelation progStrat a b = none) ∧
    (∀ d ∈ checkStratification progStrat gStrat, ∃ cur nm lit,
      cur ∈ gStrat.vertices ∧ reachesB gStrat cur cur = true ∧
      findStratOffense progStrat cur (clique gStrat cur) = some (nm, lit) ∧
      d.main = "Unable to stratify relation(s) \x7b" ++
        String.intercalate "," (clique gStrat cur) ++ "\x7d" ∧
      d.relMsg = "Relation " ++ cur ∧ d.relLoc = relLocOf progStrat cur ∧
      d.note = "has cyclic " ++ nm ∧ d.noteLoc = lit) :=
  stratification_cycle_characterization progStrat gStrat (by decide)

/-- The spec scenario: `.decl a(x:number) .decl b(x:number)
a(X):-b(X). b(X):- !a(X).` yields one diagnostic naming the clique
of `a` and `b` with the note at the negation. -/
theorem stratification_scenario :
    checkStratification progStrat gStrat =
      [{ main := "Unable to stratify relation(s) \x7ba,b\x7d",
         relMsg := "Relation a", relLoc := 70,
         note := "has cyclic negation", noteLoc := 66 }] := by rfl

end SouffleCore

namespace SouffleCore

/-! ## The semantic checker (`AstSemanticChecker.cpp`)

Diagnostics are collected in the order the source emits them. -/

mutual
/-- The static helper `hasUnnamedVariable(AstArgument*)`: underscores are
looked for through casts, functors and record constructors, but not
inside aggregators. -/
def hasUnnamedVariable : Arg → Bool
  | .unnamed _ => true
  | .typecast _ _ v => hasUnnamedVariable v
  | .intrinsic _ _ as => hasUnnamedList as
  | .udf _ _ as => hasUnnamedList as
  | .recInit _ _ as => hasUnnamedList as
  | _ => false

/-- Disjunction of `hasUnnamedVariable` over a list. -/
def hasUnnamedList : List Arg → Bool
  | [] => false
  | a :: as => hasUnnamedVariable a || hasUnnamedList as
end

/-- The static helper `hasUnnamedVariable(AstLiteral*)`. -/
def hasUnnamedLit : Lit → Bool
  | .atom _ _ as => hasUnnamedList as
  | .neg _ _ _ as => hasUnnamedList as
  | .binary _ _ a b => hasUnnamedVariable a || hasUnnamedVariable b
  | .boolc _ _ => false

mutual
/-- The static helper `isConstantArithExpr`: a number constant, or a
numerical intrinsic functor all of whose arguments are constant
arithmetic expressions. -/
def isConstantArithExpr : Arg → Bool
  | .num _ _ => true
  | .intrinsic _ op args => op.isNumerical && allConstantArith args
  | _ => false

/-- Conjunction of `isConstantArithExpr` over a list. -/
def allConstantArith : List Arg → Bool
  | [] => true
  | a :: as => isConstantArithExpr a && allConstantArith as
end

mutual
/-- `AstSemanticChecker::checkConstant`: one error per offending
position inside a fact argument; casts and record constructors recurse,
constants and constant arithmetic expressions pass.  The aggregator case
is the source's unreachable `assert(false)` default, which emits no
diagnostic. -/
def checkConstant : Arg → List Diag
  | .var l n => [mkError ("Variable " ++ n ++ " in fact") l]
  | .unnamed l => [mkError "Underscore in fact" l]
  | .intrinsic l op args =>
    if isConstantArithExpr (.intrinsic l op args) then []
    else [mkError "Function in fact" l]
  | .udf l _ _ => [mkError "User-defined functor in fact" l]
  | .typecast _ _ v => checkConstant v
  | .counter l => [mkError "Counter in fact" l]
  | .num _ _ => []
  | .strc _ _ => []
  | .nilc _ => []
  | .recInit _ _ args => checkConstantList args
  | .agg _ _ _ _ => []

/-- `checkConstant` over a list of arguments. -/
def checkConstantList : List Arg → List Diag
  | [] => []
  | a :: as => checkConstant a ++ checkConstantList as
end

/-- `AstSemanticChecker::checkFact`: facts whose head relation is not
declared are skipped (left to the clause check); otherwise every head
argument is checked for constancy. -/
def checkFact (p : Program) (c : Clause) : List Diag :=
  match p.getRelation c.headRel with
  | none => []
  | some _ => checkConstantList c.headArgs

/-- The declaration part of `AstSemanticChecker::checkAtom`: the
relation must exist and the arity must match. -/
def atomDeclDiags (p : Program) (loc : Nat) (rel : String)
    (args : List Arg) : List Diag :=
  match p.getRelation rel with
  | none => [mkError ("Undefined relation " ++ rel) loc]
  | some r =>
    if r.arity == args.length then []
    else [mkError ("Mismatching arity of relation " ++ rel) loc]

mutual
/-- `AstSemanticChecker::checkArgument`: aggregators check their body
literals, functors recurse into their arguments, and every other
argument checks nothing. -/
def checkArgument (p : Program) : Arg → List Diag
  | .agg _ _ _ body => checkLitList p body
  | .intrinsic _ _ as => checkArgList p as
  | .udf _ _ as => checkArgList p as
  | _ => []

/-- `checkArgument` over a list. -/
def checkArgList (p : Program) : List Arg → List Diag
  | [] => []
  | a :: as => checkArgument p a ++ checkArgList p as

/-- `AstSemanticChecker::checkLiteral`: the nested atom of a positive or
negated literal is checked; the sides of a binary constraint are
checked; an underscore directly under a binary constraint is an error. -/
def checkLiteral (p : Program) : Lit → List Diag
  | .atom l r as => atomDeclDiags p l r as ++ checkArgList p as
  | .neg _ al r as => atomDeclDiags p al r as ++ checkArgList p as
  | .binary l _ a b =>
    checkArgument p a ++ checkArgument p b ++
    (if hasUnnamedVariable a || hasUnnamedVariable b then
      [mkError "Underscore in binary relation" l]
    else [])
  | .boolc _ _ => []

/-- `checkLiteral` over a list. -/
def checkLitList (p : Program) : List Lit → List Diag
  | [] => []
  | l :: ls => checkLiteral p l ++ checkLitList p ls
end

/-- `AstSemanticChecker::checkAtom`: the declaration part followed by
the check of each argument. -/
def checkAtom (p : Program) (loc : Nat) (rel : String) (args : List Arg) :
    List Diag :=
  atomDeclDiags p loc rel args ++ checkArgList p args

end SouffleCore

namespace SouffleCore

/-- Positive-atom test on a literal. -/
def Lit.isAtomL : Lit → Bool
  | .atom _ _ _ => true
  | _ => false

/-- Negation test on a literal. -/
def Lit.isNegL : Lit → Bool
  | .neg _ _ _ _ => true
  | _ => false

/-- Constraint test on a literal (binary or boolean). -/
def Lit.isConstraintL : Lit → Bool
  | .binary _ _ _ _ => true
  | .boolc _ _ => true
  | _ => false

/-- All variable occurrences of a clause in visit order: head first,
then the body, nested subterms included. -/
def varOccs (c : Clause) : List (String × Nat) :=
  c.allArgs.filterMap (fun a =>
    match a with
    | .var l n => some (n, l)
    | _ => none)

/-- Lexicographic comparison of character lists by code point. -/
def strLtL : List Char → List Char → Bool
  | [], [] => false
  | [], _ :: _ => true
  | _ :: _, [] => false
  | c :: cs, d :: ds =>
    if c.val.toNat < d.val.toNat then true
    else if d.val.toNat < c.val.toNat then false
    else strLtL cs ds

/-- Lexicographic string comparison (the `std::string` order). -/
def strLtB (a b : String) : Bool := strLtL a.data b.data

/-- Whether a name starts with an underscore. -/
def startsUnderscore (n : String) : Bool :=
  match n.data with
  | c :: _ => c == '_'
  | [] => false

/-- Insertion into a lexicographically sorted list of names (the
iteration order of the `std::map` keyed by variable name). -/
def insertSorted (s : String) : List String → List String
  | [] => [s]
  | x :: xs => if strLtB s x then s :: x :: xs else x :: insertSorted s xs

/-- Sort names lexicographically. -/
def sortNames (l : List String) : List String :=
  l.foldl (fun acc s => insertSorted s acc) []

/-- Location of the last occurrence of a variable name (the `var_pos`
map is overwritten at each visit). -/
def lastLocOf (n : String) (occs : List (String × Nat)) : Nat :=
  (((occs.filter (fun pr => pr.1 == n)).getLast?).map Prod.snd).getD 0

/-- The use-once warnings of `checkClause`: on non-generated clauses,
every variable occurring exactly once whose name does not start with an
underscore draws a warning at its last (only) occurrence, in name
order. -/
def useOnceWarnings (c : Clause) : List Diag :=
  if c.generated then []
  else
    (sortNames ((varOccs c).map Prod.fst).dedup).filterMap (fun n =>
      if ((varOccs c).map Prod.fst).count n == 1 && !(startsUnderscore n) then
        some (mkWarning ("Variable " ++ n ++ " only occurs once")
          (lastLocOf n (varOccs c)))
      else none)

/-- The execution-plan errors of `checkClause`: each order must have as
many elements as the clause has positive body atoms and be complete. -/
def planDiags (c : Clause) : List Diag :=
  match c.plan with
  | none => []
  | some pl =>
    pl.orders.flatMap (fun pr =>
      if pr.2.len == (c.body.filter Lit.isAtomL).length && pr.2.complete then []
      else [mkError "Invalid execution plan" pr.2.loc])

/-- The auto-increment errors of `checkClause`: on recursive clauses
every counter argument is an error. -/
def counterDiags (rc : Clause → Bool) (c : Clause) : List Diag :=
  if rc c then
    c.allArgs.filterMap (fun a =>
      match a with
      | .counter l => some (mkError "Auto-increment functor in a recursive rule" l)
      | _ => none)
  else []

/-- `AstSemanticChecker::checkClause`: head atom, underscore-in-head,
body literals (positive atoms, then negations, then constraints), the
fact check for facts, use-once warnings, execution plan, and the
counter-in-recursive-clause check. -/
def checkClause (p : Program) (rc : Clause → Bool) (c : Clause) : List Diag :=
  checkAtom p c.headLoc c.headRel c.headArgs ++
  (if hasUnnamedList c.headArgs then [mkError "Underscore in head of rule" c.headLoc] else []) ++
  checkLitList p (c.body.filter Lit.isAtomL) ++
  checkLitList p (c.body.filter Lit.isNegL) ++
  checkLitList p (c.body.filter Lit.isConstraintL) ++
  (if c.isFact then checkFact p c else []) ++
  useOnceWarnings c ++
  planDiags c ++
  counterDiags rc c

end SouffleCore

namespace SouffleCore

/-- An effect on the global configuration: the checker only ever unsets
keys. -/
inductive ConfigEffect where
  | unsetKey (key : String)
deriving DecidableEq, Repr

/-- Whether a name is a type of the environment (`TypeEnvironment::isType`):
a primitive or a declared type. -/
def isEnvType (p : Program) (n : String) : Bool :=
  n == "number" || n == "symbol" || (p.getType n).isSome

/-- Per-attribute body of `checkRelationDeclaration`: undefined type,
duplicate attribute name (one error per earlier duplicate), and the
record-type case, which unsets the configuration key `engine` and
forbids (errors) input relations and warns on output relations. -/
def checkAttr (p : Program) (rel : RelDecl) (prev : List AttrDecl)
    (a : AttrDecl) : List Diag × List ConfigEffect :=
  let d1 :=
    if a.typeName == "number" || a.typeName == "symbol" then []
    else
      match p.getType a.typeName with
      | none => [mkError ("Undefined type in attribute " ++ a.aname ++ ":" ++ a.typeName) a.loc]
      | some _ => []
  let d2 := (prev.filter (fun b => b.aname == a.aname)).map (fun _ =>
    mkError ("Doubly defined attribute name " ++ a.aname ++ ":" ++ a.typeName) a.loc)
  match p.getType a.typeName with
  | some (.recordT _ _ _) =>
    (d1 ++ d2 ++
      (if rel.inputFlag then
        [mkError ("Input relations must not have record types. Attribute " ++
          a.aname ++ " has record type " ++ a.typeName) a.loc]
      else []) ++
      (if rel.outputFlag then
        [mkWarning ("Record types in output relations are not printed verbatim: attribute " ++
          a.aname ++ " has record type " ++ a.typeName) a.loc]
      else []),
     [.unsetKey "engine"])
  | _ => (d1 ++ d2, [])

/-- Attribute loop of `checkRelationDeclaration`, threading the list of
earlier attributes. -/
def checkAttrs (p : Program) (rel : RelDecl) (prev : List AttrDecl) :
    List AttrDecl → List Diag × List ConfigEffect
  | [] => ([], [])
  | a :: rest =>
    let h := checkAttr p rel prev a
    let t := checkAttrs p rel (prev ++ [a]) rest
    (h.1 ++ t.1, h.2 ++ t.2)

/-- `AstSemanticChecker::checkRelationDeclaration`. -/
def checkRelationDeclaration (p : Program) (rel : RelDecl) :
    List Diag × List ConfigEffect :=
  checkAttrs p rel [] rel.attrs

/-- `AstSemanticChecker::checkRelation`: the `eqrel` block, the
declaration, each clause, and the empty-relation warning. -/
def checkRelation (p : Program) (rc : Clause → Bool) (rel : RelDecl) :
    List Diag × List ConfigEffect :=
  let rd := checkRelationDeclaration p rel
  (checkRelationEqrel rel ++ rd.1 ++
    rel.clauses.flatMap (checkClause p rc) ++
    (if rel.clauses.length == 0 && !rel.inputFlag && !rel.suppressedFlag then
      [mkWarning ("No rules/facts defined for relation " ++ rel.rname) rel.loc]
    else []),
   rd.2)

/-- `AstSemanticChecker::checkRules`: every relation, then every orphan
clause. -/
def checkRules (p : Program) (rc : Clause → Bool) :
    List Diag × List ConfigEffect :=
  let rels := p.relations.foldl (fun acc r =>
    let c := checkRelation p rc r
    (acc.1 ++ c.1, acc.2 ++ c.2)) (([] : List Diag), ([] : List ConfigEffect))
  (rels.1 ++ p.orphanClauses.flatMap (checkClause p rc), rels.2)

/-- The static helper `unionContainsNumber`, fuel-bounded (the source
recursion does not terminate on cyclic unions). -/
def unionContainsNumberF (p : Program) : Nat → List String → Bool
  | 0, _ => false
  | fuel + 1, mems =>
    mems.any (fun m =>
      m == "number" ||
      (match p.getType m with
       | some (.unionT _ ms _) => unionContainsNumberF p fuel ms
       | some (.primitive _ numeric _) => numeric
       | _ => false))

/-- The static helper `unionContainsSymbol`, fuel-bounded. -/
def unionContainsSymbolF (p : Program) : Nat → List String → Bool
  | 0, _ => false
  | fuel + 1, mems =>
    mems.any (fun m =>
      m == "symbol" ||
      (match p.getType m with
       | some (.unionT _ ms _) => unionContainsSymbolF p fuel ms
       | some (.primitive _ numeric _) => !numeric
       | _ => false))

/-- `AstSemanticChecker::checkUnionType`: every member is declared and
primitive-based, and the union may not mix number and symbol types. -/
def checkUnionType (p : Program) (name : String) (mems : List String)
    (loc : Nat) : List Diag :=
  mems.flatMap (fun sub =>
    if sub == "number" || sub == "symbol" then []
    else
      match p.getType sub with
      | none => [mkError ("Undefined type " ++ sub ++ " in definition of union type " ++ name) loc]
      | some (.recordT _ _ _) =>
        [mkError ("Union type " ++ name ++ " contains the non-primitive type " ++ sub) loc]
      | some _ => []) ++
  (if unionContainsSymbolF p (p.types.length + 1) mems &&
      unionContainsNumberF p (p.types.length + 1) mems then
    [mkError ("Union type " ++ name ++ " contains a mixture of symbol and number types") loc]
  else [])

/-- `AstSemanticChecker::checkRecordType`.  The source emits the
undefined-field errors for all fields first, then the duplicate-name
errors; both loops are folded here in field order per kind. -/
def checkRecordType (p : Program) (name : String)
    (fields : List (String × String)) (loc : Nat) : List Diag :=
  fields.flatMap (fun f =>
    if f.2 == "number" || f.2 == "symbol" then []
    else
      match p.getType f.2 with
      | none => [mkError ("Undefined type " ++ f.2 ++ " in definition of field " ++ f.1) loc]
      | some _ => []) ++
  (fields.foldl (fun (acc : List Diag × List String) f =>
    (acc.1 ++ (acc.2.filter (fun b => b == f.1)).map (fun _ =>
       mkError ("Doubly defined field name " ++ f.1 ++ " in definition of type " ++ name) loc),
     acc.2 ++ [f.1])) ([], [])).1

/-- `AstSemanticChecker::checkTypes`: each union and record type is
checked individually. -/
def checkTypes (p : Program) : List Diag :=
  p.types.flatMap (fun t =>
    match t with
    | .primitive _ _ _ => []
    | .unionT n ms l => checkUnionType p n ms l
    | .recordT n fs l => checkRecordType p n fs l)

/-- Name-clash scan of `checkNamespaces` over one kind of item, keeping
the set of already seen names. -/
def nsScan (msg : String) (seen : List String) :
    List (String × Nat) → List Diag × List String
  | [] => ([], seen)
  | (n, l) :: rest =>
    if seen.contains n then
      let t := nsScan msg seen rest
      (mkError (msg ++ n) l :: t.1, t.2)
    else
      let t := nsScan msg (seen ++ [n]) rest
      (t.1, t.2)

/-- `AstSemanticChecker::checkNamespaces`: type and relation names share
one namespace; the second and later occurrences clash. -/
def checkNamespaces (p : Program) : List Diag :=
  let t := nsScan "Name clash on type " []
    (p.types.map (fun ty => (ty.name, ty.tloc)))
  let r := nsScan "Name clash on relation " t.2
    (p.relations.map (fun rel => (rel.rname, rel.loc)))
  t.1 ++ r.1

/-- `AstSemanticChecker::checkIODirectives`: loads, then print-sizes,
then stores; each directive must name a declared relation. -/
def checkIODirectives (p : Program) : List Diag :=
  (p.loads ++ p.printSizes ++ p.stores).flatMap (fun d =>
    match p.getRelation d.relName with
    | none => [mkError ("Undefined relation " ++ d.relName) d.loc]
    | some _ => [])

end SouffleCore

namespace SouffleCore

/-! ## `AstSemanticChecker::checkInlining` -/

/-- All atom views of the program in visit order (relations' clauses,
then orphan clauses; nested atoms included). -/
def programAtoms (p : Program) : List (Nat × String × List Arg) :=
  p.relations.flatMap (fun r => r.clauses.flatMap Clause.atoms) ++
  p.orphanClauses.flatMap Clause.atoms

/-- All negation literals of the program in visit order. -/
def programNegs (p : Program) : List Lit :=
  (p.relations.flatMap (fun r => r.clauses.flatMap Clause.allLits) ++
   p.orphanClauses.flatMap Clause.allLits).filter Lit.isNegL

/-- All argument subterms of the program in visit order. -/
def programArgs (p : Program) : List Arg :=
  p.relations.flatMap (fun r => r.clauses.flatMap Clause.allArgs) ++
  p.orphanClauses.flatMap Clause.allArgs

/-- Whether a relation name is declared inline. -/
def isInlineRel (p : Program) (n : String) : Bool :=
  match p.getRelation n with
  | some r => r.inlineFlag
  | none => false

/-- Inline successors of a vertex in the precedence graph, name-sorted
(the `AstRelationSet` iteration order). -/
def succRelsInline (p : Program) (g : PGraph) (v : String) : List String :=
  sortNames ((succsOf g v).dedup.filter (fun s => isInlineRel p s))

/-- Walk the `origins` parent map from a node back to the DFS root,
collecting the cycle in reverse. -/
def traceOrigins (org : List (String × Option String)) :
    Nat → Option String → List String
  | 0, _ => []
  | _, none => []
  | fuel + 1, some c => c :: traceOrigins org fuel ((List.lookup c org).getD none)

/-- The DFS of `findInlineCycle` as a fuelled machine: the stack holds
each node being visited together with its unprocessed inline successors;
an empty stack picks the smallest unvisited node (the `current == null`
restart), a successor in `visiting` closes a cycle, and a node with no
remaining successors moves to `visited`. -/
def ficRun (p : Program) (g : PGraph) :
    Nat → List (String × Option String) → List (String × List String) →
    List String → List String → List String → List String
  | 0, _, _, _, _, _ => []
  | fuel + 1, org, stack, uv, vg, vd =>
    match stack with
    | [] =>
      match uv with
      | [] => []
      | c :: uvrest =>
        ficRun p g fuel ((c, (none : Option String)) :: org)
          [(c, succRelsInline p g c)] uvrest (insertSorted c vg) vd
    | (c, []) :: rest =>
      ficRun p g fuel org rest uv (vg.erase c) (insertSorted c vd)
    | (c, s :: ss) :: rest =>
      if vd.contains s then ficRun p g fuel org ((c, ss) :: rest) uv vg vd
      else if vg.contains s then traceOrigins org (fuel + 1) (some c)
      else
        ficRun p g fuel ((s, some c) :: org)
          ((s, succRelsInline p g s) :: (c, ss) :: rest)
          (uv.erase s) (insertSorted s vg) vd

/-- `findInlineCycle`: a cycle of inlined relations in the precedence
graph, in reverse discovery order; empty when none exists. -/
def findInlineCycle (p : Program) (g : PGraph) (inl : List String) :
    List String :=
  ficRun p g ((inl.length + g.edges.length + 2) * (inl.length + 2))
    [] [] inl [] []

/-- The inline-cycle error of check 1: the cycle is printed starting
from its origin (the last element), then the rest backwards. -/
def inlineCycleDiag (p : Program) (cyc : List String) : List Diag :=
  match cyc.getLast? with
  | none => []
  | some origin =>
    [mkError ("Cannot inline cyclically dependent relations \x7b" ++
       String.intercalate ", " (origin :: cyc.dropLast.reverse) ++ "\x7d")
      (relLocOf p origin)]

/-- Variable names appearing in a list of arguments (nested included). -/
def varNamesIn (as : List Arg) : List String :=
  (subArgsList as).filterMap (fun a =>
    match a with
    | .var _ n => some n
    | _ => none)

/-- Check 3 precondition: some clause of the relation introduces a body
variable that is not among its head variables. -/
def introducesNewVars (r : RelDecl) : Bool :=
  r.clauses.any (fun c =>
    ((subArgsLits c.body).filterMap (fun a =>
      match a with
      | .var _ n => some n
      | _ => none)).any (fun v => !(varNamesIn c.headArgs).contains v))

mutual
/-- First invalid underscore of check 5: pre-order search that stops at
aggregators. -/
def invalidUnderscore : Arg → Option Nat
  | .unnamed l => some l
  | .agg _ _ _ _ => none
  | .typecast _ _ v => invalidUnderscore v
  | .intrinsic _ _ as => invalidUnderscoreList as
  | .udf _ _ as => invalidUnderscoreList as
  | .recInit _ _ as => invalidUnderscoreList as
  | _ => none

/-- First invalid underscore in a list of arguments. -/
def invalidUnderscoreList : List Arg → Option Nat
  | [] => none
  | a :: as =>
    match invalidUnderscore a with
    | some l => some l
    | none => invalidUnderscoreList as
end

/-- `AstSemanticChecker::checkInlining`: inlined relations may not be
IO; the inline subgraph of the precedence graph must be acyclic; the
counter may not appear in inlined literals or clauses; relations that
may introduce new variables may not appear negated; inlined relations
may not appear in aggregators; a negated inlined atom may not contain an
unnamed variable outside a nested aggregator. -/
def checkInlining (p : Program) (g : PGraph) : List Diag :=
  let inl := sortNames ((p.relations.filter (fun r => r.inlineFlag)).map (fun r => r.rname))
  p.relations.flatMap (fun r =>
    if r.inlineFlag && (r.inputFlag || r.outputFlag) then
      [mkError ("IO relation " ++ r.rname ++ " cannot be inlined") r.loc]
    else []) ++
  inlineCycleDiag p (findInlineCycle p g inl) ++
  (programAtoms p).flatMap (fun av =>
    if isInlineRel p av.2.1 then
      (subArgsList av.2.2).filterMap (fun a =>
        match a with
        | .counter l => some (mkError "Cannot inline literal containing a counter argument '$'" l)
        | _ => none)
    else []) ++
  inl.flatMap (fun n =>
    match p.getRelation n with
    | none => []
    | some r =>
      r.clauses.flatMap (fun c =>
        c.allArgs.filterMap (fun a =>
          match a with
          | .counter l => some (mkError "Cannot inline clause containing a counter argument '$'" l)
          | _ => none))) ++
  (programNegs p).flatMap (fun l =>
    match l with
    | .neg nl _ rel _ =>
      if (match p.getRelation rel with
          | some r => introducesNewVars r
          | none => false) then
        [mkError "Cannot inline negated relation which may introduce new variables" nl]
      else []
    | _ => []) ++
  (programArgs p).flatMap (fun a =>
    match a with
    | .agg _ _ t b =>
      ((subLitsOpt t ++ subLitsLits b).filterMap litAtomView).flatMap (fun av =>
        if isInlineRel p av.2.1 then
          [mkError "Cannot inline relations that appear in aggregator" av.1]
        else [])
    | _ => []) ++
  (programNegs p).flatMap (fun l =>
    match l with
    | .neg _ _ rel args =>
      if isInlineRel p rel then
        match invalidUnderscoreList args with
        | some ul =>
          [mkError "Cannot inline negated atom containing an unnamed variable unless the variable is within an aggregator" ul]
        | none => []
      else []
    | _ => [])

end SouffleCore

namespace SouffleCore

/-! ## Occurrence-level groundedness

`getGroundedTerms` assigns every argument occurrence a groundedness
flag; a direct argument of a positive body atom is grounded
positionally, everything else structurally from the grounded variable
set. -/

mutual
/-- All argument occurrences of an argument with their positional flag
(the node itself carries the given flag; children are structural). -/
def occsArg (pos : Bool) (a : Arg) : List (Bool × Arg) :=
  (pos, a) ::
  (match a with
   | .typecast _ _ v => occsArg false v
   | .intrinsic _ _ as => occsList as
   | .udf _ _ as => occsList as
   | .recInit _ _ as => occsList as
   | .agg _ _ t b =>
     (match t with
      | some x => occsArg false x
      | none => []) ++ occsLits b
   | _ => [])

/-- Occurrences of a list of non-positional arguments. -/
def occsList : List Arg → List (Bool × Arg)
  | [] => []
  | a :: as => occsArg false a ++ occsList as

/-- Occurrences of the direct arguments of a positive atom. -/
def occsPos : List Arg → List (Bool × Arg)
  | [] => []
  | a :: as => occsArg true a ++ occsPos as

/-- Occurrences of one literal: positive atoms ground their direct
arguments positionally. -/
def occsLit : Lit → List (Bool × Arg)
  | .atom _ _ as => occsPos as
  | .neg _ _ _ as => occsList as
  | .binary _ _ a b => occsArg false a ++ occsArg false b
  | .boolc _ _ => []

/-- Occurrences of a list of literals. -/
def occsLits : List Lit → List (Bool × Arg)
  | [] => []
  | l :: ls => occsLit l ++ occsLits ls
end

/-- All argument occurrences of a clause with positional flags, in
visit order (head first; head arguments are not positional, since the
head does not ground). -/
def clauseOccs (c : Clause) : List (Bool × Arg) :=
  occsList c.headArgs ++ occsLits c.body

/-- First ungrounded occurrence of each distinct name, in occurrence
order (the `reportedVars` set of `checkGroundedness`). -/
def firstPerName (seen : List String) :
    List (String × Nat) → List (String × Nat)
  | [] => []
  | (n, l) :: rest =>
    if seen.contains n then firstPerName seen rest
    else (n, l) :: firstPerName (seen ++ [n]) rest

/-- `AstSemanticChecker::checkGroundedness`: in every non-fact clause of
a declared relation, every variable must be grounded (reported once per
name) and every record constructor occurrence must be grounded.  Orphan
clauses are not visited. -/
def checkGroundedness (p : Program) : List Diag :=
  p.relations.flatMap (fun r =>
    r.clauses.flatMap (fun c =>
      if c.isFact then []
      else
        let G := groundedVars c.body
        (firstPerName []
          ((c.allArgs.filterMap (fun a =>
            match a with
            | .var l n => some (n, l)
            | _ => none)).filter (fun pr => !G.contains pr.1))).map
          (fun pr => mkError ("Ungrounded variable " ++ pr.1) pr.2) ++
        (clauseOccs c).filterMap (fun oc =>
          match oc.2 with
          | .recInit l _ _ =>
            if oc.1 || argGroundedB G oc.2 then none
            else some (mkError "Ungrounded record" l)
          | _ => none)))

/-- `AstSemanticChecker::checkTypeUsage` over the clauses of declared
relations: casts name declared types; record constructors (each of
which unsets the configuration key `engine`) name record types of the
right arity; number constants are within the 32-bit domain; user
functors are declared with matching arity. -/
def checkTypeUsage (p : Program) : List Diag × List ConfigEffect :=
  let nodes := p.relations.flatMap (fun r => r.clauses)
  let args := nodes.flatMap Clause.allArgs
  (args.flatMap (fun a =>
    match a with
    | .typecast l t _ =>
      if isEnvType p t then []
      else [mkError ("Type cast is to undeclared type " ++ t) l]
    | _ => []) ++
   args.flatMap (fun a =>
    match a with
    | .recInit l t fs =>
      if t == "number" || t == "symbol" then
        [mkError ("Type " ++ t ++ " is not a record type") l]
      else
        match p.getType t with
        | some (.recordT _ fields _) =>
          if fs.length == fields.length then []
          else [mkError "Wrong number of arguments given to record" l]
        | some _ => [mkError ("Type " ++ t ++ " is not a record type") l]
        | none => [mkError ("Type " ++ t ++ " has not been declared") l]
    | _ => []) ++
   args.flatMap (fun a =>
    match a with
    | .num l v =>
      if v > 2147483647 || v < -2147483648 then
        [mkError "Number constant not in range [-2147483648, 2147483647]" l]
      else []
    | _ => []) ++
   args.flatMap (fun a =>
    match a with
    | .udf l n as =>
      (match p.getFunctorDeclaration n with
       | none => [mkError "User-defined functor hasn't been declared" l]
       | some fd =>
         if fd.argCount == as.length then []
         else [mkError "Mismatching number of arguments of functor" l])
    | _ => []),
   args.flatMap (fun a =>
    match a with
    | .recInit _ _ _ => [ConfigEffect.unsetKey "engine"]
    | _ => []))

end SouffleCore

namespace SouffleCore

/-! ## `AstSemanticChecker::checkTypeCorrectness` -/

/-- `AnalysisType::isValidType`: Top, Bottom and the per-kind bottoms
are invalid; every other analysis type is valid. -/
def AnalysisType.isValidType : AnalysisType → Bool
  | .top | .bot | .botPrim _ => false
  | _ => true

/-- Printed form of a kind. -/
def kindStr : Kind → String
  | .number => "number"
  | .symbol => "symbol"
  | .record => "record"

/-- Modelled from the spec: the printed form of an analysis type. -/
def tstr : AnalysisType → String
  | .top => "top"
  | .bot => "bottom"
  | .topPrim k => kindStr k
  | .botPrim k => "bottom(" ++ kindStr k ++ ")"
  | .constant k => "constant(" ++ kindStr k ++ ")"
  | .base n _ => n
  | .unionA n _ _ => n
  | .recordA n => n

/-- The inferred analysis type of an argument occurrence of a clause
(`TypeAnalysis::getType`). -/
def clauseTypeOf (p : Program) (c : Clause) (a : Arg) : AnalysisType :=
  let s := solveClause p c
  getTypeAt s.1 s.2.2 a

/-- The invalid-type diagnostic of the valid-type phase: per-kind
bottom, bottom and top each have their message (top has none). -/
def vtErr (p : Program) (c : Clause) (a : Arg) : List Diag :=
  match clauseTypeOf p c a with
  | .botPrim _ =>
    [mkError "Unable to deduce valid type for expression, as base types are disjoint" a.loc]
  | .bot =>
    [mkError "Unable to deduce valid type for expression, as primitive types are disjoint" a.loc]
  | _ => []

/-- Valid-type phase: every grounded argument occurrence must carry a
valid inferred type; each variable is checked once per name. -/
def validTypePhase (p : Program) (c : Clause) : List Diag :=
  let G := groundedVars c.body
  ((clauseOccs c).foldl (fun (acc : List Diag × List String) oc =>
    if oc.1 || argGroundedB G oc.2 then
      match oc.2 with
      | .var l n =>
        if acc.2.contains n then acc
        else (acc.1 ++ vtErr p c (.var l n), acc.2 ++ [n])
      | a => (acc.1 ++ vtErr p c a, acc.2)
    else acc) ([], [])).1

/-- Intrinsic-functor input phase: each valid argument type must match
the kind the operator accepts at that position. -/
def intrinsicInputsPhase (p : Program) (c : Clause) : List Diag :=
  c.allArgs.flatMap (fun a =>
    match a with
    | .intrinsic _ op args =>
      args.enum.flatMap (fun pr =>
        let t := clauseTypeOf p c pr.2
        if t.isValidType then
          if op.acceptsSymbolsAt pr.1 then
            if typeLe t (.topPrim .symbol) then []
            else [mkError ("Non-symbolic argument for functor, instead argument has type " ++ tstr t) pr.2.loc]
          else if op.acceptsNumbersAt pr.1 then
            if typeLe t (.topPrim .number) then []
            else [mkError ("Non-numeric argument for functor, instead argument has type " ++ tstr t) pr.2.loc]
          else []
        else [])
    | _ => [])

/-- User-functor input phase: same as the intrinsic phase, with kinds
from the functor declaration. -/
def udfInputsPhase (p : Program) (c : Clause) : List Diag :=
  c.allArgs.flatMap (fun a =>
    match a with
    | .udf _ n args =>
      (match p.getFunctorDeclaration n with
       | none => []
       | some fd =>
         args.enum.flatMap (fun pr =>
           if pr.1 < fd.argCount then
             let t := clauseTypeOf p c pr.2
             if t.isValidType then
               if fd.acceptsSymbolsAt pr.1 then
                 if typeLe t (.topPrim .symbol) then []
                 else [mkError ("Non-symbolic argument for functor, instead argument has type " ++ tstr t) pr.2.loc]
               else if fd.acceptsNumbersAt pr.1 then
                 if typeLe t (.topPrim .number) then []
                 else [mkError ("Non-numeric argument for functor, instead argument has type " ++ tstr t) pr.2.loc]
               else []
             else []
           else []))
    | _ => [])

/-- Record phase: each grounded record constructor must not be stuck at
Top, and each element with a valid type must be a subtype of its field
type. -/
def recordsPhase (p : Program) (c : Clause) : List Diag :=
  let G := groundedVars c.body
  (clauseOccs c).flatMap (fun oc =>
    match oc.2 with
    | .recInit l t as =>
      if oc.1 || argGroundedB G (.recInit l t as) then
        match p.getType t with
        | some (.recordT _ fields _) =>
          (if clauseTypeOf p c (.recInit l t as) == AnalysisType.top then
            [mkError ("Unable to deduce type " ++ t ++
              " as record is not grounded as a record elsewhere, and at least one of its elements has the wrong type") l]
          else []) ++
          (as.zip fields).flatMap (fun pr =>
            let actual := clauseTypeOf p c pr.1
            let fieldT := getAnalysisTypeByName p pr.2.2
            if actual.isValidType && !(typeLe actual fieldT) then
              [mkError ("Record constructor expects element to have type " ++ tstr fieldT ++
                " but instead it has type " ++ tstr actual) pr.1.loc]
            else [])
        | _ => []
      else []
    | _ => [])

/-- Aggregate phase: the target of every non-count aggregator must have
a numeric type. -/
def aggregatesPhase (p : Program) (c : Clause) : List Diag :=
  c.allArgs.flatMap (fun a =>
    match a with
    | .agg _ op t _ =>
      if op == AggOp.count then []
      else
        match t with
        | none => []
        | some tgt =>
          let tt := clauseTypeOf p c tgt
          if tt.isValidType && !(typeLe tt (.topPrim .number)) then
            [mkError ("Aggregation variable is not a number, instead has type " ++ tstr tt) tgt.loc]
          else []
    | _ => [])

/-- Typecast phase: a cast with a valid type must carry exactly the
named type; kind mismatches of the cast value draw warnings. -/
def typecastPhase (p : Program) (c : Clause) : List Diag :=
  c.allArgs.flatMap (fun a =>
    match a with
    | .typecast l t v =>
      let actual := clauseTypeOf p c (.typecast l t v)
      if !actual.isValidType then []
      else
        let expected := getAnalysisTypeByName p t
        (if actual == expected then []
         else [mkError ("Typecast is to type " ++ t ++ " but is used where the type " ++
           tstr actual ++ " is expected") l]) ++
        (let inT := clauseTypeOf p c v
         if !inT.isValidType then []
         else
           let outK := (kindOf expected).getD .number
           if !(typeLe inT (.topPrim outK)) then
             [mkWarning ("Casts from " ++ kindStr ((kindOf inT).getD .number) ++
               " values to " ++ kindStr outK ++ " types may cause runtime errors") l]
           else if outK == Kind.record && !(typeLe inT expected) then
             [mkWarning "Casting a record to the wrong record type may cause runtime errors" l]
           else [])
    | _ => [])

/-- Atom-conformance phase (`-- check all other atoms --`): every atom
argument — head and negated atoms included — whose inferred type is
valid must be a subtype of the relation's declared attribute type. -/
def checkAtomTypes (p : Program) (c : Clause) : List Diag :=
  c.atoms.flatMap (fun av =>
    match p.getRelation av.2.1 with
    | none => []
    | some rd =>
      (av.2.2.zip rd.attrs).flatMap (fun pr =>
        let actual := clauseTypeOf p c pr.1
        if actual.isValidType && !(typeLe actual (getAnalysisTypeByName p pr.2.typeName)) then
          [mkError ("Relation expects value of type " ++ pr.2.typeName ++
            " but got argument of type " ++ tstr actual) pr.1.loc]
        else []))

/-- Binary-constraint phase: equality is trivial; inequality needs
equal kinds (and equal record types); orderings need the operator's
primitive kind on both sides. -/
def binaryPhase (p : Program) (c : Clause) : List Diag :=
  c.allLits.flatMap (fun l =>
    match l with
    | .binary bl op lhs rhs =>
      if op == BinOp.eq then []
      else if op == BinOp.ne then
        let lt := clauseTypeOf p c lhs
        let rt := clauseTypeOf p c rhs
        if !lt.isValidType || !rt.isValidType then []
        else
          let lk := (kindOf lt).getD .number
          let rk := (kindOf rt).getD .number
          if !(lk == rk) then
            [mkError ("Cannot compare operands of different kinds, left operand is a " ++
              kindStr lk ++ " and right operand is a " ++ kindStr rk) bl]
          else if lk == Kind.record then
            if typeLe lt rt && typeLe rt lt then []
            else [mkError "Cannot compare records of different types" bl]
          else []
      else
        let lt := clauseTypeOf p c lhs
        let rt := clauseTypeOf p c rhs
        if op.isNumerical then
          (if lt.isValidType && !(typeLe lt (.topPrim .number)) then
            [mkError ("Non-numerical operand for comparison, instead left operand has type " ++ tstr lt) lhs.loc]
          else []) ++
          (if rt.isValidType && !(typeLe rt (.topPrim .number)) then
            [mkError ("Non-numerical operand for comparison, instead right operand has type " ++ tstr rt) rhs.loc]
          else [])
        else if op.isSymbolic then
          (if lt.isValidType && !(typeLe lt (.topPrim .symbol)) then
            [mkError ("Non-symbolic operand for comparison, instead left operand has type " ++ tstr lt) lhs.loc]
          else []) ++
          (if rt.isValidType && !(typeLe rt (.topPrim .symbol)) then
            [mkError ("Non-symbolic operand for comparison, instead right operand has type " ++ tstr rt) rhs.loc]
          else [])
        else []
    | _ => [])

/-- `AstSemanticChecker::checkTypeCorrectness`: with an invalid lattice
only the umbrella error is emitted; otherwise the typed clauses run
through each phase in source order, preceded by the not-all-typechecked
error when clauses were skipped. -/
def checkTypeCorrectness (p : Program) : List Diag :=
  if !(latticeValid p) then
    [mkError "No type checking could occur due to other errors present" 0]
  else
    let ta := TypeAnalysis.run p
    (if ta.hasInvalidClauses then
      [mkError "Not all clauses could be typechecked due to other errors present" 0]
    else []) ++
    ta.typedClauses.flatMap (validTypePhase p) ++
    ta.typedClauses.flatMap (intrinsicInputsPhase p) ++
    ta.typedClauses.flatMap (udfInputsPhase p) ++
    ta.typedClauses.flatMap (recordsPhase p) ++
    ta.typedClauses.flatMap (aggregatesPhase p) ++
    ta.typedClauses.flatMap (typecastPhase p) ++
    ta.typedClauses.flatMap (checkAtomTypes p) ++
    ta.typedClauses.flatMap (binaryPhase p)

end SouffleCore

namespace SouffleCore

/-- The global configuration, as consulted by the checker. -/
abbrev Config := List (String × String)

/-- Comma splitting, accumulating the current piece in reverse. -/
def splitCommaGo : List Char → List Char → List String
  | [], acc => [String.mk acc.reverse]
  | c :: cs, acc =>
    if c == ',' then String.mk acc.reverse :: splitCommaGo cs []
    else splitCommaGo cs (c :: acc)

/-- Split a configuration value at commas (`splitString`). -/
def splitComma (s : String) : List String := splitCommaGo s.data []

/-- The suppression pre-pass of `AstSemanticChecker::transform`: the
configuration value of `suppress-warnings` is read (never written);
`*` suppresses every relation, otherwise each named relation that
exists is suppressed. -/
def applySuppression (cfg : Config) (p : Program) : Program :=
  match List.lookup "suppress-warnings" cfg with
  | none => p
  | some v =>
    if v == "*" then
      { p with relations := p.relations.map (fun r => { r with suppressedFlag := true }) }
    else
      let names := splitComma v
      { p with relations := p.relations.map (fun r =>
          if names.contains r.rname then { r with suppressedFlag := true } else r) }

/-- Stratification diagnostics flattened to plain error diagnostics,
keyed at the offending literal. -/
def stratFlatDiags (p : Program) (g : PGraph) : List Diag :=
  (checkStratification p g).map (fun d => mkError d.main d.noteLoc)

/-- `AstSemanticChecker::check`: the suppression pre-pass followed by
every sub-check in source order; the second component collects the
configuration effects (the `engine` unsets of the record-type cases). -/
def checkProgram (cfg : Config) (p0 : Program) (g : PGraph)
    (rc : Clause → Bool) : List Diag × List ConfigEffect :=
  let p := applySuppression cfg p0
  let rules := checkRules p rc
  let tu := checkTypeUsage p
  (checkTypes p ++ rules.1 ++ checkNamespaces p ++ checkIODirectives p ++
    checkWitnessProblem p ++ checkInlining p g ++ checkGroundedness p ++
    tu.1 ++ checkTypeCorrectness p ++ stratFlatDiags p g,
   rules.2 ++ tu.2)

end SouffleCore

namespace SouffleCore

/-! ## C4: the fact check -/

/-- Aggregator test on an argument node. -/
def isAggA : Arg → Bool
  | .agg _ _ _ _ => true
  | _ => false

mutual
/-- Spec wording of C4: the argument reduces to a constant or a record
of constants (nested records included); constant arithmetic expressions
and casts of constants also reduce to constants. -/
def reducesToConstant : Arg → Bool
  | .num _ _ => true
  | .strc _ _ => true
  | .nilc _ => true
  | .typecast _ _ v => reducesToConstant v
  | .intrinsic l op args => isConstantArithExpr (.intrinsic l op args)
  | .recInit _ _ args => allReduceToConstant args
  | _ => false

/-- Conjunction of `reducesToConstant` over a list. -/
def allReduceToConstant : List Arg → Bool
  | [] => true
  | a :: as => reducesToConstant a && allReduceToConstant as
end

mutual
/-- Spec wording of C4: the number of offending positions of a fact
argument — a variable, underscore, counter, user-defined functor or
non-constant functor each counts one; casts and records recurse. -/
def offendingCount : Arg → Nat
  | .var _ _ => 1
  | .unnamed _ => 1
  | .counter _ => 1
  | .udf _ _ _ => 1
  | .intrinsic l op args =>
    if isConstantArithExpr (.intrinsic l op args) then 0 else 1
  | .typecast _ _ v => offendingCount v
  | .recInit _ _ args => offendingCountList args
  | _ => 0

/-- Sum of `offendingCount` over a list. -/
def offendingCountList : List Arg → Nat
  | [] => 0
  | a :: as => offendingCount a + offendingCountList as
end

mutual
/-- On aggregator-free arguments, `checkConstant` accepts exactly the
arguments reducing to constants, emits exactly one error per offending
position, and emits only errors. -/
theorem checkConstant_spec :
    ∀ a : Arg, (a.subArgs.all (fun x => !isAggA x)) = true →
      ((checkConstant a = [] ↔ reducesToConstant a = true) ∧
       (checkConstant a).length = offendingCount a ∧
       ∀ d ∈ checkConstant a, d.isError = true)
  | .var l n, _h => by
    refine ⟨?_, ?_, ?_⟩ <;> simp [checkConstant, reducesToConstant, offendingCount, mkError]
  | .unnamed l, _h => by
    refine ⟨?_, ?_, ?_⟩ <;> simp [checkConstant, reducesToConstant, offendingCount, mkError]
  | .counter l, _h => by
    refine ⟨?_, ?_, ?_⟩ <;> simp [checkConstant, reducesToConstant, offendingCount, mkError]
  | .udf l n as, _h => by
    refine ⟨?_, ?_, ?_⟩ <;> simp [checkConstant, reducesToConstant, offendingCount, mkError]
  | .num l v, _h => by
    refine ⟨?_, ?_, ?_⟩ <;> simp [checkConstant, reducesToConstant, offendingCount]
  | .strc l v, _h => by
    refine ⟨?_, ?_, ?_⟩ <;> simp [checkConstant, reducesToConstant, offendingCount]
  | .nilc l, _h => by
    refine ⟨?_, ?_, ?_⟩ <;> simp [checkConstant, reducesToConstant, offendingCount]
  | .intrinsic l op args, _h => by
    by_cases hc : isConstantArithExpr (.intrinsic l op args) = true
    · refine ⟨?_, ?_, ?_⟩ <;> simp [checkConstant, reducesToConstant, offendingCount, hc]
    · rw [Bool.not_eq_true] at hc
      refine ⟨?_, ?_, ?_⟩ <;> simp [checkConstant, reducesToConstant, offendingCount, hc, mkError]
  | .typecast l t v, h => by
    have hv : (v.subArgs.all (fun x => !isAggA x)) = true := by
      simp only [Arg.subArgs, List.all_cons, Bool.and_eq_true] at h
      exact h.2
    have ih := checkConstant_spec v hv
    exact ⟨by rw [show checkConstant (.typecast l t v) = checkConstant v from rfl,
             show reducesToConstant (.typecast l t v) = reducesToConstant v from rfl]; exact ih.1,
           ih.2.1, ih.2.2⟩
  | .recInit l t args, h => by
    have hv : ((subArgsList args).all (fun x => !isAggA x)) = true := by
      simp only [Arg.subArgs, List.all_cons, Bool.and_eq_true] at h
      exact h.2
    have ih := checkConstantList_spec args hv
    refine ⟨?_, ih.2.1, ih.2.2⟩
    rw [show checkConstant (.recInit l t args) = checkConstantList args from rfl,
        show reducesToConstant (.recInit l t args) = allReduceToConstant args from rfl]
    exact ih.1
  | .agg l op t b, h => by
    exfalso
    simp [Arg.subArgs, isAggA] at h

/-- List version of `checkConstant_spec`. -/
theorem checkConstantList_spec :
    ∀ as : List Arg, ((subArgsList as).all (fun x => !isAggA x)) = true →
      ((checkConstantList as = [] ↔ allReduceToConstant as = true) ∧
       (checkConstantList as).length = offendingCountList as ∧
       ∀ d ∈ checkConstantList as, d.isError = true)
  | [], _h => by
    refine ⟨?_, ?_, ?_⟩ <;> simp [checkConstantList, allReduceToConstant, offendingCountList]
  | a :: as, h => by
    rw [subArgsList, List.all_append, Bool.and_eq_true] at h
    have iha := checkConstant_spec a h.1
    have ihl := checkConstantList_spec as h.2
    refine ⟨?_, ?_, ?_⟩
    · rw [show checkConstantList (a :: as) = checkConstant a ++ checkConstantList as from rfl,
          show allReduceToConstant (a :: as) = (reducesToConstant a && allReduceToConstant as) from rfl,
          List.append_eq_nil, Bool.and_eq_true]
      constructor
      · intro hb; exact ⟨iha.1.mp hb.1, ihl.1.mp hb.2⟩
      · intro hb; exact ⟨iha.1.mpr hb.1, ihl.1.mpr hb.2⟩
    · rw [show checkConstantList (a :: as) = checkConstant a ++ checkConstantList as from rfl,
          List.length_append, iha.2.1, ihl.2.1]
      rfl
    · intro d hd
      rw [show checkConstantList (a :: as) = checkConstant a ++ checkConstantList as from rfl,
          List.mem_append] at hd
      rcases hd with hd | hd
      · exact iha.2.2 d hd
      · exact ihl.2.2 d hd
end

end SouffleCore

namespace SouffleCore

/-- The fact `r(X).`. -/
def clauseC4 : Clause :=
  { headLoc := 80, headRel := "r", headArgs := [.var 81 "X"],
    body := [], generated := false, plan := none }

/-- `.decl r(x:number)` with the fact. -/
def relRC4 : RelDecl :=
  { rname := "r", attrs := [⟨"x", "number", 82⟩], representation := .std,
    inlineFlag := false, suppressedFlag := false, inputFlag := false,
    outputFlag := false, clauses := [clauseC4], loc := 83 }

/-- The scenario program `.decl r(x:number) r(X).`. -/
def progC4 : Program :=
  { types := [], relations := [relRC4], orphanClauses := [],
    loads := [], stores := [], printSizes := [], functors := [] }

/-- Its precedence graph: one relation, no dependencies. -/
def gC4 : PGraph := { vertices := ["r"], edges := [] }

/-- C4 (amended).  For a fact whose head relation is declared and whose
head arguments contain no aggregator, the fact check accepts exactly
when every head argument reduces to a constant or a record of constants
(nested records included); it emits exactly one diagnostic per
offending position, and every diagnostic it emits is an error.  On the
program `.decl r(x:number) r(X).` the whole checker emits exactly one
error, `Variable X in fact`, at the position of `X`. -/
theorem fact_check_characterization (p : Program) (c : Clause)
    (rd : RelDecl) (hf : c.isFact = true)
    (hd : p.getRelation c.headRel = some rd)
    (hagg : ((subArgsList c.headArgs).all (fun x => !isAggA x)) = true) :
    ((checkFact p c = [] ↔ allReduceToConstant c.headArgs = true) ∧
     (checkFact p c).length = offendingCountList c.headArgs ∧
     (∀ d ∈ checkFact p c, d.isError = true)) ∧
    errorsOf (checkProgram [] progC4 gC4 (fun _ => false)).1 =
      [mkError "Variable X in fact" 81] := by
  have hccl := checkConstantList_spec c.headArgs hagg
  have hcf : checkFact p c = checkConstantList c.headArgs := by
    rw [checkFact, hd]
  refine ⟨⟨?_, ?_, ?_⟩, rfl⟩
  · rw [hcf]; exact hccl.1
  · rw [hcf]; exact hccl.2.1
  · rw [hcf]; exact hccl.2.2

/-- The characterization instantiated on the scenario program itself;
all hypotheses are discharged by computation. -/
theorem fact_check_characterization_witness :
    ((checkFact progC4 clauseC4 = [] ↔
        allReduceToConstant clauseC4.headArgs = true) ∧
     (checkFact progC4 clauseC4).length = offendingCountList clauseC4.headArgs ∧
     (∀ d ∈ checkFact progC4 clauseC4, d.isError = true)) ∧
    errorsOf (checkProgram [] progC4 gC4 (fun _ => false)).1 =
      [mkError "Variable X in fact" 81] :=
  fact_check_characterization progC4 clauseC4 relRC4 (by rfl) (by rfl) (by rfl)

/-- The orphan fact `q(Y).` of an undeclared relation. -/
def clauseOrphanC4 : Clause :=
  { headLoc := 90, headRel := "q", headArgs := [.var 91 "Y"],
    body := [], generated := false, plan := none }

/-- A program holding the orphan fact. -/
def progC4b : Program :=
  { types := [], relations := [relRC4], orphanClauses := [clauseOrphanC4],
    loads := [], stores := [], printSizes := [], functors := [] }

/-- Counterexample to C4 as stated: the fact check accepts the orphan
fact `q(Y).` — its head relation is undeclared, so `checkFact` returns
before looking at the arguments — although its argument `Y` is a
variable and reduces to no constant; the clause check's only error on
it is the undefined-relation error, not a fact-related one. -/
theorem c4_counterexample :
    checkFact progC4b clauseOrphanC4 = [] ∧
    clauseOrphanC4.isFact = true ∧
    clauseOrphanC4.headArgs = [.var 91 "Y"] ∧
    reducesToConstant (.var 91 "Y") = false ∧
    progC4b.orphanClauses = [clauseOrphanC4] ∧
    errorsOf (checkClause progC4b (fun _ => false) clauseOrphanC4) =
      [mkError "Undefined relation q" 90] :=
  ⟨rfl, rfl, rfl, rfl, rfl, rfl⟩

end SouffleCore

namespace SouffleCore

/-! ## C10: configuration effects -/

/-- The configuration effect of one attribute: the `engine` unset fires
exactly when the attribute's type name resolves to a record type. -/
def attrEff (p : Program) (a : AttrDecl) : List ConfigEffect :=
  match p.getType a.typeName with
  | some (.recordT _ _ _) => [.unsetKey "engine"]
  | _ => []

/-- The configuration effect of one argument: record constructors unset
`engine`. -/
def recEff : Arg → List ConfigEffect
  | .recInit _ _ _ => [.unsetKey "engine"]
  | _ => []

/-- Whether a relation has a record-typed attribute. -/
def relRecordAttr (p : Program) (r : RelDecl) : Bool :=
  r.attrs.any (fun a =>
    match p.getType a.typeName with
    | some (.recordT _ _ _) => true
    | _ => false)

/-- Whether a clause contains a record constructor. -/
def hasRecInit (c : Clause) : Bool :=
  c.allArgs.any (fun a =>
    match a with
    | .recInit _ _ _ => true
    | _ => false)

/-- Whether the checker encounters record types: a record-typed
attribute of a declared relation, or a record constructor in a clause
of a declared relation. -/
def recordEncounter (p : Program) : Bool :=
  p.relations.any (fun r => relRecordAttr p r) ||
  p.relations.any (fun r => r.clauses.any hasRecInit)

/-- The effect component of `checkAttr` does not depend on the earlier
attributes and fires exactly on record types. -/
theorem checkAttr_eff (p : Program) (rel : RelDecl) (prev : List AttrDecl)
    (a : AttrDecl) : (checkAttr p rel prev a).2 = attrEff p a := by
  cases h : p.getType a.typeName with
  | none => simp [checkAttr, attrEff, h]
  | some t => cases t <;> simp [checkAttr, attrEff, h]

/-- The effect component of the attribute loop. -/
theorem checkAttrs_eff (p : Program) (rel : RelDecl) :
    ∀ (l : List AttrDecl) (prev : List AttrDecl),
      (checkAttrs p rel prev l).2 = l.flatMap (attrEff p) := by
  intro l
  induction l with
  | nil => intro prev; rfl
  | cons a rest ih =>
    intro prev
    rw [checkAttrs]
    simp only [List.flatMap_cons]
    rw [checkAttr_eff, ih]

/-- The effect component of `checkRelation`. -/
theorem checkRelation_eff (p : Program) (rc : Clause → Bool) (r : RelDecl) :
    (checkRelation p rc r).2 = r.attrs.flatMap (attrEff p) := by
  rw [checkRelation]
  simp only
  rw [checkRelationDeclaration, checkAttrs_eff]

/-- The effect component of `checkRules`. -/
theorem checkRules_eff (p : Program) (rc : Clause → Bool) :
    (checkRules p rc).2 =
      p.relations.flatMap (fun r => r.attrs.flatMap (attrEff p)) := by
  rw [checkRules]
  simp only
  have hfold : ∀ (rs : List RelDecl) (acc : List Diag × List ConfigEffect),
      ((rs.foldl (fun acc r =>
        let c := checkRelation p rc r
        (acc.1 ++ c.1, acc.2 ++ c.2)) acc).2) =
      acc.2 ++ rs.flatMap (fun r => (checkRelation p rc r).2) := by
    intro rs
    induction rs with
    | nil => intro acc; simp
    | cons r rest ih =>
      intro acc
      rw [List.foldl_cons, ih]
      simp [List.append_assoc]
  rw [hfold]
  simp only [List.nil_append]
  congr 1
  funext r
  rw [checkRelation_eff]

/-- The effect component of `checkTypeUsage`. -/
theorem checkTypeUsage_eff (p : Program) :
    (checkTypeUsage p).2 =
      ((p.relations.flatMap (fun r => r.clauses)).flatMap Clause.allArgs).flatMap recEff := by
  rw [checkTypeUsage]
  simp only
  have h : (fun a : Arg =>
      match a with
      | Arg.recInit _ _ _ => [ConfigEffect.unsetKey "engine"]
      | _ => []) = recEff := by
    funext a
    cases a <;> rfl
  rw [h]

end SouffleCore

namespace SouffleCore

/-- Record encounters are invariant under changes that keep every
relation's attributes and clauses (such as setting suppression flags). -/
theorem recordEncounter_relmap (p : Program) (f : RelDecl → RelDecl)
    (hattrs : ∀ r, (f r).attrs = r.attrs)
    (hclauses : ∀ r, (f r).clauses = r.clauses) :
    recordEncounter { p with relations := p.relations.map f } =
      recordEncounter p := by
  rw [recordEncounter, recordEncounter, List.any_map, List.any_map]
  have h1 : ((fun r => relRecordAttr { p with relations := p.relations.map f } r) ∘ f) =
      fun r => relRecordAttr p r := by
    funext r
    show relRecordAttr { p with relations := p.relations.map f } (f r) =
      relRecordAttr p r
    rw [relRecordAttr, relRecordAttr, hattrs r]
    rfl
  have h2 : ((fun r : RelDecl => r.clauses.any hasRecInit) ∘ f) =
      fun r : RelDecl => r.clauses.any hasRecInit := by
    funext r
    show (f r).clauses.any hasRecInit = r.clauses.any hasRecInit
    rw [hclauses r]
  rw [h1, h2]

/-- The suppression pre-pass does not change which record types the
checker encounters. -/
theorem recordEncounter_suppression (cfg : Config) (p : Program) :
    recordEncounter (applySuppression cfg p) = recordEncounter p := by
  rw [applySuppression]
  split
  · rfl
  · rename_i v heq
    split
    · exact recordEncounter_relmap p _ (fun r => rfl) (fun r => rfl)
    · simp only
      refine recordEncounter_relmap p _ (fun r => ?_) (fun r => ?_)
      · by_cases h : r.rname ∈ splitComma v <;> simp [h]
      · by_cases h : r.rname ∈ splitComma v <;> simp [h]

end SouffleCore

namespace SouffleCore

/-- Every effect of one attribute is the `engine` unset. -/
theorem attrEff_mem (q : Program) (a : AttrDecl) :
    ∀ e ∈ attrEff q a, e = ConfigEffect.unsetKey "engine" := by
  rw [attrEff]
  cases q.getType a.typeName with
  | none => intro e he; cases he
  | some t =>
    cases t with
    | recordT n f l => intro e he; exact List.mem_singleton.mp he
    | primitive x y z => intro e he; cases he
    | unionT x y z => intro e he; cases he

/-- Every effect of one argument is the `engine` unset. -/
theorem recEff_mem (a : Arg) :
    ∀ e ∈ recEff a, e = ConfigEffect.unsetKey "engine" := by
  cases a <;> intro e he <;>
    first | exact List.mem_singleton.mp he | cases he

/-- The attribute effect is nonempty exactly on record-typed
attributes. -/
theorem attrEff_ne_iff (q : Program) (a : AttrDecl) :
    (attrEff q a ≠ []) ↔
      (match q.getType a.typeName with
       | some (.recordT _ _ _) => true
       | _ => false) = true := by
  rw [attrEff]
  cases q.getType a.typeName with
  | none => simp
  | some t => cases t <;> simp

/-- The argument effect is nonempty exactly on record constructors. -/
theorem recEff_ne_iff (a : Arg) :
    (recEff a ≠ []) ↔
      (match a with
       | .recInit _ _ _ => true
       | _ => false) = true := by
  cases a <;> simp [recEff]

/-- Nonemptiness of the declaration effects equals the record-attribute
scan. -/
theorem rules_eff_ne_iff (q : Program) :
    (q.relations.flatMap (fun r => r.attrs.flatMap (attrEff q)) ≠ []) ↔
      (q.relations.any (fun r => relRecordAttr q r)) = true := by
  constructor
  · intro hne
    obtain ⟨e, he⟩ := List.exists_mem_of_ne_nil _ hne
    obtain ⟨r, hr, h2⟩ := List.mem_flatMap.mp he
    obtain ⟨a, ha, h3⟩ := List.mem_flatMap.mp h2
    rw [List.any_eq_true]
    refine ⟨r, hr, ?_⟩
    rw [relRecordAttr, List.any_eq_true]
    exact ⟨a, ha, (attrEff_ne_iff q a).mp (List.ne_nil_of_mem h3)⟩
  · intro hany
    obtain ⟨r, hr, h2⟩ := List.any_eq_true.mp hany
    rw [relRecordAttr, List.any_eq_true] at h2
    obtain ⟨a, ha, h3⟩ := h2
    intro hnil
    rw [List.flatMap_eq_nil_iff] at hnil
    have h4 := hnil r hr
    rw [List.flatMap_eq_nil_iff] at h4
    exact (attrEff_ne_iff q a).mpr h3 (h4 a ha)

/-- Nonemptiness of the record-constructor effects equals the
record-constructor scan. -/
theorem tu_eff_ne_iff (q : Program) :
    (((q.relations.flatMap (fun r => r.clauses)).flatMap Clause.allArgs).flatMap recEff ≠ []) ↔
      (q.relations.any (fun r => r.clauses.any hasRecInit)) = true := by
  constructor
  · intro hne
    obtain ⟨e, he⟩ := List.exists_mem_of_ne_nil _ hne
    obtain ⟨a, ha, h2⟩ := List.mem_flatMap.mp he
    obtain ⟨c, hc, h3⟩ := List.mem_flatMap.mp ha
    obtain ⟨r, hr, h4⟩ := List.mem_flatMap.mp hc
    rw [List.any_eq_true]
    refine ⟨r, hr, ?_⟩
    rw [List.any_eq_true]
    refine ⟨c, h4, ?_⟩
    rw [hasRecInit, List.any_eq_true]
    exact ⟨a, h3, (recEff_ne_iff a).mp (List.ne_nil_of_mem h2)⟩
  · intro hany
    obtain ⟨r, hr, h2⟩ := List.any_eq_true.mp hany
    obtain ⟨c, hc, h3⟩ := List.any_eq_true.mp h2
    rw [hasRecInit, List.any_eq_true] at h3
    obtain ⟨a, ha, h4⟩ := h3
    intro hnil
    rw [List.flatMap_eq_nil_iff] at hnil
    have h5 := hnil a (List.mem_flatMap.mpr ⟨c, List.mem_flatMap.mpr ⟨r, hr, hc⟩, ha⟩)
    exact (recEff_ne_iff a).mpr h4 h5

/-- C10.  The checking passes touch the global configuration with a
single kind of effect: every configuration effect of the whole checker
is an unset of the key `engine` (first conjunct); and some effect occurs
exactly when record types are encountered — a record-typed attribute of
a declared relation or a record constructor in a clause of a declared
relation (second conjunct; the suppression pre-pass only reads the
configuration and does not change what is encountered). -/
theorem config_effects_characterization (cfg : Config) (p : Program)
    (g : PGraph) (rc : Clause → Bool) :
    (∀ e ∈ (checkProgram cfg p g rc).2, e = ConfigEffect.unsetKey "engine") ∧
    ((checkProgram cfg p g rc).2 ≠ [] ↔ recordEncounter p = true) := by
  have heff : (checkProgram cfg p g rc).2 =
      (checkRules (applySuppression cfg p) rc).2 ++
      (checkTypeUsage (applySuppression cfg p)).2 := rfl
  rw [heff, checkRules_eff, checkTypeUsage_eff]
  constructor
  · intro e he
    rcases List.mem_append.mp he with h | h
    · obtain ⟨r, _, h2⟩ := List.mem_flatMap.mp h
      obtain ⟨a, _, h3⟩ := List.mem_flatMap.mp h2
      exact attrEff_mem _ a e h3
    · obtain ⟨a, _, h2⟩ := List.mem_flatMap.mp h
      exact recEff_mem a e h2
  · rw [← recordEncounter_suppression cfg p, recordEncounter, Bool.or_eq_true]
    constructor
    · intro hne
      by_cases h1 :
          ((applySuppression cfg p).relations.flatMap
            (fun r => r.attrs.flatMap (attrEff (applySuppression cfg p)))) = []
      · rw [h1, List.nil_append] at hne
        exact Or.inr ((tu_eff_ne_iff _).mp hne)
      · exact Or.inl ((rules_eff_ne_iff _).mp h1)
    · intro hor hnil
      rw [List.append_eq_nil] at hnil
      rcases hor with h | h
      · exact (rules_eff_ne_iff _).mpr h hnil.1
      · exact (tu_eff_ne_iff _).mpr h hnil.2

end SouffleCore

namespace SouffleCore

/-- An orphan clause holding a record constructor. -/
def clauseC10 : Clause :=
  { headLoc := 95, headRel := "q3",
    headArgs := [.recInit 96 "T" [.num 97 1]],
    body := [], generated := false, plan := none }

/-- A program whose only record constructor sits in an orphan clause. -/
def progC10 : Program :=
  { types := [], relations := [relRC4], orphanClauses := [clauseC10],
    loads := [], stores := [], printSizes := [], functors := [] }

/-- Counterexample to C10 as stated: a record constructor in an orphan
clause is a record constructor in a clause of the program, yet the
checker performs no configuration effect — `checkTypeUsage` only visits
the clauses of declared relations. -/
theorem c10_counterexample :
    (checkProgram [] progC10 gC4 (fun _ => false)).2 = [] ∧
    progC10.orphanClauses = [clauseC10] ∧
    hasRecInit clauseC10 = true :=
  ⟨rfl, rfl, rfl⟩

end SouffleCore

namespace SouffleCore

/-! ## C8: the head atom imposes no attribute-type constraints -/

/-- Replace the attribute list of the relation named `name`. -/
def setAttrs (p : Program) (name : String) (ats : List AttrDecl) : Program :=
  { p with relations := p.relations.map (fun r =>
      if r.rname == name then { r with attrs := ats } else r) }

mutual
/-- Relation names of positive atoms inside an argument (atoms under
negations are excluded: negations never read the relation). -/
def Arg.atomRels : Arg → List String
  | .typecast _ _ v => v.atomRels
  | .intrinsic _ _ as => atomRelsList as
  | .udf _ _ as => atomRelsList as
  | .recInit _ _ as => atomRelsList as
  | .agg _ _ t b => atomRelsOpt t ++ atomRelsLits b
  | _ => []

/-- Positive atom relation names of an optional argument. -/
def atomRelsOpt : Option Arg → List String
  | none => []
  | some a => a.atomRels

/-- Positive atom relation names of a list of arguments. -/
def atomRelsList : List Arg → List String
  | [] => []
  | a :: as => a.atomRels ++ atomRelsList as

/-- Positive atom relation names of a literal. -/
def Lit.atomRels : Lit → List String
  | .atom _ rel as => rel :: atomRelsList as
  | .neg _ _ _ as => atomRelsList as
  | .binary _ _ a b => a.atomRels ++ b.atomRels
  | .boolc _ _ => []

/-- Positive atom relation names of a list of literals. -/
def atomRelsLits : List Lit → List String
  | [] => []
  | l :: ls => l.atomRels ++ atomRelsLits ls
end

/-- Mapping that preserves the predicate and fixes the hits preserves
`find?`. -/
theorem find?_map_keep (f : RelDecl → RelDecl) (q : RelDecl → Bool)
    (hq : ∀ r, q (f r) = q r) (hf : ∀ r, q r = true → f r = r) :
    ∀ rs : List RelDecl, (rs.map f).find? q = rs.find? q := by
  intro rs
  induction rs with
  | nil => rfl
  | cons r rest ih =>
    simp only [List.map_cons, List.find?_cons]
    rw [hq r]
    cases hqr : q r with
    | true => rw [hf r hqr]
    | false => exact ih

/-- Looking up a relation other than the renamed one is unchanged. -/
theorem getRelation_setAttrs (p : Program) (name : String)
    (ats : List AttrDecl) (n : String) (h : n ≠ name) :
    (setAttrs p name ats).getRelation n = p.getRelation n := by
  show (p.relations.map (fun r =>
      if r.rname == name then { r with attrs := ats } else r)).find?
      (fun r => r.rname == n) = p.relations.find? (fun r => r.rname == n)
  apply find?_map_keep
  · intro r
    by_cases hrr : (r.rname == name) = true
    · rw [if_pos hrr]
    · rw [if_neg hrr]
  · intro r hr
    have hrn : r.rname = n := by simpa using hr
    have hne : (r.rname == name) = false := by
      rw [hrn]
      simpa using h
    rw [hne]
    rfl

/-- Kind resolution ignores relation attributes. -/
theorem typeKindF_setAttrs (p : Program) (name : String)
    (ats : List AttrDecl) :
    ∀ (f : Nat) (n : String),
      typeKindF (setAttrs p name ats) f n = typeKindF p f n := by
  intro f
  induction f with
  | zero => intro n; rfl
  | succ f ih =>
    intro n
    rw [typeKindF, typeKindF]
    have hg : (setAttrs p name ats).getType n = p.getType n := rfl
    rw [hg]
    cases p.getType n with
    | none => rfl
    | some t =>
      cases t with
      | primitive x y z => rfl
      | recordT x y z => rfl
      | unionT x mems z =>
        simp only
        have hm : mems.map (typeKindF (setAttrs p name ats) f) =
            mems.map (typeKindF p f) :=
          List.map_congr_left (fun m _ => ih m)
        rw [hm]

/-- Union leaves ignore relation attributes. -/
theorem unionLeavesF_setAttrs (p : Program) (name : String)
    (ats : List AttrDecl) :
    ∀ (f : Nat) (ns : List String),
      unionLeavesF (setAttrs p name ats) f ns = unionLeavesF p f ns := by
  intro f
  induction f with
  | zero => intro ns; rfl
  | succ f ih =>
    intro ns
    rw [unionLeavesF, unionLeavesF]
    congr 1
    funext n
    have hg : (setAttrs p name ats).getType n = p.getType n := rfl
    rw [hg]
    cases p.getType n with
    | none => rfl
    | some t =>
      cases t with
      | primitive x y z => rfl
      | recordT x y z => rfl
      | unionT x mems z => exact ih mems

/-- Name-keyed analysis types ignore relation attributes. -/
theorem getAnalysisTypeByName_setAttrs (p : Program) (name : String)
    (ats : List AttrDecl) (n : String) :
    getAnalysisTypeByName (setAttrs p name ats) n = getAnalysisTypeByName p n := by
  rw [getAnalysisTypeByName, getAnalysisTypeByName]
  by_cases h1 : (n == "number") = true
  · rw [if_pos h1, if_pos h1]
  · rw [if_neg h1, if_neg h1]
    by_cases h2 : (n == "symbol") = true
    · rw [if_pos h2, if_pos h2]
    · rw [if_neg h2, if_neg h2]
      have hg : (setAttrs p name ats).getType n = p.getType n := rfl
      rw [hg]
      cases p.getType n with
      | none => rfl
      | some t =>
        cases t with
        | primitive x y z => rfl
        | recordT x y z => rfl
        | unionT nm mems z =>
          simp only
          have hk : typeKind (setAttrs p name ats) nm = typeKind p nm := by
            show typeKindF (setAttrs p name ats) ((setAttrs p name ats).types.length + 1) nm =
              typeKindF p (p.types.length + 1) nm
            exact typeKindF_setAttrs p name ats _ nm
          have hl : unionLeavesF (setAttrs p name ats) ((setAttrs p name ats).types.length + 1) mems =
              unionLeavesF p (p.types.length + 1) mems :=
            unionLeavesF_setAttrs p name ats _ mems
          rw [hk, hl]

/-- The atom `Fixed` constraints ignore relation attributes other than
the looked-up ones. -/
theorem genAtomFixed_setAttrs (p : Program) (name : String)
    (ats : List AttrDecl) :
    ∀ (args : List Arg) (atts : List AttrDecl) (r : RepSt),
      genAtomFixed (setAttrs p name ats) r args atts =
        genAtomFixed p r args atts := by
  intro args
  induction args with
  | nil => intro atts r; cases atts <;> rfl
  | cons a rest ih =>
    intro atts r
    cases atts with
    | nil => rfl
    | cons att atts2 =>
      rw [genAtomFixed, genAtomFixed]
      rw [ih, getAnalysisTypeByName_setAttrs]

/-- Scenario (1) record constraints ignore relation attributes. -/
theorem genRecCover1_setAttrs (p : Program) (name : String)
    (ats : List AttrDecl) :
    ∀ (args : List Arg) (tys : List String) (r : RepSt) (recLoc : Nat),
      genRecCover1 (setAttrs p name ats) r recLoc args tys =
        genRecCover1 p r recLoc args tys := by
  intro args
  induction args with
  | nil => intro tys r recLoc; cases tys <;> rfl
  | cons a rest ih =>
    intro tys r recLoc
    cases tys with
    | nil => rfl
    | cons ty tys2 =>
      rw [genRecCover1, genRecCover1]
      rw [ih, getAnalysisTypeByName_setAttrs]

/-- Scenario (2) record requirements ignore relation attributes. -/
theorem genRecReqs_setAttrs (p : Program) (name : String)
    (ats : List AttrDecl) :
    ∀ (args : List Arg) (tys : List String) (r : RepSt),
      genRecReqs (setAttrs p name ats) r args tys =
        genRecReqs p r args tys := by
  intro args
  induction args with
  | nil => intro tys r; cases tys <;> rfl
  | cons a rest ih =>
    intro tys r
    cases tys with
    | nil => rfl
    | cons ty tys2 =>
      rw [genRecReqs, genRecReqs]
      rw [ih, getAnalysisTypeByName_setAttrs]

end SouffleCore

namespace SouffleCore

mutual
/-- Constraint generation for an argument does not read the attributes
of a relation that no positive atom inside the argument names. -/
theorem genArg_setAttrs (p : Program) (name : String) (ats : List AttrDecl) :
    ∀ (a : Arg) (r : RepSt), (∀ s ∈ a.atomRels, s ≠ name) →
      genArg (setAttrs p name ats) r a = genArg p r a
  | .var _ _, _, _ => rfl
  | .unnamed _, _, _ => rfl
  | .num _ _, _, _ => rfl
  | .strc _ _, _, _ => rfl
  | .nilc _, _, _ => rfl
  | .counter _, _, _ => rfl
  | .typecast l t v, r, h => by
    rw [genArg, genArg]
    have hv := genArg_setAttrs p name ats v r h
    rw [hv, getAnalysisTypeByName_setAttrs]
  | .intrinsic l op args, r, h => by
    rw [genArg.eq_def, genArg.eq_def]
    simp only
    have ha := genArgs_setAttrs p name ats args r h
    rw [ha]
  | .udf l n2 args, r, h => by
    rw [genArg.eq_def, genArg.eq_def]
    simp only
    have ha := genArgs_setAttrs p name ats args r h
    have hf : (setAttrs p name ats).getFunctorDeclaration n2 =
        p.getFunctorDeclaration n2 := rfl
    rw [ha, hf]
  | .recInit l t args, r, h => by
    rw [genArg.eq_def, genArg.eq_def]
    simp only
    have ha := genArgs_setAttrs p name ats args r h
    have hg : (setAttrs p name ats).getType t = p.getType t := rfl
    rw [ha, hg]
    cases p.getType t with
    | none => rfl
    | some td =>
      cases td with
      | primitive x y z => rfl
      | unionT x y z => rfl
      | recordT nm fields lc =>
        simp only
        rw [genRecCover1_setAttrs, genRecReqs_setAttrs]
  | .agg l op t b, r, h => by
    rw [genArg.eq_def, genArg.eq_def]
    simp only
    have ht := genArgOpt_setAttrs p name ats t r
      (fun s hs => h s (List.mem_append_left _ hs))
    have hb := genLits_setAttrs p name ats b (genArgOpt p r t).1
      (fun s hs => h s (List.mem_append_right _ hs))
    rw [ht, hb]

/-- Optional-argument version of `genArg_setAttrs`. -/
theorem genArgOpt_setAttrs (p : Program) (name : String) (ats : List AttrDecl) :
    ∀ (t : Option Arg) (r : RepSt), (∀ s ∈ atomRelsOpt t, s ≠ name) →
      genArgOpt (setAttrs p name ats) r t = genArgOpt p r t
  | none, _, _ => rfl
  | some a, r, h => by
    rw [genArgOpt, genArgOpt]
    exact genArg_setAttrs p name ats a r h

/-- List version of `genArg_setAttrs`. -/
theorem genArgs_setAttrs (p : Program) (name : String) (ats : List AttrDecl) :
    ∀ (as : List Arg) (r : RepSt), (∀ s ∈ atomRelsList as, s ≠ name) →
      genArgs (setAttrs p name ats) r as = genArgs p r as
  | [], _, _ => rfl
  | a :: rest, r, h => by
    rw [genArgs, genArgs]
    have h1 := genArg_setAttrs p name ats a r
      (fun s hs => h s (List.mem_append_left _ hs))
    have h2 := genArgs_setAttrs p name ats rest (genArg p r a).1
      (fun s hs => h s (List.mem_append_right _ hs))
    rw [h1, h2]

/-- Literal version of `genArg_setAttrs`: negated atoms never read the
relation, and positive atoms read only the named relation. -/
theorem genLit_setAttrs (p : Program) (name : String) (ats : List AttrDecl) :
    ∀ (l : Lit) (r : RepSt), (∀ s ∈ l.atomRels, s ≠ name) →
      genLit (setAttrs p name ats) r l = genLit p r l
  | .atom l rel args, r, h => by
    rw [genLit.eq_def, genLit.eq_def]
    simp only
    have ha := genArgs_setAttrs p name ats args r
      (fun s hs => h s (List.mem_cons_of_mem _ hs))
    have hrel : rel ≠ name := h rel (List.mem_cons_self _ _)
    have hg := getRelation_setAttrs p name ats rel hrel
    rw [ha, hg]
    cases p.getRelation rel with
    | none => rfl
    | some rd =>
      simp only
      rw [genAtomFixed_setAttrs]
  | .neg l al rel args, r, h => by
    rw [genLit, genLit]
    exact genArgs_setAttrs p name ats args r h
  | .binary l op a b, r, h => by
    rw [genLit, genLit]
    have h1 := genArg_setAttrs p name ats a r
      (fun s hs => h s (List.mem_append_left _ hs))
    have h2 := genArg_setAttrs p name ats b (genArg p r a).1
      (fun s hs => h s (List.mem_append_right _ hs))
    rw [h1, h2]
  | .boolc _ _, _, _ => rfl

/-- Literal-list version of `genArg_setAttrs`. -/
theorem genLits_setAttrs (p : Program) (name : String) (ats : List AttrDecl) :
    ∀ (ls : List Lit) (r : RepSt), (∀ s ∈ atomRelsLits ls, s ≠ name) →
      genLits (setAttrs p name ats) r ls = genLits p r ls
  | [], _, _ => rfl
  | l :: rest, r, h => by
    rw [genLits, genLits]
    have h1 := genLit_setAttrs p name ats l r
      (fun s hs => h s (List.mem_append_left _ hs))
    have h2 := genLits_setAttrs p name ats rest (genLit p r l).1
      (fun s hs => h s (List.mem_append_right _ hs))
    rw [h1, h2]
end

end SouffleCore

namespace SouffleCore

/-- C8.  Constraint generation never imposes the head atom's declared
attribute types: a clause's constraints are those of the body literals
followed by those of the head's children only (first conjunct), whereas
a positive atom of the same shape would additionally emit the
per-attribute `Fixed` constraints (second conjunct); consequently, when
no positive atom of the clause names the head relation, the generated
constraints are unchanged under any replacement of the head relation's
attribute types (third conjunct).  Conformance is instead checked after
solving: the head atom is among the checked atoms (fourth conjunct),
and the atom check accepts exactly when every atom argument with a
valid inferred type is a subtype of the declared attribute type (fifth
conjunct). -/
theorem head_attrs_not_imposed (p : Program) (c : Clause) :
    ((genClause p c).2 =
      (genLits p [] c.body).2 ++
      (genArgs p (genLits p [] c.body).1 c.headArgs).2) ∧
    (∀ (r : RepSt) (rd : RelDecl), p.getRelation c.headRel = some rd →
      genLit p r c.headAtom =
        ((genAtomFixed p (genArgs p r c.headArgs).1 c.headArgs rd.attrs).1,
         (genArgs p r c.headArgs).2 ++
         (genAtomFixed p (genArgs p r c.headArgs).1 c.headArgs rd.attrs).2)) ∧
    (∀ ats : List AttrDecl,
      (∀ s ∈ atomRelsLits c.body ++ atomRelsList c.headArgs, s ≠ c.headRel) →
      genClause (setAttrs p c.headRel ats) c = genClause p c) ∧
    ((c.headLoc, c.headRel, c.headArgs) ∈ c.atoms) ∧
    (checkAtomTypes p c = [] ↔
      ∀ av ∈ c.atoms, ∀ rd : RelDecl, p.getRelation av.2.1 = some rd →
        ∀ pr ∈ av.2.2.zip rd.attrs,
          (clauseTypeOf p c pr.1).isValidType = true →
          typeLe (clauseTypeOf p c pr.1)
            (getAnalysisTypeByName p pr.2.typeName) = true) := by
  refine ⟨rfl, ?_, ?_, ?_, ?_⟩
  · intro r rd hrd
    rw [Clause.headAtom, genLit, hrd]
  · intro ats hscope
    rw [genClause, genClause]
    have hb := genLits_setAttrs p c.headRel ats c.body []
      (fun s hs => hscope s (List.mem_append_left _ hs))
    have ha := genArgs_setAttrs p c.headRel ats c.headArgs
      (genLits p [] c.body).1
      (fun s hs => hscope s (List.mem_append_right _ hs))
    rw [hb, ha]
  · rw [Clause.atoms]
    apply List.mem_filterMap.mpr
    refine ⟨c.headAtom, ?_, rfl⟩
    rw [Clause.allLits]
    apply List.mem_append_left
    show c.headAtom ∈ (Lit.atom c.headLoc c.headRel c.headArgs).subLits1
    rw [Lit.subLits1]
    exact List.mem_cons_self _ _
  · constructor
    · intro hE av hav rd hrd pr hpr hvalid
      rw [checkAtomTypes, List.flatMap_eq_nil_iff] at hE
      have h1 := hE av hav
      rw [hrd] at h1
      have h2 : (av.2.2.zip rd.attrs).flatMap (fun pr =>
          if (clauseTypeOf p c pr.1).isValidType &&
             !(typeLe (clauseTypeOf p c pr.1)
               (getAnalysisTypeByName p pr.2.typeName)) then
            [mkError ("Relation expects value of type " ++ pr.2.typeName ++
              " but got argument of type " ++ tstr (clauseTypeOf p c pr.1)) pr.1.loc]
          else []) = [] := h1
      rw [List.flatMap_eq_nil_iff] at h2
      have h3 := h2 pr hpr
      by_contra hle
      rw [Bool.not_eq_true] at hle
      rw [if_pos (by rw [hvalid, hle]; rfl)] at h3
      cases h3
    · intro hall
      rw [checkAtomTypes, List.flatMap_eq_nil_iff]
      intro av hav
      cases hrd : p.getRelation av.2.1 with
      | none => rfl
      | some rd =>
        have h2 : (av.2.2.zip rd.attrs).flatMap (fun pr =>
            if (clauseTypeOf p c pr.1).isValidType &&
               !(typeLe (clauseTypeOf p c pr.1)
                 (getAnalysisTypeByName p pr.2.typeName)) then
              [mkError ("Relation expects value of type " ++ pr.2.typeName ++
                " but got argument of type " ++ tstr (clauseTypeOf p c pr.1)) pr.1.loc]
            else []) = [] := by
          rw [List.flatMap_eq_nil_iff]
          intro pr hpr
          by_cases hv : (clauseTypeOf p c pr.1).isValidType = true
          · have hle := hall av hav rd hrd pr hpr hv
            rw [if_neg (by rw [hv, hle]; simp)]
          · rw [Bool.not_eq_true] at hv
            rw [if_neg (by rw [hv]; simp)]
        exact h2

end SouffleCore
